import Mathlib

/-!
A shallow embedding of `src/bitset.c`, a two-level sparse bitset with
block-level reference counting and copy-on-write, together with proofs
about its specification.

Blocks live in a heap (`Store`): a block is addressed by a numeric id
(its index in the store), a freed block becomes `none`.  A `bitset`
holds optional block ids in its slot array, exactly mirroring the
nullable `struct bitset_block *` slots of the C code.  Machine
integers are modelled as `Int` (for the C `int` fields) and as `Nat`
below `2 ^ 64` (for the `int64_t` words, which the code manipulates
exclusively through bitwise operations).  Allocation is modelled by an
explicit success flag `m` passed to every operation that calls
`malloc`: `m = true` is the run in which every allocation succeeds,
`m = false` the run in which the first attempted allocation fails
(returning `ERRMEM` exactly where the C code does).
-/

/-- Modelled from the spec: `bitset.h` is not under `src/`.  The spec fixes the
block geometry — a block is a constant-size array of unsigned 64-bit words and
the worked scenarios assume a block capacity of 128 bits — so `BLOCKSIZE`,
the word count of a block, is 2. -/
def BLOCKSIZE : Nat := 2

/-- Modelled from the spec: the block capacity in bits (`IDSPERBLOCK` in the
source), which is `64 ×` the word count. -/
def IDSPERBLOCK : Nat := 64 * BLOCKSIZE

/-- Modelled from the spec: the slot count is `ceil(bit_capacity / block_capacity)`;
the C macro `BLOCKCOUNT` computes this with C truncating integer division,
which on `Int` is `Int.tdiv`. -/
def BLOCKCOUNT (n : Int) : Int := (n + ((IDSPERBLOCK : Int) - 1)).tdiv (IDSPERBLOCK : Int)

/-- All 64 bits set: the value of a word after `memset(…, -1, …)`, and the
64-bit complement mask (`~x` on a 64-bit word is `U64MAX ^^^ x`). -/
def U64MAX : Nat := 2 ^ 64 - 1

/-- The return codes of the library: `OK`, `ERRINPUT` (`InvalidInput`) and
`ERRMEM` (`OutOfMemory`). -/
inductive rc where
  | OK
  | ERRINPUT
  | ERRMEM
deriving DecidableEq, Repr

/-- `struct bitset_block`: a reference count, the cached population count
`set_count`, and `BLOCKSIZE` 64-bit words. -/
structure bitset_block where
  ref_count : Int
  set_count : Int
  ints : List Nat
deriving DecidableEq, Repr

/-- The value read through a dangling block pointer; such reads are guarded by
assertions in the C code and by well-formedness hypotheses here. -/
def defaultBlock : bitset_block := ⟨0, 0, []⟩

/-- The heap of blocks: a block id is an index into this list, a freed block
is `none`. -/
abbrev Store := List (Option bitset_block)

def store_get (st : Store) (id : Nat) : Option bitset_block := st.getD id none

def store_getblk (st : Store) (id : Nat) : bitset_block := (store_get st id).getD defaultBlock

/-- Mutate the block at `id` in place (no-op on a dangling id). -/
def store_modify (st : Store) (id : Nat) (f : bitset_block → bitset_block) : Store :=
  match store_get st id with
  | none => st
  | some b => st.set id (some (f b))

/-- `bitset_block_new` + initialisation: append a fresh block to the heap and
return its id. -/
def store_alloc (st : Store) (blk : bitset_block) : Store × Nat :=
  (st ++ [some blk], st.length)

/-- `struct bitset`: the fixed bit capacity, the slot count and the slot
array of nullable block references. -/
structure bitset where
  bitcount : Int
  block_count : Int
  blocks : List (Option Nat)
deriving DecidableEq, Repr

/-- The all-absent bitset a slot-index into a missing list element denotes. -/
def defaultBitset : bitset := ⟨0, 0, []⟩

/-! ## Block-level word operations (`bitset_block_*`) -/

/-- Population count of one 64-bit word (`__builtin_popcountll`). -/
def popcount64 (n : Nat) : Nat := (List.range 64).countP (fun b => n.testBit b)

/-- Sum of the word population counts of a block's word array. -/
def block_popcount (l : List Nat) : Nat := (l.map popcount64).sum

/-- `bitset_block_set_bit`: `ints[n] |= 1ull << b; set_count++`. -/
def bitset_block_set_bit (blk : bitset_block) (bit : Nat) : bitset_block :=
  let n := bit / 64
  let b := bit % 64
  { blk with
      ints := blk.ints.set n ((blk.ints.getD n 0) ||| (1 <<< b)),
      set_count := blk.set_count + 1 }

/-- `bitset_block_clr_bit`: `ints[n] &= ~(1ull << b); set_count--`. -/
def bitset_block_clr_bit (blk : bitset_block) (bit : Nat) : bitset_block :=
  let n := bit / 64
  let b := bit % 64
  { blk with
      ints := blk.ints.set n ((blk.ints.getD n 0) &&& (U64MAX ^^^ (1 <<< b))),
      set_count := blk.set_count - 1 }

/-- `bitset_block_toggle_bit`: xor the word with the mask and adjust
`set_count` by the resulting bit value. -/
def bitset_block_toggle_bit (blk : bitset_block) (bit : Nat) : bitset_block :=
  let n := bit / 64
  let b := bit % 64
  let w := (blk.ints.getD n 0) ^^^ (1 <<< b)
  { blk with
      ints := blk.ints.set n w,
      set_count := if w &&& (1 <<< b) = 0 then blk.set_count - 1 else blk.set_count + 1 }

/-- `bitset_block_test_bit`: `(ints[n] & (1ull << b)) != 0`. -/
def bitset_block_test_bit (blk : bitset_block) (bit : Nat) : Bool :=
  (blk.ints.getD (bit / 64) 0) &&& (1 <<< (bit % 64)) != 0

/-- `bitset_block_or`: word-wise or and recompute `set_count` as the popcount
of the result. -/
def bitset_block_or (a b : bitset_block) : bitset_block :=
  let ints := List.zipWith (fun x y => x ||| y) a.ints b.ints
  { a with ints := ints, set_count := (block_popcount ints : Int) }

/-- `bitset_block_and`: word-wise and, recomputing `set_count`. -/
def bitset_block_and (a b : bitset_block) : bitset_block :=
  let ints := List.zipWith (fun x y => x &&& y) a.ints b.ints
  { a with ints := ints, set_count := (block_popcount ints : Int) }

/-- `bitset_block_subtract`: word-wise and-not, recomputing `set_count`. -/
def bitset_block_subtract (a b : bitset_block) : bitset_block :=
  let ints := List.zipWith (fun x y => x &&& (U64MAX ^^^ y)) a.ints b.ints
  { a with ints := ints, set_count := (block_popcount ints : Int) }

/-- `bitset_block_invert`: complement every word and set
`set_count = IDSPERBLOCK - set_count`. -/
def bitset_block_invert (b : bitset_block) : bitset_block :=
  { b with
      ints := b.ints.map (fun x => U64MAX ^^^ x),
      set_count := (IDSPERBLOCK : Int) - b.set_count }

/-- `bitset_block_incref`: `blk->ref_count++`. -/
def bitset_block_incref (st : Store) (id : Nat) : Store :=
  store_modify st id (fun b => { b with ref_count := b.ref_count + 1 })

/-- `bitset_block_decref`: decrement and free the block on reaching zero. -/
def bitset_block_decref (st : Store) (id : Nat) : Store :=
  match store_get st id with
  | none => st
  | some b =>
    if b.ref_count - 1 = 0 then st.set id none
    else st.set id (some { b with ref_count := b.ref_count - 1 })

/-! ## Block allocation helpers -/

/-- `bitset_block_alloc`: allocate a zeroed block with `ref_count = 1` and
install it in slot `block` (the C code asserts the slot was empty).  `m` is
the allocation-success flag. -/
def bitset_block_alloc (m : Bool) (st : Store) (bs : bitset) (block : Nat) :
    rc × Store × bitset × Nat :=
  if m then
    let p := store_alloc st ⟨1, 0, List.replicate BLOCKSIZE 0⟩
    (rc.OK, p.1, { bs with blocks := bs.blocks.set block (some p.2) }, p.2)
  else (rc.ERRMEM, st, bs, 0)

/-- `bitset_block_realloc`: privatise the shared block in slot `block`: save
the original, decref it, clear the slot, then allocate a copy with
`ref_count = 1` and install it.  When the allocation fails the function
returns `ERRMEM` with the reference already released and the slot already
cleared, exactly as in the source. -/
def bitset_block_realloc (m : Bool) (st : Store) (bs : bitset) (block : Nat) :
    rc × Store × bitset × Nat :=
  match bs.blocks.getD block none with
  | none => (rc.OK, st, bs, 0)
  | some oid =>
    let orig := store_getblk st oid
    let st1 := bitset_block_decref st oid
    let bs1 := { bs with blocks := bs.blocks.set block none }
    if m then
      let p := store_alloc st1 ⟨1, orig.set_count, orig.ints⟩
      (rc.OK, p.1, { bs1 with blocks := bs1.blocks.set block (some p.2) }, p.2)
    else (rc.ERRMEM, st1, bs1, 0)

/-! ## Bitset lifecycle operations -/

/-- `bitset_init`: record the capacity, compute the slot count with
`BLOCKCOUNT` and allocate the all-absent slot array. -/
def bitset_init (bitcount : Int) : bitset :=
  ⟨bitcount, BLOCKCOUNT bitcount, List.replicate (BLOCKCOUNT bitcount).toNat none⟩

/-- `bitset_alloc`: `out_busy` models the C guard
`bset_out == NULL || *bset_out != NULL`, `m` allocation success. -/
def bitset_alloc (m : Bool) (out_busy : Bool) (bitcount : Int) : rc × Option bitset :=
  if out_busy then (rc.ERRINPUT, none)
  else if m then (rc.OK, some (bitset_init bitcount))
  else (rc.ERRMEM, none)

/-- The incref pass of `bitset_dup` over the copied slot array. -/
def dup_incref_loop (st : Store) : List (Option Nat) → Store
  | [] => st
  | none :: ls => dup_incref_loop st ls
  | some id :: ls => dup_incref_loop (bitset_block_incref st id) ls

/-- `bitset_dup`: shallow-copy the slot array and incref every present
block. -/
def bitset_dup (m : Bool) (out_busy : Bool) (st : Store) (s : bitset) :
    rc × Store × Option bitset :=
  if out_busy then (rc.ERRINPUT, st, none)
  else if m then
    (rc.OK, dup_incref_loop st s.blocks, some ⟨s.bitcount, s.block_count, s.blocks⟩)
  else (rc.ERRMEM, st, none)

/-- `bitset_free`'s effect on the heap: decref every present slot. -/
def bitset_free (st : Store) : List (Option Nat) → Store
  | [] => st
  | none :: ls => bitset_free st ls
  | some id :: ls => bitset_free (bitset_block_decref st id) ls

/-! ## Object information -/

/-- `bitset_bitcount`. -/
def bitset_bitcount (a : bitset) : Int := a.bitcount

/-- `bitset_set_count`: sum the cached `set_count` of every present slot
(absent slots contribute 0). -/
def bitset_set_count (st : Store) (a : bitset) : Int :=
  ((List.range a.block_count.toNat).map (fun i =>
    match a.blocks.getD i none with
    | none => 0
    | some id => (store_getblk st id).set_count)).sum

/-! ## Bit operations -/

/-- `bitset_test_bit`: out-of-range indices are `ERRINPUT`; an absent slot
reads as 0. -/
def bitset_test_bit (st : Store) (a : bitset) (bit : Int) : rc × Bool :=
  if bit < 0 ∨ a.bitcount ≤ bit then (rc.ERRINPUT, false)
  else
    match a.blocks.getD (bit.toNat / IDSPERBLOCK) none with
    | none => (rc.OK, false)
    | some id => (rc.OK, bitset_block_test_bit (store_getblk st id) (bit.toNat % IDSPERBLOCK))

/-- The observable value of bit `bit` (the `*out` written by
`bitset_test_bit`). -/
def btest (st : Store) (a : bitset) (bit : Int) : Bool := (bitset_test_bit st a bit).2

/-- `bitset_set`: materialise an absent block, short-circuit when the bit is
already set, privatise a shared block, then set the bit. -/
def bitset_set (m : Bool) (st : Store) (bs : bitset) (bit : Int) : rc × Store × bitset :=
  if bit < 0 ∨ bs.bitcount ≤ bit then (rc.ERRINPUT, st, bs)
  else
    let block := bit.toNat / IDSPERBLOCK
    let block_bit := bit.toNat % IDSPERBLOCK
    match bs.blocks.getD block none with
    | none =>
      match bitset_block_alloc m st bs block with
      | (rc.OK, st1, bs1, nid) =>
        (rc.OK, store_modify st1 nid (fun b => bitset_block_set_bit b block_bit), bs1)
      | (e, st1, bs1, _) => (e, st1, bs1)
    | some id =>
      if bitset_block_test_bit (store_getblk st id) block_bit then (rc.OK, st, bs)
      else if 1 < (store_getblk st id).ref_count then
        match bitset_block_realloc m st bs block with
        | (rc.OK, st1, bs1, nid) =>
          (rc.OK, store_modify st1 nid (fun b => bitset_block_set_bit b block_bit), bs1)
        | (e, st1, bs1, _) => (e, st1, bs1)
      else
        (rc.OK, store_modify st id (fun b => bitset_block_set_bit b block_bit), bs)

/-- `bitset_clr`: no-ops on an absent slot or a clear bit, privatises a
shared block, then clears the bit. -/
def bitset_clr (m : Bool) (st : Store) (bs : bitset) (bit : Int) : rc × Store × bitset :=
  if bit < 0 ∨ bs.bitcount ≤ bit then (rc.ERRINPUT, st, bs)
  else
    let block := bit.toNat / IDSPERBLOCK
    let block_bit := bit.toNat % IDSPERBLOCK
    match bs.blocks.getD block none with
    | none => (rc.OK, st, bs)
    | some id =>
      if bitset_block_test_bit (store_getblk st id) block_bit = false then (rc.OK, st, bs)
      else if 1 < (store_getblk st id).ref_count then
        match bitset_block_realloc m st bs block with
        | (rc.OK, st1, bs1, nid) =>
          (rc.OK, store_modify st1 nid (fun b => bitset_block_clr_bit b block_bit), bs1)
        | (e, st1, bs1, _) => (e, st1, bs1)
      else
        (rc.OK, store_modify st id (fun b => bitset_block_clr_bit b block_bit), bs)

/-- `bitset_toggle_bit`: materialise an absent block or privatise a shared
one, then toggle the bit. -/
def bitset_toggle_bit (m : Bool) (st : Store) (bs : bitset) (bit : Int) : rc × Store × bitset :=
  if bit < 0 ∨ bs.bitcount ≤ bit then (rc.ERRINPUT, st, bs)
  else
    let block := bit.toNat / IDSPERBLOCK
    let block_bit := bit.toNat % IDSPERBLOCK
    match bs.blocks.getD block none with
    | none =>
      match bitset_block_alloc m st bs block with
      | (rc.OK, st1, bs1, nid) =>
        (rc.OK, store_modify st1 nid (fun b => bitset_block_toggle_bit b block_bit), bs1)
      | (e, st1, bs1, _) => (e, st1, bs1)
    | some id =>
      if 1 < (store_getblk st id).ref_count then
        match bitset_block_realloc m st bs block with
        | (rc.OK, st1, bs1, nid) =>
          (rc.OK, store_modify st1 nid (fun b => bitset_block_toggle_bit b block_bit), bs1)
        | (e, st1, bs1, _) => (e, st1, bs1)
      else
        (rc.OK, store_modify st id (fun b => bitset_block_toggle_bit b block_bit), bs)

/-! ## Whole-set operations -/

/-- The loop body of `bitset_invert`: absent slots materialise a private
all-ones block, full blocks are released to the canonical absent form, and
partial blocks are complemented in place (the source performs no sharing
check here: `bitset_block_invert` merely asserts `ref_count == 1`; we model
the `NDEBUG` behaviour in which the write goes through). -/
def bitset_invert_loop (m : Bool) : Store → bitset → List Nat → rc × Store × bitset
  | st, a, [] => (rc.OK, st, a)
  | st, a, i :: ks =>
    match a.blocks.getD i none with
    | none =>
      if m then
        let p := store_alloc st ⟨1, (IDSPERBLOCK : Int), List.replicate BLOCKSIZE U64MAX⟩
        bitset_invert_loop m p.1 { a with blocks := a.blocks.set i (some p.2) } ks
      else (rc.ERRMEM, st, a)
    | some id =>
      if (store_getblk st id).set_count = (64 * BLOCKSIZE : Int) then
        bitset_invert_loop m (bitset_block_decref st id)
          { a with blocks := a.blocks.set i none } ks
      else
        bitset_invert_loop m (store_modify st id bitset_block_invert) a ks

/-- `bitset_invert`: invert every slot in place. -/
def bitset_invert (m : Bool) (st : Store) (a : bitset) : rc × Store × bitset :=
  bitset_invert_loop m st a (List.range a.block_count.toNat)

/-- `bitset_inverse`: duplicate, then invert the duplicate; on an error from
the second step the partially built result is freed. -/
def bitset_inverse (m : Bool) (out_busy : Bool) (st : Store) (a : bitset) :
    rc × Store × Option bitset :=
  if out_busy then (rc.ERRINPUT, st, none)
  else
    match bitset_dup m false st a with
    | (rc.OK, st1, some r) =>
      match bitset_invert m st1 r with
      | (rc.OK, st2, r2) => (rc.OK, st2, some r2)
      | (e, st2, r2) => (e, bitset_free st2 r2.blocks, none)
    | (e, st1, _) => (e, st1, none)

/-- The loop body of `bitset_or`: an absent `a`-slot adopts `b`'s block by
reference (incref, no copy); two present slots are or-combined after a COW
privatisation of `a`'s block when it is shared. -/
def bitset_or_loop (m : Bool) : Store → bitset → bitset → List Nat → rc × Store × bitset
  | st, a, _, [] => (rc.OK, st, a)
  | st, a, b, i :: ks =>
    match a.blocks.getD i none, b.blocks.getD i none with
    | none, some bid =>
      bitset_or_loop m (bitset_block_incref st bid)
        { a with blocks := a.blocks.set i (some bid) } b ks
    | some aid, some bid =>
      if 1 < (store_getblk st aid).ref_count then
        match bitset_block_realloc m st a i with
        | (rc.OK, st1, a1, nid) =>
          bitset_or_loop m
            (store_modify st1 nid (fun ab => bitset_block_or ab (store_getblk st1 bid)))
            a1 b ks
        | (e, st1, a1, _) => (e, st1, a1)
      else
        bitset_or_loop m
          (store_modify st aid (fun ab => bitset_block_or ab (store_getblk st bid)))
          a b ks
    | _, _ => bitset_or_loop m st a b ks

/-- `bitset_or` (in-place union): requires equal capacities. -/
def bitset_or (m : Bool) (st : Store) (a b : bitset) : rc × Store × bitset :=
  if a.bitcount ≠ b.bitcount then (rc.ERRINPUT, st, a)
  else bitset_or_loop m st a b (List.range a.block_count.toNat)

/-- The loop body of `bitset_and`: a present `a`-slot meeting an absent
`b`-slot is released to the canonical absent form; two present slots are
and-combined after COW privatisation when shared. -/
def bitset_and_loop (m : Bool) : Store → bitset → bitset → List Nat → rc × Store × bitset
  | st, a, _, [] => (rc.OK, st, a)
  | st, a, b, i :: ks =>
    match a.blocks.getD i none, b.blocks.getD i none with
    | some aid, none =>
      bitset_and_loop m (bitset_block_decref st aid)
        { a with blocks := a.blocks.set i none } b ks
    | some aid, some bid =>
      if 1 < (store_getblk st aid).ref_count then
        match bitset_block_realloc m st a i with
        | (rc.OK, st1, a1, nid) =>
          bitset_and_loop m
            (store_modify st1 nid (fun ab => bitset_block_and ab (store_getblk st1 bid)))
            a1 b ks
        | (e, st1, a1, _) => (e, st1, a1)
      else
        bitset_and_loop m
          (store_modify st aid (fun ab => bitset_block_and ab (store_getblk st bid)))
          a b ks
    | _, _ => bitset_and_loop m st a b ks

/-- `bitset_and` (in-place intersection): requires equal capacities. -/
def bitset_and (m : Bool) (st : Store) (a b : bitset) : rc × Store × bitset :=
  if a.bitcount ≠ b.bitcount then (rc.ERRINPUT, st, a)
  else bitset_and_loop m st a b (List.range a.block_count.toNat)

/-- The loop body of `bitset_subtract`: only two present slots do work, an
and-not after COW privatisation when shared. -/
def bitset_subtract_loop (m : Bool) : Store → bitset → bitset → List Nat → rc × Store × bitset
  | st, a, _, [] => (rc.OK, st, a)
  | st, a, b, i :: ks =>
    match a.blocks.getD i none, b.blocks.getD i none with
    | some aid, some bid =>
      if 1 < (store_getblk st aid).ref_count then
        match bitset_block_realloc m st a i with
        | (rc.OK, st1, a1, nid) =>
          bitset_subtract_loop m
            (store_modify st1 nid (fun ab => bitset_block_subtract ab (store_getblk st1 bid)))
            a1 b ks
        | (e, st1, a1, _) => (e, st1, a1)
      else
        bitset_subtract_loop m
          (store_modify st aid (fun ab => bitset_block_subtract ab (store_getblk st bid)))
          a b ks
    | _, _ => bitset_subtract_loop m st a b ks

/-- `bitset_subtract` (in-place difference): requires equal capacities. -/
def bitset_subtract (m : Bool) (st : Store) (a b : bitset) : rc × Store × bitset :=
  if a.bitcount ≠ b.bitcount then (rc.ERRINPUT, st, a)
  else bitset_subtract_loop m st a b (List.range a.block_count.toNat)

/-! ## Well-formedness

Boolean (hence executable) well-formedness predicates.  They record facts the
C runtime guarantees structurally: a block's word array has `BLOCKSIZE` words
each below `2 ^ 64` and its cached `set_count` is the popcount of its words; a
bitset's slot array has `block_count` entries, every present slot references a
live block, and no block is referenced from two slots of the same bitset. -/

/-- Integrity of a single block's representation. -/
def block_wfb (blk : bitset_block) : Bool :=
  (blk.ints.length == BLOCKSIZE)
    && blk.ints.all (fun w => w < 2 ^ 64)
    && (blk.set_count == (block_popcount blk.ints : Int))

/-- Every live block in the heap is well formed. -/
def store_wfb (st : Store) : Bool :=
  st.all (fun o =>
    match o with
    | none => true
    | some blk => block_wfb blk)

/-- The block ids held by a bitset's present slots, in slot order. -/
def present_ids (bs : bitset) : List Nat := bs.blocks.filterMap (fun o => o)

/-- Structural well-formedness of one bitset against the heap. -/
def bs_wfb (st : Store) (bs : bitset) : Bool :=
  (bs.blocks.length == bs.block_count.toNat)
    && decide (bs.bitcount ≤ bs.block_count * (IDSPERBLOCK : Int))
    && decide (0 ≤ bs.block_count)
    && bs.blocks.all (fun o =>
        match o with
        | none => true
        | some id => (store_get st id).isSome)
    && decide (present_ids bs).Nodup

/-- How many slots of `bs` hold an owning reference to block `id`. -/
def slotrefs (bs : bitset) (id : Nat) : Nat :=
  bs.blocks.countP (fun o => o == some id)

/-- How many slots across all the bitsets of `L` hold an owning reference to
block `id`. -/
def refs (L : List bitset) (id : Nat) : Nat :=
  (L.map (fun bs => slotrefs bs id)).sum

/-- The shape part of the global invariant: every live bitset's slot array
really has `block_count` entries. -/
def shapeb (L : List bitset) : Bool :=
  L.all (fun bs => bs.blocks.length == bs.block_count.toNat)

/-- The reference-count invariant: every block referenced by a present slot
of a live bitset is live in the heap and its `ref_count` equals the total
number of slots, across all live bitsets, referencing it. -/
def rcinvb (st : Store) (L : List bitset) : Bool :=
  L.all (fun bs =>
    (present_ids bs).all (fun id =>
      match store_get st id with
      | none => false
      | some blk => blk.ref_count == (refs L id : Int)))

/-! ## The public operations as a step relation

`bop` enumerates the public mutating operations; `bexec` runs one against a
heap and a list of live bitsets (operands are named by their position in the
list, results of the allocating operations are appended).  Allocation always
succeeds (`m = true`) in this quiescent-state semantics. -/

inductive bop where
  | opSet (k : Nat) (bit : Int)
  | opClr (k : Nat) (bit : Int)
  | opToggle (k : Nat) (bit : Int)
  | opInvert (k : Nat)
  | opOr (k j : Nat)
  | opAnd (k j : Nat)
  | opSubtract (k j : Nat)
  | opDup (k : Nat)
  | opInverse (k : Nat)
  | opUnion (k j : Nat)
  | opIntersect (k j : Nat)
  | opDifference (k j : Nat)
  | opAlloc (n : Int)
  | opFree (k : Nat)
deriving DecidableEq, Repr

/-- Append the result bitset of an output-producing operation when it
succeeded. -/
def appendResult (L : List bitset) : Option bitset → List bitset
  | none => L
  | some r => L ++ [r]

/-- Run one public operation.  `bitset_union`, `bitset_intersect` and
`bitset_difference` are the source's result-producing compositions: duplicate
the first operand, apply the in-place operation to the duplicate, free the
duplicate if that fails. -/
def bexec (st : Store) (L : List bitset) : bop → Store × List bitset
  | bop.opSet k bit =>
    let a := L.getD k defaultBitset
    let r := bitset_set true st a bit
    (r.2.1, L.set k r.2.2)
  | bop.opClr k bit =>
    let a := L.getD k defaultBitset
    let r := bitset_clr true st a bit
    (r.2.1, L.set k r.2.2)
  | bop.opToggle k bit =>
    let a := L.getD k defaultBitset
    let r := bitset_toggle_bit true st a bit
    (r.2.1, L.set k r.2.2)
  | bop.opInvert k =>
    let a := L.getD k defaultBitset
    let r := bitset_invert true st a
    (r.2.1, L.set k r.2.2)
  | bop.opOr k j =>
    let r := bitset_or true st (L.getD k defaultBitset) (L.getD j defaultBitset)
    (r.2.1, L.set k r.2.2)
  | bop.opAnd k j =>
    let r := bitset_and true st (L.getD k defaultBitset) (L.getD j defaultBitset)
    (r.2.1, L.set k r.2.2)
  | bop.opSubtract k j =>
    let r := bitset_subtract true st (L.getD k defaultBitset) (L.getD j defaultBitset)
    (r.2.1, L.set k r.2.2)
  | bop.opDup k =>
    let r := bitset_dup true false st (L.getD k defaultBitset)
    (r.2.1, appendResult L r.2.2)
  | bop.opInverse k =>
    let r := bitset_inverse true false st (L.getD k defaultBitset)
    (r.2.1, appendResult L r.2.2)
  | bop.opUnion k j =>
    match bitset_dup true false st (L.getD k defaultBitset) with
    | (rc.OK, st1, some r) =>
      let p := bitset_or true st1 r (L.getD j defaultBitset)
      match p.1 with
      | rc.OK => (p.2.1, L ++ [p.2.2])
      | _ => (bitset_free p.2.1 p.2.2.blocks, L)
    | (_, st1, _) => (st1, L)
  | bop.opIntersect k j =>
    match bitset_dup true false st (L.getD k defaultBitset) with
    | (rc.OK, st1, some r) =>
      let p := bitset_and true st1 r (L.getD j defaultBitset)
      match p.1 with
      | rc.OK => (p.2.1, L ++ [p.2.2])
      | _ => (bitset_free p.2.1 p.2.2.blocks, L)
    | (_, st1, _) => (st1, L)
  | bop.opDifference k j =>
    match bitset_dup true false st (L.getD k defaultBitset) with
    | (rc.OK, st1, some r) =>
      let p := bitset_subtract true st1 r (L.getD j defaultBitset)
      match p.1 with
      | rc.OK => (p.2.1, L ++ [p.2.2])
      | _ => (bitset_free p.2.1 p.2.2.blocks, L)
    | (_, st1, _) => (st1, L)
  | bop.opAlloc n =>
    match bitset_alloc true false n with
    | (rc.OK, some b) => (st, L ++ [b])
    | _ => (st, L)
  | bop.opFree k =>
    (bitset_free st (L.getD k defaultBitset).blocks, L.eraseIdx k)

/-- The number of indices in `[0, bit_capacity)` whose `test` observation is
true: the measure the cardinality claims compare `bitset_set_count`
against. -/
def bitset_true_count (st : Store) (a : bitset) : Nat :=
  ((List.range a.bitcount.toNat).filter (fun i => btest st a (i : Int))).length

/-- The words stored at an id, the only block data `test` observes. -/
def intsAt (st : Store) (id : Nat) : Option (List Nat) :=
  (store_get st id).map bitset_block.ints

/-- The observation `test` makes through slot `j` at in-block bit `b2`
(`bitset_test_bit` without the range guard). -/
def slot_test (st : Store) (a : bitset) (j b2 : Nat) : Bool :=
  match a.blocks.getD j none with
  | none => false
  | some id => bitset_block_test_bit (store_getblk st id) b2

/-- The state a failed copy-on-write clone leaves behind at slot `blockIdx`
which previously held the shared block `blk` at heap id `id`: the operation
reports `ERRMEM`, the slot is already absent, the shared block's reference
count has already been released (but the block itself is intact), and every
`test` in the slot's bit range now reads 0. -/
def oom_cow_post (blockIdx id : Nat) (blk : bitset_block) (r : rc × Store × bitset) : Prop :=
  r.1 = rc.ERRMEM ∧
  r.2.2.blocks.getD blockIdx none = none ∧
  store_get r.2.1 id = some { blk with ref_count := blk.ref_count - 1 } ∧
  ∀ j : Int, 0 ≤ j → j < r.2.2.bitcount → j.toNat / IDSPERBLOCK = blockIdx →
    btest r.2.1 r.2.2 j = false

/-- `id` is held by some slot of some live bitset. -/
def referenced (L : List bitset) (id : Nat) : Prop :=
  ∃ bs ∈ L, some id ∈ bs.blocks

/-- The reference-count invariant as a proposition: every referenced block is
live and its `ref_count` is the total number of owning slots. -/
def rcinvP (st : Store) (L : List bitset) : Prop :=
  ∀ id, referenced L id →
    ∃ blk, store_get st id = some blk ∧ blk.ref_count = (refs L id : Int)

/-! ## Concrete scenario states

Executable states reached by short public-operation sequences from scratch,
used by the concrete theorems below. -/

/-- Capacity-200 scenario: `set 5`, `set 150`, then `invert`, on an initially
empty bitset (block capacity 128, two slots). -/
def scenC1 : Store × bitset :=
  let a := bitset_init 200
  let p := bitset_set true [] a 5
  let q := bitset_set true p.2.1 p.2.2 150
  let r := bitset_invert true q.2.1 q.2.2
  (r.2.1, r.2.2)

/-- Capacity-128 bitset holding exactly bit 0, built by `set 0`. -/
def scenC2a : Store × bitset :=
  let p := bitset_set true [] (bitset_init 128) 0
  (p.2.1, p.2.2)

/-- Duplicate of `scenC2a`'s bitset (sharing its block). -/
def scenC2dup : rc × Store × Option bitset :=
  bitset_dup true false scenC2a.1 scenC2a.2

/-- `invert` applied to the duplicate. -/
def scenC2after : rc × Store × bitset :=
  bitset_invert true scenC2dup.2.1 (scenC2dup.2.2.getD defaultBitset)

/-- Capacity-128 scenario: `set 5` then `clr 5`, leaving a present all-zero
block. -/
def scenZeroBlock : Store × bitset :=
  let p := bitset_set true [] (bitset_init 128) 5
  let q := bitset_clr true p.2.1 p.2.2 5
  (q.2.1, q.2.2)

/-- Capacity-128 scenario: `set 0` then `clr 0` (a present all-zero block),
the input of the double-complement counterexample. -/
def scenC4a : Store × bitset :=
  let p := bitset_set true [] (bitset_init 128) 0
  let q := bitset_clr true p.2.1 p.2.2 0
  (q.2.1, q.2.2)

/-- First complement of `scenC4a`. -/
def scenC4inv1 : rc × Store × Option bitset :=
  bitset_inverse true false scenC4a.1 scenC4a.2

/-- Second complement. -/
def scenC4inv2 : rc × Store × Option bitset :=
  bitset_inverse true false scenC4inv1.2.1 (scenC4inv1.2.2.getD defaultBitset)

/-! ## Theorems -/

set_option maxRecDepth 100000
set_option maxHeartbeats 2000000

/-- C5: for bitsets of different `bit_capacity`, each in-place binary
operation — union (`bitset_or`), intersection (`bitset_and`) and difference
(`bitset_subtract`) — fails with `InvalidInput`, leaving the heap and both
operands untouched. -/
theorem C5_capacity_mismatch (m : Bool) (st : Store) (a b : bitset)
    (h : a.bitcount ≠ b.bitcount) :
    bitset_or m st a b = (rc.ERRINPUT, st, a) ∧
    bitset_and m st a b = (rc.ERRINPUT, st, a) ∧
    bitset_subtract m st a b = (rc.ERRINPUT, st, a) := by
  unfold bitset_or bitset_and bitset_subtract
  simp [h]

/-- Witness for C5 at capacities 64 and 128. -/
theorem C5_capacity_mismatch_witness :
    bitset_or true [] (bitset_init 64) (bitset_init 128) =
      (rc.ERRINPUT, [], bitset_init 64) :=
  (C5_capacity_mismatch true [] (bitset_init 64) (bitset_init 128) (by decide)).1

/-- C6 counterexample: `bitset_alloc` called with the negative capacity `-1`
(and a valid empty output parameter, allocation succeeding) returns `OK` and
constructs a bitset, instead of failing with `InvalidInput`. -/
theorem C6_counterexample :
    (bitset_alloc true false (-1)).1 = rc.OK ∧
    (bitset_alloc true false (-1)).2 = some ⟨-1, 0, []⟩ := by decide

/-- C6 amended: `bitset_alloc` performs no sign check on the requested
capacity.  It fails with `InvalidInput` exactly when the output parameter is
null or already holds a bitset; otherwise (allocation succeeding) it returns
`OK` for every capacity, negative ones included, recording the capacity
verbatim and `BLOCKCOUNT` of it (clamped at zero) slots. -/
theorem C6_no_negative_capacity_check (n : Int) :
    bitset_alloc true true n = (rc.ERRINPUT, none) ∧
    bitset_alloc true false n = (rc.OK, some (bitset_init n)) :=
  ⟨rfl, rfl⟩

/-- C3 counterexample: after the public operations `set 5` then `clr 5` on a
fresh capacity-128 bitset, slot 0 still holds a present block whose words are
all zero — the all-zero state was not collapsed to the absent-slot
representation. -/
theorem C3_counterexample :
    scenZeroBlock.2.blocks = [some 0] ∧
    store_get scenZeroBlock.1 0 = some ⟨1, 0, [0, 0]⟩ := by decide

/-- C3 amended: an absent slot and a present all-zero block do coexist as
distinct representations of an all-zero range — `bitset_clr` (like toggle,
and, subtract) can leave behind a present block with every word zero.  The
implementation collapses to absent only on two paths: `bitset_and` when the
second operand's slot is absent (which empties and frees the slot of the
state above), and `bitset_invert` when a block is full. -/
theorem C3_zero_block_coexists :
    store_get scenZeroBlock.1 0 = some ⟨1, 0, [0, 0]⟩ ∧
    (bitset_and true scenZeroBlock.1 scenZeroBlock.2 (bitset_init 128)).2.2.blocks = [none] ∧
    (bitset_and true scenZeroBlock.1 scenZeroBlock.2 (bitset_init 128)).2.1 = [none] ∧
    (bitset_invert true ([some ⟨1, 128, [U64MAX, U64MAX]⟩] : Store)
        ⟨128, 1, [some 0]⟩).2.2.blocks = [none] := by decide

/-- C1: on the spec's own scenario — capacity 200, exactly bits 5 and 150
set, then `invert` — the cached cardinality `bitset_set_count` is 254 (it
counts the 56 padding bits of the final partial block, which `invert` turned
on), while the number of indices in `[0, 200)` whose `test` is true is 198;
so `population_count(b)` differs from the number of true `test(b,i)`
results, refuting both the claimed invariant and the claimed value 198
(`test(a,5)` and `test(a,6)` do behave as stated). -/
theorem C1_cardinality_divergence :
    bitset_set_count scenC1.1 scenC1.2 = 254 ∧
    bitset_true_count scenC1.1 scenC1.2 = 198 ∧
    btest scenC1.1 scenC1.2 5 = false ∧
    btest scenC1.1 scenC1.2 6 = true := by decide

/-- C2: `bitset_invert` on a duplicate mutates state observable through the
original.  With `a` holding bit 0 (capacity 128) and `b = dup(a)` sharing
`a`'s block (`ref_count = 2`), `invert(b)` complements the shared, partial
block in place — `bitset_block_invert`'s `assert(ref_count == 1)` is
violated; modelled here as the `NDEBUG` run — flipping `test(a,1)` from
false to true. -/
theorem C2_invert_mutates_shared :
    store_get scenC2dup.2.1 0 = some ⟨2, 1, [1, 0]⟩ ∧
    btest scenC2dup.2.1 scenC2a.2 1 = false ∧
    scenC2after.1 = rc.OK ∧
    btest scenC2after.2.1 scenC2a.2 1 = true := by decide

/-- C4 counterexample: for the reachable bitset `a` holding a present
all-zero block (capacity 128, `set 0` then `clr 0`),
`complement(complement(a))` does not observationally equal `a`: at the valid
index 0, `test` on the double complement gives false while `test` on `a`
(observed in the same final heap) gives true, because the first complement
mutated `a`'s shared block in place to all-ones and the second collapsed its
own copy to absent. -/
theorem C4_counterexample :
    scenC4inv2.1 = rc.OK ∧
    (scenC4inv2.2.2.getD defaultBitset).bitcount = scenC4a.2.bitcount ∧
    btest scenC4inv2.2.1 (scenC4inv2.2.2.getD defaultBitset) 0 = false ∧
    btest scenC4inv2.2.1 scenC4a.2 0 = true := by decide

/-! ## Store lemmas -/

theorem store_get_lt_length {st : Store} {id : Nat} {blk : bitset_block}
    (h : store_get st id = some blk) : id < st.length := by
  by_contra hge
  rw [store_get, List.getD_eq_getElem?_getD, List.getElem?_eq_none (Nat.le_of_not_lt hge)] at h
  simp at h

theorem store_get_set_self {st : Store} {id : Nat} (v : Option bitset_block)
    (h : id < st.length) : store_get (st.set id v) id = v := by
  rw [store_get, List.getD_eq_getElem?_getD, List.getElem?_set_self h]
  rfl

theorem store_get_set_ne {st : Store} {id id' : Nat} (v : Option bitset_block)
    (h : id' ≠ id) : store_get (st.set id v) id' = store_get st id' := by
  rw [store_get, store_get, List.getD_eq_getElem?_getD, List.getD_eq_getElem?_getD,
    List.getElem?_set_ne (fun he => h he.symm)]

theorem store_get_append_lt {st : Store} {id : Nat} (l : Store)
    (h : id < st.length) : store_get (st ++ l) id = store_get st id := by
  rw [store_get, store_get, List.getD_eq_getElem?_getD, List.getD_eq_getElem?_getD,
    List.getElem?_append_left h]

theorem store_get_append_self (st : Store) (o : Option bitset_block) :
    store_get (st ++ [o]) st.length = o := by
  rw [store_get, List.getD_eq_getElem?_getD, List.getElem?_concat_length]
  rfl

theorem store_get_append_ge {st : Store} {id : Nat} (l : Store)
    (h : st.length ≤ id) : store_get (st ++ l) id = store_get l (id - st.length) := by
  rw [store_get, store_get, List.getD_eq_getElem?_getD, List.getD_eq_getElem?_getD,
    List.getElem?_append_right h]

theorem store_modify_length (st : Store) (id : Nat) (f : bitset_block → bitset_block) :
    (store_modify st id f).length = st.length := by
  unfold store_modify
  cases h : store_get st id <;> simp

theorem store_get_modify_self (st : Store) (id : Nat) (f : bitset_block → bitset_block) :
    store_get (store_modify st id f) id = (store_get st id).map f := by
  unfold store_modify
  cases h : store_get st id with
  | none => simp [h]
  | some b => rw [store_get_set_self _ (store_get_lt_length h)]; rfl

theorem store_get_modify_ne (st : Store) {id id' : Nat} (f : bitset_block → bitset_block)
    (h : id' ≠ id) : store_get (store_modify st id f) id' = store_get st id' := by
  unfold store_modify
  cases hg : store_get st id with
  | none => rfl
  | some b => exact store_get_set_ne _ h

theorem decref_length (st : Store) (id : Nat) :
    (bitset_block_decref st id).length = st.length := by
  unfold bitset_block_decref
  cases h : store_get st id with
  | none => rfl
  | some b => dsimp only; split <;> simp

theorem store_get_decref_ne (st : Store) {id id' : Nat} (h : id' ≠ id) :
    store_get (bitset_block_decref st id) id' = store_get st id' := by
  unfold bitset_block_decref
  cases hg : store_get st id with
  | none => rfl
  | some b => dsimp only; split <;> exact store_get_set_ne _ h

theorem store_get_decref_self (st : Store) {id : Nat} {b : bitset_block}
    (hg : store_get st id = some b) :
    store_get (bitset_block_decref st id) id =
      if b.ref_count - 1 = 0 then none else some { b with ref_count := b.ref_count - 1 } := by
  unfold bitset_block_decref
  rw [hg]
  dsimp only
  split <;> rw [store_get_set_self _ (store_get_lt_length hg)]

theorem incref_length (st : Store) (id : Nat) :
    (bitset_block_incref st id).length = st.length := by
  unfold bitset_block_incref
  exact store_modify_length st id _

theorem store_get_incref_ne (st : Store) {id id' : Nat} (h : id' ≠ id) :
    store_get (bitset_block_incref st id) id' = store_get st id' :=
  store_get_modify_ne st _ h

theorem store_get_incref_self (st : Store) (id : Nat) :
    store_get (bitset_block_incref st id) id =
      (store_get st id).map (fun b => { b with ref_count := b.ref_count + 1 }) :=
  store_get_modify_self st id _

theorem intsAt_incref (st : Store) (j id : Nat) :
    intsAt (bitset_block_incref st j) id = intsAt st id := by
  unfold intsAt
  by_cases h : id = j
  · subst h
    rw [store_get_incref_self]
    cases store_get st id <;> rfl
  · rw [store_get_incref_ne st h]

/-! ## Word-level lemmas -/

theorem word_test_eq (w b : Nat) : (w &&& (1 <<< b) != 0) = w.testBit b := by
  cases h : w.testBit b with
  | false =>
    have h0 : w &&& 1 <<< b = 0 := by
      apply Nat.eq_of_testBit_eq
      intro i
      simp only [Nat.testBit_and, Nat.one_shiftLeft, Nat.testBit_two_pow, Nat.zero_testBit]
      by_cases hi : b = i
      · subst hi; simp [h]
      · simp [hi]
    rw [h0]
    rfl
  | true =>
    have h1 : (w &&& 1 <<< b).testBit b = true := by
      simp [Nat.one_shiftLeft, Nat.testBit_two_pow, h]
    cases hx : w &&& 1 <<< b with
    | zero => rw [hx] at h1; simp at h1
    | succ n => simp

theorem bitset_block_test_bit_eq (blk : bitset_block) (bit : Nat) :
    bitset_block_test_bit blk bit = (blk.ints.getD (bit / 64) 0).testBit (bit % 64) := by
  unfold bitset_block_test_bit
  exact word_test_eq _ _

theorem test_bit_only_ints {blk blk' : bitset_block} (h : blk'.ints = blk.ints) (bit : Nat) :
    bitset_block_test_bit blk' bit = bitset_block_test_bit blk bit := by
  unfold bitset_block_test_bit
  rw [h]

theorem btest_eq_of_intsAt {st st' : Store} {x : bitset} {bit : Int}
    (h : ∀ id, x.blocks.getD (bit.toNat / IDSPERBLOCK) none = some id →
      intsAt st' id = intsAt st id) :
    btest st' x bit = btest st x bit := by
  unfold btest bitset_test_bit
  split
  · rfl
  · cases hslot : x.blocks.getD (bit.toNat / IDSPERBLOCK) none with
    | none => rfl
    | some id =>
      have hi := h id hslot
      unfold intsAt at hi
      dsimp only
      have hints : (store_getblk st' id).ints = (store_getblk st id).ints := by
        unfold store_getblk
        cases hg : store_get st id <;> cases hg' : store_get st' id <;>
          rw [hg, hg'] at hi <;> simp_all
      exact test_bit_only_ints hints _

/-! ## List access helpers -/

theorem getD_set_self {α : Type} {l : List α} {n : Nat} (v d : α) (h : n < l.length) :
    (l.set n v).getD n d = v := by
  rw [List.getD_eq_getElem?_getD, List.getElem?_set_self h]
  rfl

theorem getD_set_ne {α : Type} {l : List α} {n n' : Nat} (v d : α) (h : n' ≠ n) :
    (l.set n v).getD n' d = l.getD n' d := by
  rw [List.getD_eq_getElem?_getD, List.getD_eq_getElem?_getD,
    List.getElem?_set_ne (fun he => h he.symm)]

theorem getD_lt_length {α : Type} {l : List (Option α)} {i : Nat} {a : α}
    (h : l.getD i none = some a) : i < l.length := by
  by_contra hge
  rw [List.getD_eq_getElem?_getD, List.getElem?_eq_none (Nat.le_of_not_lt hge)] at h
  simp at h

theorem getD_mem {α : Type} {l : List (Option α)} {i : Nat} {a : α}
    (h : l.getD i none = some a) : some a ∈ l := by
  rw [List.getD_eq_getElem?_getD] at h
  cases hx : l[i]? with
  | none => rw [hx] at h; simp at h
  | some o =>
    rw [hx] at h
    simp only [Option.getD_some] at h
    subst h
    exact List.getElem?_mem hx

theorem getD_replicate {α : Type} {k i : Nat} (a d : α) :
    (List.replicate k a).getD i d = if i < k then a else d := by
  rw [List.getD_eq_getElem?_getD, List.getElem?_replicate]
  split <;> rfl

/-! ## Well-formedness extraction -/

theorem bs_wfb_len {st : Store} {bs : bitset} (h : bs_wfb st bs = true) :
    bs.blocks.length = bs.block_count.toNat := by
  unfold bs_wfb at h
  simp only [Bool.and_eq_true, beq_iff_eq] at h
  exact h.1.1.1.1

theorem bs_wfb_cap {st : Store} {bs : bitset} (h : bs_wfb st bs = true) :
    bs.bitcount ≤ bs.block_count * (IDSPERBLOCK : Int) := by
  unfold bs_wfb at h
  simp only [Bool.and_eq_true, decide_eq_true_eq] at h
  exact h.1.1.1.2

theorem bs_wfb_nonneg {st : Store} {bs : bitset} (h : bs_wfb st bs = true) :
    0 ≤ bs.block_count := by
  unfold bs_wfb at h
  simp only [Bool.and_eq_true, decide_eq_true_eq] at h
  exact h.1.1.2

theorem bs_wfb_live {st : Store} {bs : bitset} (h : bs_wfb st bs = true)
    {i : Nat} {id : Nat} (hi : bs.blocks.getD i none = some id) :
    ∃ blk, store_get st id = some blk := by
  unfold bs_wfb at h
  simp only [Bool.and_eq_true, List.all_eq_true] at h
  have := h.1.2 _ (getD_mem hi)
  simp only [Option.isSome_iff_exists] at this
  exact this

theorem bs_wfb_nodup {st : Store} {bs : bitset} (h : bs_wfb st bs = true) :
    (present_ids bs).Nodup := by
  unfold bs_wfb at h
  simp only [Bool.and_eq_true, decide_eq_true_eq] at h
  exact h.2

theorem store_wfb_block {st : Store} (h : store_wfb st = true)
    {id : Nat} {blk : bitset_block} (hg : store_get st id = some blk) :
    block_wfb blk = true := by
  unfold store_wfb at h
  rw [List.all_eq_true] at h
  have hm : some blk ∈ st := getD_mem hg
  exact h _ hm

theorem block_wfb_len {blk : bitset_block} (h : block_wfb blk = true) :
    blk.ints.length = BLOCKSIZE := by
  unfold block_wfb at h
  simp only [Bool.and_eq_true, beq_iff_eq] at h
  exact h.1.1

theorem block_wfb_bound {blk : bitset_block} (h : block_wfb blk = true) :
    ∀ w ∈ blk.ints, w < 2 ^ 64 := by
  unfold block_wfb at h
  simp only [Bool.and_eq_true, List.all_eq_true, decide_eq_true_eq] at h
  exact h.1.2

theorem block_wfb_sc {blk : bitset_block} (h : block_wfb blk = true) :
    blk.set_count = (block_popcount blk.ints : Int) := by
  unfold block_wfb at h
  simp only [Bool.and_eq_true, beq_iff_eq] at h
  exact h.2

/-! ## Index arithmetic -/

theorem idsperblock_eq : (IDSPERBLOCK : Int) = 128 := by norm_num [IDSPERBLOCK, BLOCKSIZE]

theorem block_index_lt {bs : bitset} (hlen : bs.blocks.length = bs.block_count.toNat)
    (hcap : bs.bitcount ≤ bs.block_count * (IDSPERBLOCK : Int)) {bit : Int}
    (h0 : 0 ≤ bit) (h1 : bit < bs.bitcount) :
    bit.toNat / IDSPERBLOCK < bs.blocks.length := by
  rw [hlen]
  rw [idsperblock_eq] at hcap
  have hlt : bit.toNat < bs.block_count.toNat * IDSPERBLOCK := by
    have : (IDSPERBLOCK : Nat) = 128 := by norm_num [IDSPERBLOCK, BLOCKSIZE]
    rw [this]
    omega
  exact Nat.div_lt_of_lt_mul (by rw [Nat.mul_comm] at hlt; exact hlt)

theorem block_bit_lt (bit : Nat) : bit % IDSPERBLOCK / 64 < BLOCKSIZE := by
  have h : bit % IDSPERBLOCK < IDSPERBLOCK := Nat.mod_lt _ (by norm_num [IDSPERBLOCK, BLOCKSIZE])
  have : bit % IDSPERBLOCK < BLOCKSIZE * 64 := by
    have : (IDSPERBLOCK : Nat) = BLOCKSIZE * 64 := by norm_num [IDSPERBLOCK, BLOCKSIZE]
    omega
  exact Nat.div_lt_of_lt_mul this

/-! ## Block mutation and test interaction -/

theorem set_bit_ints_length (blk : bitset_block) (bit : Nat) :
    (bitset_block_set_bit blk bit).ints.length = blk.ints.length := by
  simp [bitset_block_set_bit]

theorem clr_bit_ints_length (blk : bitset_block) (bit : Nat) :
    (bitset_block_clr_bit blk bit).ints.length = blk.ints.length := by
  simp [bitset_block_clr_bit]

theorem toggle_bit_ints_length (blk : bitset_block) (bit : Nat) :
    (bitset_block_toggle_bit blk bit).ints.length = blk.ints.length := by
  simp [bitset_block_toggle_bit]

theorem test_after_set (blk : bitset_block) (bit : Nat) (hlen : bit / 64 < blk.ints.length) :
    bitset_block_test_bit (bitset_block_set_bit blk bit) bit = true := by
  rw [bitset_block_test_bit_eq]
  unfold bitset_block_set_bit
  dsimp only
  rw [getD_set_self _ _ hlen]
  simp [Nat.one_shiftLeft, Nat.testBit_two_pow_self]

theorem test_after_clr (blk : bitset_block) (bit : Nat) (hlen : bit / 64 < blk.ints.length)
    (hb : bit % 64 < 64) :
    bitset_block_test_bit (bitset_block_clr_bit blk bit) bit = false := by
  rw [bitset_block_test_bit_eq]
  unfold bitset_block_clr_bit
  dsimp only
  rw [getD_set_self _ _ hlen]
  have hm : Nat.testBit U64MAX (bit % 64) = true := by
    have hU : U64MAX = 2 ^ 64 - 1 := rfl
    rw [hU, Nat.testBit_two_pow_sub_one]
    simp [hb]
  simp [Nat.one_shiftLeft, Nat.testBit_two_pow_self, hm]

theorem test_after_toggle (blk : bitset_block) (bit : Nat) (hlen : bit / 64 < blk.ints.length) :
    bitset_block_test_bit (bitset_block_toggle_bit blk bit) bit
      = !(bitset_block_test_bit blk bit) := by
  rw [bitset_block_test_bit_eq, bitset_block_test_bit_eq]
  unfold bitset_block_toggle_bit
  dsimp only
  rw [getD_set_self _ _ hlen]
  simp [Nat.one_shiftLeft, Nat.testBit_two_pow_self]

theorem store_getblk_eq {st : Store} {id : Nat} {blk : bitset_block}
    (hg : store_get st id = some blk) : store_getblk st id = blk := by
  unfold store_getblk
  rw [hg]
  rfl

theorem bitset_block_alloc_true (st : Store) (bs : bitset) (block : Nat) :
    bitset_block_alloc true st bs block =
      (rc.OK, st ++ [some ⟨1, 0, List.replicate BLOCKSIZE 0⟩],
       { bs with blocks := bs.blocks.set block (some st.length) }, st.length) := rfl

theorem bitset_block_realloc_true {bs : bitset} {block : Nat} {oid : Nat} (st : Store)
    (h : bs.blocks.getD block none = some oid) :
    bitset_block_realloc true st bs block =
      (rc.OK,
       bitset_block_decref st oid ++
         [some ⟨1, (store_getblk st oid).set_count, (store_getblk st oid).ints⟩],
       { bs with blocks := (bs.blocks.set block none).set block (some st.length) },
       st.length) := by
  unfold bitset_block_realloc
  rw [h]
  dsimp only [store_alloc]
  rw [decref_length]
  rw [if_pos rfl]

theorem bitset_block_realloc_oom {bs : bitset} {block : Nat} {oid : Nat} (st : Store)
    (h : bs.blocks.getD block none = some oid) :
    bitset_block_realloc false st bs block =
      (rc.ERRMEM, bitset_block_decref st oid,
       { bs with blocks := bs.blocks.set block none }, 0) := by
  unfold bitset_block_realloc
  rw [h]
  dsimp only
  rw [if_neg (by simp : ¬false = true)]

/-- `set` followed by `test` at a valid index observes a 1 bit. -/
theorem set_then_test {st : Store} {bs : bitset} {bit : Int}
    (hst : store_wfb st = true) (hbs : bs_wfb st bs = true)
    (h0 : 0 ≤ bit) (h1 : bit < bs.bitcount) :
    (bitset_set true st bs bit).1 = rc.OK ∧
    btest (bitset_set true st bs bit).2.1 (bitset_set true st bs bit).2.2 bit = true := by
  have hguard : ¬(bit < 0 ∨ bs.bitcount ≤ bit) := by omega
  have hbi : bit.toNat / IDSPERBLOCK < bs.blocks.length :=
    block_index_lt (bs_wfb_len hbs) (bs_wfb_cap hbs) h0 h1
  have hbb64 : bit.toNat % IDSPERBLOCK / 64 < BLOCKSIZE := block_bit_lt bit.toNat
  unfold bitset_set
  rw [if_neg hguard]
  dsimp only
  cases hslot : bs.blocks.getD (bit.toNat / IDSPERBLOCK) none with
  | none =>
    dsimp only
    rw [bitset_block_alloc_true]
    dsimp only
    refine ⟨rfl, ?_⟩
    unfold btest bitset_test_bit
    rw [if_neg hguard]
    dsimp only
    rw [getD_set_self _ _ hbi]
    dsimp only
    have hget : store_get
        (store_modify (st ++ [some ⟨1, 0, List.replicate BLOCKSIZE 0⟩]) st.length
          (fun b => bitset_block_set_bit b (bit.toNat % IDSPERBLOCK))) st.length
        = some (bitset_block_set_bit ⟨1, 0, List.replicate BLOCKSIZE 0⟩
            (bit.toNat % IDSPERBLOCK)) := by
      rw [store_get_modify_self, store_get_append_self]
      rfl
    rw [store_getblk_eq hget]
    refine test_after_set _ _ ?_
    simp [hbb64]
  | some id =>
    dsimp only
    obtain ⟨blk, hg⟩ := bs_wfb_live hbs hslot
    have hblen : blk.ints.length = BLOCKSIZE := block_wfb_len (store_wfb_block hst hg)
    rw [store_getblk_eq hg]
    cases ht : bitset_block_test_bit blk (bit.toNat % IDSPERBLOCK) with
    | true =>
      rw [if_pos rfl]
      refine ⟨rfl, ?_⟩
      unfold btest bitset_test_bit
      rw [if_neg hguard]
      dsimp only
      rw [hslot]
      dsimp only
      rw [store_getblk_eq hg, ht]
    | false =>
      rw [if_neg (by simp)]
      by_cases hshared : 1 < blk.ref_count
      · rw [if_pos hshared, bitset_block_realloc_true st hslot]
        dsimp only
        refine ⟨rfl, ?_⟩
        unfold btest bitset_test_bit
        rw [if_neg hguard]
        dsimp only
        rw [List.set_set, getD_set_self _ _ (by simpa using hbi)]
        dsimp only
        have hnid : st.length = (bitset_block_decref st id).length := (decref_length st id).symm
        have hget : store_get
            (store_modify
              (bitset_block_decref st id ++
                [some ⟨1, (store_getblk st id).set_count, (store_getblk st id).ints⟩]) st.length
              (fun b => bitset_block_set_bit b (bit.toNat % IDSPERBLOCK))) st.length
            = some (bitset_block_set_bit
                ⟨1, (store_getblk st id).set_count, (store_getblk st id).ints⟩
                (bit.toNat % IDSPERBLOCK)) := by
          rw [store_get_modify_self]
          rw [hnid, store_get_append_self]
          rfl
        rw [store_getblk_eq hget]
        refine test_after_set _ _ ?_
        rw [store_getblk_eq hg]
        dsimp only
        rw [hblen]
        exact hbb64
      · rw [if_neg hshared]
        refine ⟨rfl, ?_⟩
        unfold btest bitset_test_bit
        rw [if_neg hguard]
        dsimp only
        rw [hslot]
        dsimp only
        have hget : store_get
            (store_modify st id (fun b => bitset_block_set_bit b (bit.toNat % IDSPERBLOCK))) id
            = some (bitset_block_set_bit blk (bit.toNat % IDSPERBLOCK)) := by
          rw [store_get_modify_self, hg]
          rfl
        rw [store_getblk_eq hget]
        refine test_after_set _ _ ?_
        rw [hblen]
        exact hbb64

/-- `clr` followed by `test` at a valid index observes a 0 bit. -/
theorem clr_then_test {st : Store} {bs : bitset} {bit : Int}
    (hst : store_wfb st = true) (hbs : bs_wfb st bs = true)
    (h0 : 0 ≤ bit) (h1 : bit < bs.bitcount) :
    (bitset_clr true st bs bit).1 = rc.OK ∧
    btest (bitset_clr true st bs bit).2.1 (bitset_clr true st bs bit).2.2 bit = false := by
  have hguard : ¬(bit < 0 ∨ bs.bitcount ≤ bit) := by omega
  have hbi : bit.toNat / IDSPERBLOCK < bs.blocks.length :=
    block_index_lt (bs_wfb_len hbs) (bs_wfb_cap hbs) h0 h1
  have hbb64 : bit.toNat % IDSPERBLOCK / 64 < BLOCKSIZE := block_bit_lt bit.toNat
  have hb64 : bit.toNat % IDSPERBLOCK % 64 < 64 := Nat.mod_lt _ (by norm_num)
  unfold bitset_clr
  rw [if_neg hguard]
  dsimp only
  cases hslot : bs.blocks.getD (bit.toNat / IDSPERBLOCK) none with
  | none =>
    refine ⟨rfl, ?_⟩
    unfold btest bitset_test_bit
    rw [if_neg hguard]
    dsimp only
    rw [hslot]
  | some id =>
    dsimp only
    obtain ⟨blk, hg⟩ := bs_wfb_live hbs hslot
    have hblen : blk.ints.length = BLOCKSIZE := block_wfb_len (store_wfb_block hst hg)
    rw [store_getblk_eq hg]
    cases ht : bitset_block_test_bit blk (bit.toNat % IDSPERBLOCK) with
    | false =>
      rw [if_pos rfl]
      refine ⟨rfl, ?_⟩
      unfold btest bitset_test_bit
      rw [if_neg hguard]
      dsimp only
      rw [hslot]
      dsimp only
      rw [store_getblk_eq hg, ht]
    | true =>
      rw [if_neg (by simp)]
      by_cases hshared : 1 < blk.ref_count
      · rw [if_pos hshared, bitset_block_realloc_true st hslot]
        dsimp only
        refine ⟨rfl, ?_⟩
        unfold btest bitset_test_bit
        rw [if_neg hguard]
        dsimp only
        rw [List.set_set, getD_set_self _ _ (by simpa using hbi)]
        dsimp only
        have hnid : st.length = (bitset_block_decref st id).length := (decref_length st id).symm
        have hget : store_get
            (store_modify
              (bitset_block_decref st id ++
                [some ⟨1, (store_getblk st id).set_count, (store_getblk st id).ints⟩]) st.length
              (fun b => bitset_block_clr_bit b (bit.toNat % IDSPERBLOCK))) st.length
            = some (bitset_block_clr_bit
                ⟨1, (store_getblk st id).set_count, (store_getblk st id).ints⟩
                (bit.toNat % IDSPERBLOCK)) := by
          rw [store_get_modify_self]
          rw [hnid, store_get_append_self]
          rfl
        rw [store_getblk_eq hget]
        refine test_after_clr _ _ ?_ hb64
        rw [store_getblk_eq hg]
        dsimp only
        rw [hblen]
        exact hbb64
      · rw [if_neg hshared]
        refine ⟨rfl, ?_⟩
        unfold btest bitset_test_bit
        rw [if_neg hguard]
        dsimp only
        rw [hslot]
        dsimp only
        have hget : store_get
            (store_modify st id (fun b => bitset_block_clr_bit b (bit.toNat % IDSPERBLOCK))) id
            = some (bitset_block_clr_bit blk (bit.toNat % IDSPERBLOCK)) := by
          rw [store_get_modify_self, hg]
          rfl
        rw [store_getblk_eq hget]
        refine test_after_clr _ _ ?_ hb64
        rw [hblen]
        exact hbb64

/-- `bitset_block_toggle_bit` does not change the reference count. -/
theorem toggle_bit_ref_count (blk : bitset_block) (bit : Nat) :
    (bitset_block_toggle_bit blk bit).ref_count = blk.ref_count := rfl

/-- After a successful `toggle` at a valid index, the touched slot holds a
private live block whose word array is long enough, and whose bit reads as
the negation of the pre-toggle observation. -/
theorem toggle_post {st : Store} {bs : bitset} {bit : Int}
    (hst : store_wfb st = true) (hbs : bs_wfb st bs = true)
    (h0 : 0 ≤ bit) (h1 : bit < bs.bitcount) :
    ∃ st' bs' nid blk',
      bitset_toggle_bit true st bs bit = (rc.OK, st', bs') ∧
      bs'.bitcount = bs.bitcount ∧
      bs'.blocks.getD (bit.toNat / IDSPERBLOCK) none = some nid ∧
      store_get st' nid = some blk' ∧
      ¬(1 < blk'.ref_count) ∧
      bit.toNat % IDSPERBLOCK / 64 < blk'.ints.length ∧
      bitset_block_test_bit blk' (bit.toNat % IDSPERBLOCK) = !(btest st bs bit) := by
  have hguard : ¬(bit < 0 ∨ bs.bitcount ≤ bit) := by omega
  have hbi : bit.toNat / IDSPERBLOCK < bs.blocks.length :=
    block_index_lt (bs_wfb_len hbs) (bs_wfb_cap hbs) h0 h1
  have hbb64 : bit.toNat % IDSPERBLOCK / 64 < BLOCKSIZE := block_bit_lt bit.toNat
  have hbt : btest st bs bit = (bitset_test_bit st bs bit).2 := rfl
  unfold bitset_toggle_bit
  rw [if_neg hguard]
  dsimp only
  cases hslot : bs.blocks.getD (bit.toNat / IDSPERBLOCK) none with
  | none =>
    dsimp only
    rw [bitset_block_alloc_true]
    dsimp only
    refine ⟨_, _, st.length,
      bitset_block_toggle_bit ⟨1, 0, List.replicate BLOCKSIZE 0⟩ (bit.toNat % IDSPERBLOCK),
      rfl, rfl, ?_, ?_, ?_, ?_, ?_⟩
    · exact getD_set_self _ _ hbi
    · rw [store_get_modify_self, store_get_append_self]
      rfl
    · simp [toggle_bit_ref_count]
    · rw [toggle_bit_ints_length]
      simpa using hbb64
    · have hfalse : btest st bs bit = false := by
        unfold btest bitset_test_bit
        rw [if_neg hguard, hslot]
      rw [hfalse]
      rw [test_after_toggle _ _ (by simpa using hbb64)]
      have : bitset_block_test_bit ⟨1, 0, List.replicate BLOCKSIZE 0⟩
          (bit.toNat % IDSPERBLOCK) = false := by
        rw [bitset_block_test_bit_eq]
        rw [getD_replicate]
        split <;> simp
      rw [this]
  | some id =>
    dsimp only
    obtain ⟨blk, hg⟩ := bs_wfb_live hbs hslot
    have hblen : blk.ints.length = BLOCKSIZE := block_wfb_len (store_wfb_block hst hg)
    have hbval : btest st bs bit = bitset_block_test_bit blk (bit.toNat % IDSPERBLOCK) := by
      unfold btest bitset_test_bit
      rw [if_neg hguard, hslot]
      dsimp only
      rw [store_getblk_eq hg]
    rw [store_getblk_eq hg]
    by_cases hshared : 1 < blk.ref_count
    · rw [if_pos hshared, bitset_block_realloc_true st hslot]
      dsimp only
      refine ⟨_, _, st.length,
        bitset_block_toggle_bit ⟨1, (store_getblk st id).set_count, (store_getblk st id).ints⟩
          (bit.toNat % IDSPERBLOCK),
        rfl, rfl, ?_, ?_, ?_, ?_, ?_⟩
      · rw [List.set_set]
        exact getD_set_self _ _ (by simpa using hbi)
      · have hnid : st.length = (bitset_block_decref st id).length := (decref_length st id).symm
        rw [store_get_modify_self]
        rw [hnid, store_get_append_self]
        rfl
      · simp [toggle_bit_ref_count]
      · rw [toggle_bit_ints_length]
        rw [store_getblk_eq hg]
        dsimp only
        rw [hblen]
        exact hbb64
      · rw [hbval]
        refine Eq.trans (test_after_toggle _ _ ?_) ?_
        · rw [store_getblk_eq hg]
          dsimp only
          rw [hblen]
          exact hbb64
        · rw [store_getblk_eq hg]
          exact congrArg (fun x => !x) (test_bit_only_ints rfl _)
    · rw [if_neg hshared]
      refine ⟨_, _, id, bitset_block_toggle_bit blk (bit.toNat % IDSPERBLOCK),
        rfl, rfl, ?_, ?_, ?_, ?_, ?_⟩
      · exact hslot
      · rw [store_get_modify_self, hg]
        rfl
      · rw [toggle_bit_ref_count]
        exact hshared
      · rw [toggle_bit_ints_length, hblen]
        exact hbb64
      · rw [hbval]
        refine test_after_toggle _ _ ?_
        rw [hblen]
        exact hbb64

/-- C9: on a well-formed state, for every valid index: `set` then `test`
observes true, `clr` then `test` observes false, and `toggle` applied twice
restores the original `test` observation; all three operations return `OK`. -/
theorem C9_roundtrip {st : Store} {bs : bitset} {bit : Int}
    (hst : store_wfb st = true) (hbs : bs_wfb st bs = true)
    (h0 : 0 ≤ bit) (h1 : bit < bs.bitcount) :
    ((bitset_set true st bs bit).1 = rc.OK ∧
      btest (bitset_set true st bs bit).2.1 (bitset_set true st bs bit).2.2 bit = true) ∧
    ((bitset_clr true st bs bit).1 = rc.OK ∧
      btest (bitset_clr true st bs bit).2.1 (bitset_clr true st bs bit).2.2 bit = false) ∧
    (∃ st1 bs1 st2 bs2,
      bitset_toggle_bit true st bs bit = (rc.OK, st1, bs1) ∧
      bitset_toggle_bit true st1 bs1 bit = (rc.OK, st2, bs2) ∧
      btest st2 bs2 bit = btest st bs bit) := by
  refine ⟨set_then_test hst hbs h0 h1, clr_then_test hst hbs h0 h1, ?_⟩
  obtain ⟨st1, bs1, nid, blk', heq, hbc, hslot1, hget1, hrc1, hil1, htest1⟩ :=
    toggle_post hst hbs h0 h1
  have hguard : ¬(bit < 0 ∨ bs1.bitcount ≤ bit) := by rw [hbc]; omega
  refine ⟨st1, bs1,
    store_modify st1 nid (fun b => bitset_block_toggle_bit b (bit.toNat % IDSPERBLOCK)),
    bs1, heq, ?_, ?_⟩
  · unfold bitset_toggle_bit
    rw [if_neg hguard]
    dsimp only
    rw [hslot1]
    dsimp only
    rw [store_getblk_eq hget1, if_neg hrc1]
  · unfold btest bitset_test_bit
    rw [if_neg hguard, hslot1]
    dsimp only
    have hget2 : store_get
        (store_modify st1 nid (fun b => bitset_block_toggle_bit b (bit.toNat % IDSPERBLOCK))) nid
        = some (bitset_block_toggle_bit blk' (bit.toNat % IDSPERBLOCK)) := by
      rw [store_get_modify_self, hget1]
      rfl
    rw [store_getblk_eq hget2]
    rw [test_after_toggle _ _ hil1, htest1, Bool.not_not]
    rfl

/-- Witness for C9 on the empty capacity-128 bitset at index 5. -/
theorem C9_roundtrip_witness :
    btest (bitset_set true [] (bitset_init 128) 5).2.1
      (bitset_set true [] (bitset_init 128) 5).2.2 5 = true :=
  (@C9_roundtrip [] (bitset_init 128) 5
    (by decide) (by decide) (by decide) (by decide)).1.2

/-- The canonical state after a failed COW clone satisfies `oom_cow_post`. -/
theorem oom_cow_post_intro {st : Store} {bs : bitset} {i id : Nat} {blk : bitset_block}
    (hlen : i < bs.blocks.length)
    (hg : store_get st id = some blk)
    (hsh : 1 < blk.ref_count) :
    oom_cow_post i id blk
      (rc.ERRMEM, bitset_block_decref st id, { bs with blocks := bs.blocks.set i none }) := by
  refine ⟨rfl, ?_, ?_, ?_⟩
  · exact getD_set_self _ _ hlen
  · rw [store_get_decref_self st hg, if_neg (by omega)]
  · intro j hj0 hj1 hjb
    dsimp only at hjb hj1 ⊢
    unfold btest bitset_test_bit
    rw [if_neg (by dsimp only; omega)]
    dsimp only
    rw [hjb, getD_set_self _ _ hlen]

/-- `bitset_set` when the COW clone's allocation fails: the error propagates
with the reference already dropped and the slot already cleared. -/
theorem set_oom_eq {st : Store} {bs : bitset} {bit : Int} {id : Nat} {blk : bitset_block}
    (h0 : 0 ≤ bit) (h1 : bit < bs.bitcount)
    (hslot : bs.blocks.getD (bit.toNat / IDSPERBLOCK) none = some id)
    (hg : store_get st id = some blk)
    (ht : bitset_block_test_bit blk (bit.toNat % IDSPERBLOCK) = false)
    (hsh : 1 < blk.ref_count) :
    bitset_set false st bs bit =
      (rc.ERRMEM, bitset_block_decref st id,
       { bs with blocks := bs.blocks.set (bit.toNat / IDSPERBLOCK) none }) := by
  have hguard : ¬(bit < 0 ∨ bs.bitcount ≤ bit) := by omega
  unfold bitset_set
  rw [if_neg hguard]
  dsimp only
  rw [hslot]
  dsimp only
  rw [store_getblk_eq hg, ht, if_neg (by simp), if_pos hsh,
    bitset_block_realloc_oom st hslot]

/-- `bitset_clr` when the COW clone's allocation fails. -/
theorem clr_oom_eq {st : Store} {bs : bitset} {bit : Int} {id : Nat} {blk : bitset_block}
    (h0 : 0 ≤ bit) (h1 : bit < bs.bitcount)
    (hslot : bs.blocks.getD (bit.toNat / IDSPERBLOCK) none = some id)
    (hg : store_get st id = some blk)
    (ht : bitset_block_test_bit blk (bit.toNat % IDSPERBLOCK) = true)
    (hsh : 1 < blk.ref_count) :
    bitset_clr false st bs bit =
      (rc.ERRMEM, bitset_block_decref st id,
       { bs with blocks := bs.blocks.set (bit.toNat / IDSPERBLOCK) none }) := by
  have hguard : ¬(bit < 0 ∨ bs.bitcount ≤ bit) := by omega
  unfold bitset_clr
  rw [if_neg hguard]
  dsimp only
  rw [hslot]
  dsimp only
  rw [store_getblk_eq hg, ht, if_neg (by simp), if_pos hsh,
    bitset_block_realloc_oom st hslot]

/-- `bitset_toggle_bit` when the COW clone's allocation fails. -/
theorem toggle_oom_eq {st : Store} {bs : bitset} {bit : Int} {id : Nat} {blk : bitset_block}
    (h0 : 0 ≤ bit) (h1 : bit < bs.bitcount)
    (hslot : bs.blocks.getD (bit.toNat / IDSPERBLOCK) none = some id)
    (hg : store_get st id = some blk)
    (hsh : 1 < blk.ref_count) :
    bitset_toggle_bit false st bs bit =
      (rc.ERRMEM, bitset_block_decref st id,
       { bs with blocks := bs.blocks.set (bit.toNat / IDSPERBLOCK) none }) := by
  have hguard : ¬(bit < 0 ∨ bs.bitcount ≤ bit) := by omega
  unfold bitset_toggle_bit
  rw [if_neg hguard]
  dsimp only
  rw [hslot]
  dsimp only
  rw [store_getblk_eq hg, if_pos hsh, bitset_block_realloc_oom st hslot]

/-- `bitset_or`'s loop fails at the unique slot where both operands are
present and `a`'s block is shared, when every other slot of `b` is absent. -/
theorem or_loop_first_cow {st : Store} {a b : bitset} {i aid bid : Nat} {blk : bitset_block}
    (hai : a.blocks.getD i none = some aid) (hbi : b.blocks.getD i none = some bid)
    (hg : store_get st aid = some blk) (hsh : 1 < blk.ref_count)
    (hskip : ∀ j, j ≠ i → b.blocks.getD j none = none) :
    ∀ ks : List Nat, i ∈ ks →
      bitset_or_loop false st a b ks =
        (rc.ERRMEM, bitset_block_decref st aid,
         { a with blocks := a.blocks.set i none }) := by
  intro ks
  induction ks with
  | nil => intro h; simp at h
  | cons k ks ih =>
    intro hmem
    by_cases hk : k = i
    · subst hk
      unfold bitset_or_loop
      rw [hai, hbi]
      dsimp only
      rw [store_getblk_eq hg, if_pos hsh, bitset_block_realloc_oom st hai]
    · have hb : b.blocks.getD k none = none := hskip k hk
      have hmem' : i ∈ ks := by
        cases List.mem_cons.mp hmem with
        | inl h => exact absurd h.symm hk
        | inr h => exact h
      unfold bitset_or_loop
      cases hak : a.blocks.getD k none <;> rw [hb] <;> dsimp only <;> exact ih hmem'

/-- `bitset_and`'s loop fails similarly when every other slot of `a` is
absent. -/
theorem and_loop_first_cow {st : Store} {a b : bitset} {i aid bid : Nat} {blk : bitset_block}
    (hai : a.blocks.getD i none = some aid) (hbi : b.blocks.getD i none = some bid)
    (hg : store_get st aid = some blk) (hsh : 1 < blk.ref_count)
    (hskip : ∀ j, j ≠ i → a.blocks.getD j none = none) :
    ∀ ks : List Nat, i ∈ ks →
      bitset_and_loop false st a b ks =
        (rc.ERRMEM, bitset_block_decref st aid,
         { a with blocks := a.blocks.set i none }) := by
  intro ks
  induction ks with
  | nil => intro h; simp at h
  | cons k ks ih =>
    intro hmem
    by_cases hk : k = i
    · subst hk
      unfold bitset_and_loop
      rw [hai, hbi]
      dsimp only
      rw [store_getblk_eq hg, if_pos hsh, bitset_block_realloc_oom st hai]
    · have ha : a.blocks.getD k none = none := hskip k hk
      have hmem' : i ∈ ks := by
        cases List.mem_cons.mp hmem with
        | inl h => exact absurd h.symm hk
        | inr h => exact h
      unfold bitset_and_loop
      cases hbk : b.blocks.getD k none <;> rw [ha] <;> dsimp only <;> exact ih hmem'

/-- `bitset_subtract`'s loop fails similarly when every other slot has at
least one absent operand. -/
theorem subtract_loop_first_cow {st : Store} {a b : bitset} {i aid bid : Nat}
    {blk : bitset_block}
    (hai : a.blocks.getD i none = some aid) (hbi : b.blocks.getD i none = some bid)
    (hg : store_get st aid = some blk) (hsh : 1 < blk.ref_count)
    (hskip : ∀ j, j ≠ i → a.blocks.getD j none = none ∨ b.blocks.getD j none = none) :
    ∀ ks : List Nat, i ∈ ks →
      bitset_subtract_loop false st a b ks =
        (rc.ERRMEM, bitset_block_decref st aid,
         { a with blocks := a.blocks.set i none }) := by
  intro ks
  induction ks with
  | nil => intro h; simp at h
  | cons k ks ih =>
    intro hmem
    by_cases hk : k = i
    · subst hk
      unfold bitset_subtract_loop
      rw [hai, hbi]
      dsimp only
      rw [store_getblk_eq hg, if_pos hsh, bitset_block_realloc_oom st hai]
    · have hmem' : i ∈ ks := by
        cases List.mem_cons.mp hmem with
        | inl h => exact absurd h.symm hk
        | inr h => exact h
      unfold bitset_subtract_loop
      cases hskip k hk with
      | inl ha =>
        cases hbk : b.blocks.getD k none <;> rw [ha] <;> dsimp only <;> exact ih hmem'
      | inr hb =>
        cases hak : a.blocks.getD k none <;> rw [hb] <;> dsimp only <;> exact ih hmem'

/-- C10: when the COW clone inside `set`, `clr`, `toggle`, or an in-place
binary operation (`or`/`and`/`subtract`, failing at the one slot where both
operands are present and `a`'s block is shared) cannot allocate, the
operation returns `ERRMEM` with the affected slot already absent: the shared
block's reference was released and the slot pointer cleared before the
replacement allocation was attempted, so every `test` in that block's range
now reads 0 instead of the pre-operation contents (no reference count is
leaked, but the failed operation is not atomic). -/
theorem C10_cow_oom_drops_slot :
    (∀ (st : Store) (bs : bitset) (bit : Int) (id : Nat) (blk : bitset_block),
      0 ≤ bit → bit < bs.bitcount →
      bit.toNat / IDSPERBLOCK < bs.blocks.length →
      bs.blocks.getD (bit.toNat / IDSPERBLOCK) none = some id →
      store_get st id = some blk →
      1 < blk.ref_count →
      ((bitset_block_test_bit blk (bit.toNat % IDSPERBLOCK) = false →
          oom_cow_post (bit.toNat / IDSPERBLOCK) id blk (bitset_set false st bs bit)) ∧
       (bitset_block_test_bit blk (bit.toNat % IDSPERBLOCK) = true →
          oom_cow_post (bit.toNat / IDSPERBLOCK) id blk (bitset_clr false st bs bit)) ∧
       oom_cow_post (bit.toNat / IDSPERBLOCK) id blk (bitset_toggle_bit false st bs bit))) ∧
    (∀ (st : Store) (a b : bitset) (i : Nat) (aid bid : Nat) (blk : bitset_block),
      a.bitcount = b.bitcount →
      i < a.block_count.toNat →
      i < a.blocks.length →
      a.blocks.getD i none = some aid →
      b.blocks.getD i none = some bid →
      store_get st aid = some blk →
      1 < blk.ref_count →
      ((∀ j, j ≠ i → b.blocks.getD j none = none) →
         oom_cow_post i aid blk (bitset_or false st a b)) ∧
      ((∀ j, j ≠ i → a.blocks.getD j none = none) →
         oom_cow_post i aid blk (bitset_and false st a b)) ∧
      ((∀ j, j ≠ i → a.blocks.getD j none = none ∨ b.blocks.getD j none = none) →
         oom_cow_post i aid blk (bitset_subtract false st a b))) := by
  constructor
  · intro st bs bit id blk h0 h1 hlen hslot hg hsh
    refine ⟨?_, ?_, ?_⟩
    · intro ht
      rw [set_oom_eq h0 h1 hslot hg ht hsh]
      exact oom_cow_post_intro hlen hg hsh
    · intro ht
      rw [clr_oom_eq h0 h1 hslot hg ht hsh]
      exact oom_cow_post_intro hlen hg hsh
    · rw [toggle_oom_eq h0 h1 hslot hg hsh]
      exact oom_cow_post_intro hlen hg hsh
  · intro st a b i aid bid blk hbc hibc hlen hai hbi hg hsh
    have hmem : i ∈ List.range a.block_count.toNat := List.mem_range.mpr hibc
    refine ⟨?_, ?_, ?_⟩
    · intro hskip
      unfold bitset_or
      rw [if_neg (by simp [hbc])]
      rw [or_loop_first_cow hai hbi hg hsh hskip _ hmem]
      exact oom_cow_post_intro hlen hg hsh
    · intro hskip
      unfold bitset_and
      rw [if_neg (by simp [hbc])]
      rw [and_loop_first_cow hai hbi hg hsh hskip _ hmem]
      exact oom_cow_post_intro hlen hg hsh
    · intro hskip
      unfold bitset_subtract
      rw [if_neg (by simp [hbc])]
      rw [subtract_loop_first_cow hai hbi hg hsh hskip _ hmem]
      exact oom_cow_post_intro hlen hg hsh

/-- Witness for C10: a capacity-128 bitset whose single slot shares a block
(`ref_count = 2`) holding bit 0; the failed `set 5` reports `ERRMEM`, drops
the slot and releases the reference. -/
theorem C10_cow_oom_drops_slot_witness :
    oom_cow_post 0 0 ⟨2, 1, [1, 0]⟩
      (bitset_set false [some ⟨2, 1, [1, 0]⟩] ⟨128, 1, [some 0]⟩ 5) :=
  ((C10_cow_oom_drops_slot.1 [some ⟨2, 1, [1, 0]⟩] ⟨128, 1, [some 0]⟩ 5 0 ⟨2, 1, [1, 0]⟩
      (by decide) (by decide) (by decide) (by decide) (by decide) (by decide)).1 (by decide))

/-! ## Heap-preservation helpers for loop walks -/

theorem isSome_incref (st : Store) (j id : Nat) :
    (store_get (bitset_block_incref st j) id).isSome = (store_get st id).isSome := by
  by_cases h : id = j
  · subst h
    rw [store_get_incref_self]
    cases store_get st id <;> rfl
  · rw [store_get_incref_ne st h]

theorem isSome_modify (st : Store) (j : Nat) (f : bitset_block → bitset_block) (id : Nat) :
    (store_get (store_modify st j f) id).isSome = (store_get st id).isSome := by
  by_cases h : id = j
  · subst h
    rw [store_get_modify_self]
    cases store_get st id <;> rfl
  · rw [store_get_modify_ne st _ h]

theorem isSome_decref_keep {st : Store} {j : Nat} {blkA : bitset_block}
    (hg : store_get st j = some blkA) (hne : ¬blkA.ref_count - 1 = 0) (id : Nat) :
    (store_get (bitset_block_decref st j) id).isSome = (store_get st id).isSome := by
  by_cases h : id = j
  · subst h
    rw [store_get_decref_self st hg, if_neg hne, hg]
    rfl
  · rw [store_get_decref_ne st h]

theorem isSome_append (st : Store) (l : Store) {id : Nat}
    (h : (store_get st id).isSome = true) : (store_get (st ++ l) id).isSome = true := by
  obtain ⟨blk, hg⟩ := Option.isSome_iff_exists.mp h
  rw [store_get_append_lt l (store_get_lt_length hg)]
  exact h

theorem isSome_lt_length {st : Store} {id : Nat}
    (h : (store_get st id).isSome = true) : id < st.length := by
  obtain ⟨blk, hg⟩ := Option.isSome_iff_exists.mp h
  exact store_get_lt_length hg

theorem getblk_shared_some {st : Store} {id : Nat}
    (h : 1 < (store_getblk st id).ref_count) :
    ∃ blkA, store_get st id = some blkA ∧ 1 < blkA.ref_count ∧
      ¬blkA.ref_count - 1 = 0 := by
  cases hg : store_get st id with
  | none =>
    exfalso
    rw [store_getblk, hg] at h
    simp [defaultBlock] at h
  | some blkA =>
    refine ⟨blkA, rfl, ?_, ?_⟩
    · rw [store_getblk, hg] at h
      exact h
    · rw [store_getblk, hg] at h
      simp only [Option.getD_some] at h
      omega

theorem getD_set_ne_val {α : Type} {l : List (Option α)} (k kk : Nat) {v : Option α} {x : α}
    (hv : v ≠ some x) (horig : l.getD kk none ≠ some x) :
    (l.set k v).getD kk none ≠ some x := by
  by_cases hkk : kk = k
  · subst hkk
    by_cases hlt : kk < l.length
    · rw [getD_set_self _ _ hlt]
      exact hv
    · rw [List.set_eq_of_length_le (Nat.le_of_not_lt hlt)]
      exact horig
  · rw [getD_set_ne _ _ hkk]
    exact horig

/-- Everything the `bitset_or` loop (with allocations succeeding) guarantees:
it returns `OK`, only grows the heap, never frees a block, leaves the
untouched slots of `a` alone, and leaves every heap entry alone that no
processed slot of either operand references. -/
theorem or_loop_true_walk (b : bitset) :
    ∀ (ks : List Nat) (st : Store) (a : bitset),
    ∃ st' a', bitset_or_loop true st a b ks = (rc.OK, st', a') ∧
      st.length ≤ st'.length ∧
      a'.bitcount = a.bitcount ∧
      a'.block_count = a.block_count ∧
      a'.blocks.length = a.blocks.length ∧
      (∀ id, (store_get st id).isSome = true → (store_get st' id).isSome = true) ∧
      (∀ j, j ∉ ks → a'.blocks.getD j none = a.blocks.getD j none) ∧
      (∀ id, id < st.length →
        (∀ k ∈ ks, a.blocks.getD k none ≠ some id ∧ b.blocks.getD k none ≠ some id) →
        store_get st' id = store_get st id) := by
  intro ks
  induction ks with
  | nil =>
    intro st a
    exact ⟨st, a, rfl, Nat.le_refl _, rfl, rfl, rfl, fun _ h => h, fun _ _ => rfl,
      fun _ _ _ => rfl⟩
  | cons k ks ih =>
    intro st a
    cases hak : a.blocks.getD k none with
    | none =>
      cases hbk : b.blocks.getD k none with
      | none =>
        obtain ⟨st', a', heq, hlen, hbc, hbcnt, hblen, hlive, hslots, hpres⟩ := ih st a
        refine ⟨st', a', ?_, hlen, hbc, hbcnt, hblen, hlive, ?_, ?_⟩
        · unfold bitset_or_loop
          rw [hak, hbk]
          exact heq
        · intro j hj
          exact hslots j (fun hmem => hj (List.mem_cons_of_mem _ hmem))
        · intro id hid hcond
          exact hpres id hid (fun kk hkk => hcond kk (List.mem_cons_of_mem _ hkk))
      | some bk =>
        obtain ⟨st', a', heq, hlen, hbc, hbcnt, hblen, hlive, hslots, hpres⟩ :=
          ih (bitset_block_incref st bk) { a with blocks := a.blocks.set k (some bk) }
        refine ⟨st', a', ?_, ?_, hbc, hbcnt, ?_, ?_, ?_, ?_⟩
        · unfold bitset_or_loop
          rw [hak, hbk]
          exact heq
        · rw [incref_length] at hlen
          exact hlen
        · rw [hblen]
          simp
        · intro id h
          refine hlive id ?_
          rw [isSome_incref]
          exact h
        · intro j hj
          have hjk : j ≠ k := fun he => hj (he ▸ List.mem_cons_self k ks)
          rw [hslots j (fun hmem => hj (List.mem_cons_of_mem _ hmem))]
          dsimp only
          exact getD_set_ne _ _ hjk
        · intro id hid hcond
          have hcb : b.blocks.getD k none ≠ some id := (hcond k (List.mem_cons_self k ks)).2
          have hbkid : bk ≠ id := by
            intro he
            exact hcb (he ▸ hbk)
          have hstep : store_get (bitset_block_incref st bk) id = store_get st id :=
            store_get_incref_ne st (fun he => hbkid he.symm)
          rw [← hstep]
          refine hpres id (by rw [incref_length]; exact hid) ?_
          intro kk hkk
          refine ⟨?_, (hcond kk (List.mem_cons_of_mem _ hkk)).2⟩
          dsimp only
          exact getD_set_ne_val k kk (fun he => hbkid (Option.some.inj he))
            (hcond kk (List.mem_cons_of_mem _ hkk)).1
    | some ak =>
      cases hbk : b.blocks.getD k none with
      | none =>
        obtain ⟨st', a', heq, hlen, hbc, hbcnt, hblen, hlive, hslots, hpres⟩ := ih st a
        refine ⟨st', a', ?_, hlen, hbc, hbcnt, hblen, hlive, ?_, ?_⟩
        · unfold bitset_or_loop
          rw [hak, hbk]
          exact heq
        · intro j hj
          exact hslots j (fun hmem => hj (List.mem_cons_of_mem _ hmem))
        · intro id hid hcond
          exact hpres id hid (fun kk hkk => hcond kk (List.mem_cons_of_mem _ hkk))
      | some bk =>
        by_cases hsh : 1 < (store_getblk st ak).ref_count
        · obtain ⟨blkA, hgA, hshA, hneA⟩ := getblk_shared_some hsh
          obtain ⟨st', a', heq, hlen, hbc, hbcnt, hblen, hlive, hslots, hpres⟩ :=
            ih (store_modify (bitset_block_decref st ak ++
                  [some ⟨1, (store_getblk st ak).set_count, (store_getblk st ak).ints⟩])
                st.length
                (fun ab => bitset_block_or ab
                  (store_getblk (bitset_block_decref st ak ++
                    [some ⟨1, (store_getblk st ak).set_count, (store_getblk st ak).ints⟩]) bk)))
              { a with blocks := (a.blocks.set k none).set k (some st.length) }
          refine ⟨st', a', ?_, ?_, hbc, hbcnt, ?_, ?_, ?_, ?_⟩
          · unfold bitset_or_loop
            rw [hak, hbk]
            dsimp only
            rw [if_pos hsh, bitset_block_realloc_true st hak]
            exact heq
          · rw [store_modify_length, List.length_append, decref_length] at hlen
            omega
          · rw [hblen]
            simp
          · intro id h
            refine hlive id ?_
            rw [isSome_modify]
            refine isSome_append _ _ ?_
            rw [isSome_decref_keep hgA hneA]
            exact h
          · intro j hj
            have hjk : j ≠ k := fun he => hj (he ▸ List.mem_cons_self k ks)
            rw [hslots j (fun hmem => hj (List.mem_cons_of_mem _ hmem))]
            dsimp only
            rw [getD_set_ne _ _ hjk, getD_set_ne _ _ hjk]
          · intro id hid hcond
            have hca : a.blocks.getD k none ≠ some id := (hcond k (List.mem_cons_self k ks)).1
            have hakid : ak ≠ id := by
              intro he
              exact hca (he ▸ hak)
            have hidlt : id < (bitset_block_decref st ak).length := by
              rw [decref_length]
              exact hid
            have hstep : store_get
                (store_modify (bitset_block_decref st ak ++
                    [some ⟨1, (store_getblk st ak).set_count, (store_getblk st ak).ints⟩])
                  st.length
                  (fun ab => bitset_block_or ab
                    (store_getblk (bitset_block_decref st ak ++
                      [some ⟨1, (store_getblk st ak).set_count,
                        (store_getblk st ak).ints⟩]) bk))) id = store_get st id := by
              rw [store_get_modify_ne _ _ (by omega : id ≠ st.length)]
              rw [store_get_append_lt _ hidlt]
              exact store_get_decref_ne st (fun he => hakid he.symm)
            rw [← hstep]
            refine hpres id ?_ ?_
            · rw [store_modify_length, List.length_append, decref_length]
              omega
            · intro kk hkk
              refine ⟨?_, (hcond kk (List.mem_cons_of_mem _ hkk)).2⟩
              dsimp only
              refine getD_set_ne_val k kk
                (fun he => absurd (Option.some.inj he) (by omega)) ?_
              exact getD_set_ne_val k kk (by simp)
                (hcond kk (List.mem_cons_of_mem _ hkk)).1
        · obtain ⟨st', a', heq, hlen, hbc, hbcnt, hblen, hlive, hslots, hpres⟩ :=
            ih (store_modify st ak (fun ab => bitset_block_or ab (store_getblk st bk))) a
          refine ⟨st', a', ?_, ?_, hbc, hbcnt, hblen, ?_, ?_, ?_⟩
          · unfold bitset_or_loop
            rw [hak, hbk]
            dsimp only
            rw [if_neg hsh]
            exact heq
          · rw [store_modify_length] at hlen
            exact hlen
          · intro id h
            refine hlive id ?_
            rw [isSome_modify]
            exact h
          · intro j hj
            exact hslots j (fun hmem => hj (List.mem_cons_of_mem _ hmem))
          · intro id hid hcond
            have hca : a.blocks.getD k none ≠ some id := (hcond k (List.mem_cons_self k ks)).1
            have hakid : ak ≠ id := by
              intro he
              exact hca (he ▸ hak)
            have hstep : store_get
                (store_modify st ak (fun ab => bitset_block_or ab (store_getblk st bk))) id
                = store_get st id :=
              store_get_modify_ne st _ (fun he => hakid he.symm)
            rw [← hstep]
            refine hpres id (by rw [store_modify_length]; exact hid) ?_
            intro kk hkk
            exact hcond kk (List.mem_cons_of_mem _ hkk)

/-- Processing the one slot where `a` is absent and `b` present makes `a`
share `b`'s very block: after the whole loop, `a`'s slot holds the same id
and the block's reference count went up by exactly one, its words untouched
(no other slot of either operand references that block). -/
theorem or_loop_adopts (b : bitset) {i bid : Nat} {blk : bitset_block} :
    ∀ (ks : List Nat) (st : Store) (a : bitset), ks.Nodup → i ∈ ks →
    i < a.blocks.length →
    a.blocks.getD i none = none →
    (∀ j, a.blocks.getD j none ≠ some bid) →
    b.blocks.getD i none = some bid →
    (∀ j, j ≠ i → b.blocks.getD j none ≠ some bid) →
    store_get st bid = some blk →
    ∃ st' a', bitset_or_loop true st a b ks = (rc.OK, st', a') ∧
      a'.blocks.getD i none = some bid ∧
      store_get st' bid = some { blk with ref_count := blk.ref_count + 1 } := by
  intro ks
  induction ks with
  | nil =>
    intro st a _ hmem
    simp at hmem
  | cons k ks ih =>
    intro st a hnd hmem hilen hai hnota hbi hnotb hg
    have hknotin : k ∉ ks := (List.nodup_cons.mp hnd).1
    have hnd' : ks.Nodup := (List.nodup_cons.mp hnd).2
    have hbidlt : bid < st.length := store_get_lt_length hg
    by_cases hk : k = i
    · subst hk
      have hinotin : k ∉ ks := hknotin
      obtain ⟨st', a', heq, hlen, _, _, _, _, hslots, hpres⟩ :=
        or_loop_true_walk b ks (bitset_block_incref st bid)
          { a with blocks := a.blocks.set k (some bid) }
      have hg1 : store_get (bitset_block_incref st bid) bid
          = some { blk with ref_count := blk.ref_count + 1 } := by
        rw [store_get_incref_self, hg]
        rfl
      refine ⟨st', a', ?_, ?_, ?_⟩
      · unfold bitset_or_loop
        rw [hai, hbi]
        exact heq
      · rw [hslots k hinotin]
        dsimp only
        exact getD_set_self _ _ hilen
      · rw [hpres bid (by rw [incref_length]; exact hbidlt) ?_]
        · exact hg1
        intro kk hkk
        have hkki : kk ≠ k := fun he => hinotin (he ▸ hkk)
        constructor
        · dsimp only
          rw [getD_set_ne _ _ hkki]
          exact hnota kk
        · exact hnotb kk hkki
    · have hmem' : i ∈ ks := by
        cases List.mem_cons.mp hmem with
        | inl h => exact absurd h.symm hk
        | inr h => exact h
      cases hak : a.blocks.getD k none with
      | none =>
        cases hbk : b.blocks.getD k none with
        | none =>
          obtain ⟨st', a', heq, h2, h3⟩ :=
            ih st a hnd' hmem' hilen hai hnota hbi hnotb hg
          refine ⟨st', a', ?_, h2, h3⟩
          unfold bitset_or_loop
          rw [hak, hbk]
          exact heq
        | some bk =>
          have hbkbid : bk ≠ bid := by
            intro he
            exact hnotb k hk (he ▸ hbk)
          obtain ⟨st', a', heq, h2, h3⟩ :=
            ih (bitset_block_incref st bk) { a with blocks := a.blocks.set k (some bk) }
              hnd' hmem' (by simpa using hilen)
              (by dsimp only; rw [getD_set_ne _ _ (fun he => hk he.symm)]; exact hai)
              (fun j => getD_set_ne_val k j
                (fun he => hbkbid (Option.some.inj he)) (hnota j))
              hbi hnotb
              (by rw [store_get_incref_ne st (fun he => hbkbid he.symm)]; exact hg)
          refine ⟨st', a', ?_, h2, h3⟩
          unfold bitset_or_loop
          rw [hak, hbk]
          exact heq
      | some ak =>
        have hakbid : ak ≠ bid := by
          intro he
          exact hnota k (he ▸ hak)
        cases hbk : b.blocks.getD k none with
        | none =>
          obtain ⟨st', a', heq, h2, h3⟩ :=
            ih st a hnd' hmem' hilen hai hnota hbi hnotb hg
          refine ⟨st', a', ?_, h2, h3⟩
          unfold bitset_or_loop
          rw [hak, hbk]
          exact heq
        | some bk =>
          by_cases hsh : 1 < (store_getblk st ak).ref_count
          · have hg1 : store_get
                (store_modify (bitset_block_decref st ak ++
                    [some ⟨1, (store_getblk st ak).set_count, (store_getblk st ak).ints⟩])
                  st.length
                  (fun ab => bitset_block_or ab
                    (store_getblk (bitset_block_decref st ak ++
                      [some ⟨1, (store_getblk st ak).set_count,
                        (store_getblk st ak).ints⟩]) bk))) bid = some blk := by
              rw [store_get_modify_ne _ _ (by omega : bid ≠ st.length)]
              rw [store_get_append_lt _ (by rw [decref_length]; exact hbidlt)]
              exact (store_get_decref_ne st (fun he => hakbid he.symm)).trans hg
            obtain ⟨st', a', heq, h2, h3⟩ :=
              ih _ { a with blocks := (a.blocks.set k none).set k (some st.length) }
                hnd' hmem' (by simpa using hilen)
                (by
                  dsimp only
                  rw [getD_set_ne _ _ (fun he => hk he.symm),
                    getD_set_ne _ _ (fun he => hk he.symm)]
                  exact hai)
                (fun j => getD_set_ne_val k j
                  (fun he => absurd (Option.some.inj he) (by omega))
                  (getD_set_ne_val k j (by simp) (hnota j)))
                hbi hnotb hg1
            refine ⟨st', a', ?_, h2, h3⟩
            unfold bitset_or_loop
            rw [hak, hbk]
            dsimp only
            rw [if_pos hsh, bitset_block_realloc_true st hak]
            exact heq
          · obtain ⟨st', a', heq, h2, h3⟩ :=
              ih (store_modify st ak (fun ab => bitset_block_or ab (store_getblk st bk))) a
                hnd' hmem' hilen hai hnota hbi hnotb
                (by rw [store_get_modify_ne st _ (fun he => hakbid he.symm)]; exact hg)
            refine ⟨st', a', ?_, h2, h3⟩
            unfold bitset_or_loop
            rw [hak, hbk]
            dsimp only
            rw [if_neg hsh]
            exact heq

/-- C8: when `bitset_or(a,b)` processes a slot where `a` is absent and `b`
present, `a`'s slot becomes a shared reference to `b`'s very block — the id
is identical, the reference count goes up by one and no word data is copied
— and a subsequent `set(a, bit)` into that slot COW-clones the block before
mutating: `a` ends up with a fresh private block, the shared block's
reference count returns to its old value with its words intact, and every
`test(b, j)` result is unchanged. -/
theorem C8_union_shares_then_cow {st : Store} {a b : bitset} {i bid : Nat}
    {blk : bitset_block}
    (hst : store_wfb st = true) (hwb : bs_wfb st b = true)
    (hbc : a.bitcount = b.bitcount)
    (hilen : i < a.blocks.length)
    (hibc : i < a.block_count.toNat)
    (hai : a.blocks.getD i none = none)
    (hnota : ∀ j, a.blocks.getD j none ≠ some bid)
    (hbi : b.blocks.getD i none = some bid)
    (hnotb : ∀ j, j ≠ i → b.blocks.getD j none ≠ some bid)
    (hg : store_get st bid = some blk)
    (hrc : 0 < blk.ref_count) :
    ∃ st' a',
      bitset_or true st a b = (rc.OK, st', a') ∧
      a'.blocks.getD i none = some bid ∧
      store_get st' bid = some { blk with ref_count := blk.ref_count + 1 } ∧
      (∀ bit : Int, 0 ≤ bit → bit < a.bitcount → bit.toNat / IDSPERBLOCK = i →
        bitset_block_test_bit blk (bit.toNat % IDSPERBLOCK) = false →
        ∃ st2 a2 nid,
          bitset_set true st' a' bit = (rc.OK, st2, a2) ∧
          a2.blocks.getD i none = some nid ∧
          nid ≠ bid ∧
          store_get st2 bid = some blk ∧
          btest st2 a2 bit = true ∧
          (∀ j : Int, btest st2 b j = btest st' b j)) := by
  have hnd : (List.range a.block_count.toNat).Nodup := List.nodup_range _
  have hmem : i ∈ List.range a.block_count.toNat := List.mem_range.mpr hibc
  obtain ⟨st', a', heqA, hslotA, hgA⟩ :=
    or_loop_adopts b (List.range a.block_count.toNat) st a hnd hmem hilen hai hnota hbi
      hnotb hg
  obtain ⟨st'', a'', heqW, hlenW, hbcW, hbcntW, hblenW, hliveW, _, _⟩ :=
    or_loop_true_walk b (List.range a.block_count.toNat) st a
  rw [heqA] at heqW
  simp only [Prod.mk.injEq] at heqW
  obtain ⟨hst'', ha''⟩ := heqW.2
  subst hst''
  subst ha''
  have hbidlt : bid < st.length := store_get_lt_length hg
  have hblklen : blk.ints.length = BLOCKSIZE := block_wfb_len (store_wfb_block hst hg)
  refine ⟨st', a', ?_, hslotA, hgA, ?_⟩
  · unfold bitset_or
    rw [if_neg (by simp [hbc])]
    exact heqA
  intro bit h0 h1 hbiti ht
  have hguard : ¬(bit < 0 ∨ a'.bitcount ≤ bit) := by rw [hbcW]; omega
  have hslot' : a'.blocks.getD (bit.toNat / IDSPERBLOCK) none = some bid := by
    rw [hbiti]
    exact hslotA
  have hbb64 : bit.toNat % IDSPERBLOCK / 64 < BLOCKSIZE := block_bit_lt bit.toNat
  have htP : bitset_block_test_bit { blk with ref_count := blk.ref_count + 1 }
      (bit.toNat % IDSPERBLOCK) = false := by
    rw [test_bit_only_ints (rfl : ({ blk with ref_count := blk.ref_count + 1 } :
      bitset_block).ints = blk.ints)]
    exact ht
  unfold bitset_set
  rw [if_neg hguard]
  dsimp only
  rw [hslot']
  dsimp only
  rw [store_getblk_eq hgA, htP, if_neg (by simp),
    if_pos (by dsimp only; omega), bitset_block_realloc_true st' hslot']
  dsimp only
  have hdced : store_get (bitset_block_decref st' bid) bid = some blk := by
    rw [store_get_decref_self st' hgA, if_neg (by dsimp only; omega)]
    dsimp only
    cases blk with
    | mk r s l =>
      simp only [Option.some.injEq, bitset_block.mk.injEq]
      refine ⟨by omega, trivial, trivial⟩
  have hbid_st2 : store_get
      (store_modify
        (bitset_block_decref st' bid ++
          [some ⟨1, (store_getblk st' bid).set_count, (store_getblk st' bid).ints⟩])
        st'.length
        (fun b => bitset_block_set_bit b (bit.toNat % IDSPERBLOCK))) bid = some blk := by
    rw [store_get_modify_ne _ _ (by omega : bid ≠ st'.length)]
    rw [store_get_append_lt _ (by rw [decref_length]; omega)]
    exact hdced
  refine ⟨_, _, st'.length, rfl, ?_, by omega, hbid_st2, ?_, ?_⟩
  · dsimp only
    rw [hbiti, List.set_set]
    refine getD_set_self _ _ ?_
    rw [hblenW]
    exact hilen
  · unfold btest bitset_test_bit
    rw [if_neg (by dsimp only; exact hguard)]
    dsimp only
    rw [hbiti, List.set_set, getD_set_self _ _ (by rw [hblenW]; exact hilen)]
    dsimp only
    have hnid : st'.length = (bitset_block_decref st' bid).length :=
      (decref_length st' bid).symm
    have hget2 : store_get
        (store_modify
          (bitset_block_decref st' bid ++
            [some ⟨1, (store_getblk st' bid).set_count, (store_getblk st' bid).ints⟩])
          st'.length
          (fun b => bitset_block_set_bit b (bit.toNat % IDSPERBLOCK))) st'.length
        = some (bitset_block_set_bit
            ⟨1, (store_getblk st' bid).set_count, (store_getblk st' bid).ints⟩
            (bit.toNat % IDSPERBLOCK)) := by
      rw [store_get_modify_self]
      rw [hnid, store_get_append_self]
      rfl
    rw [store_getblk_eq hget2]
    refine test_after_set _ _ ?_
    rw [store_getblk_eq hgA]
    dsimp only
    rw [hblklen]
    exact hbb64
  · intro j
    refine btest_eq_of_intsAt ?_
    intro id hid
    by_cases hidbid : id = bid
    · subst hidbid
      unfold intsAt
      rw [hbid_st2, hgA]
      rfl
    · obtain ⟨blkj, hgj⟩ := bs_wfb_live hwb hid
      have hjlt : id < st.length := store_get_lt_length hgj
      unfold intsAt
      rw [store_get_modify_ne _ _ (by omega : id ≠ st'.length)]
      rw [store_get_append_lt _ (by rw [decref_length]; omega)]
      rw [store_get_decref_ne st' (fun he => hidbid he)]

/-- Witness for C8: capacity-64 bitsets, `a` all absent, `b` holding bit 3 in
its single block. -/
theorem C8_union_shares_then_cow_witness :
    ∃ st' a',
      bitset_or true [some ⟨1, 1, [8, 0]⟩] ⟨64, 1, [none]⟩ ⟨64, 1, [some 0]⟩
        = (rc.OK, st', a') ∧
      a'.blocks.getD 0 none = some 0 ∧
      store_get st' 0 = some ⟨2, 1, [8, 0]⟩ ∧
      (∀ bit : Int, 0 ≤ bit → bit < (⟨64, 1, [none]⟩ : bitset).bitcount →
        bit.toNat / IDSPERBLOCK = 0 →
        bitset_block_test_bit ⟨1, 1, [8, 0]⟩ (bit.toNat % IDSPERBLOCK) = false →
        ∃ st2 a2 nid,
          bitset_set true st' a' bit = (rc.OK, st2, a2) ∧
          a2.blocks.getD 0 none = some nid ∧
          nid ≠ 0 ∧
          store_get st2 0 = some ⟨1, 1, [8, 0]⟩ ∧
          btest st2 a2 bit = true ∧
          (∀ j : Int, btest st2 ⟨64, 1, [some 0]⟩ j = btest st' ⟨64, 1, [some 0]⟩ j)) :=
  @C8_union_shares_then_cow [some ⟨1, 1, [8, 0]⟩] ⟨64, 1, [none]⟩ ⟨64, 1, [some 0]⟩ 0 0
    ⟨1, 1, [8, 0]⟩ (by decide) (by decide) (by decide) (by decide) (by decide)
    (by decide)
    (by
      intro j
      rcases j with _ | n
      · simp [List.getD_eq_getElem?_getD]
      · simp [List.getD_eq_getElem?_getD])
    (by decide)
    (by
      intro j hj
      rcases j with _ | n
      · exact absurd rfl hj
      · simp [List.getD_eq_getElem?_getD])
    (by decide) (by decide)

/-! ## Popcount and inversion lemmas -/

theorem list_len_two {α : Type} {l : List α} (h : l.length = 2) : ∃ x y, l = [x, y] := by
  cases l with
  | nil => simp at h
  | cons x t =>
    cases t with
    | nil => simp at h
    | cons y t2 =>
      cases t2 with
      | nil => exact ⟨x, y, rfl⟩
      | cons z t3 => simp at h

theorem popcount64_le (w : Nat) : popcount64 w ≤ 64 := by
  unfold popcount64
  have h : (List.range 64).countP (fun b => w.testBit b) ≤ (List.range 64).length :=
    List.countP_le_length _
  simpa using h

theorem popcount64_full {w : Nat} (h : popcount64 w = 64) :
    ∀ b < 64, w.testBit b = true := by
  unfold popcount64 at h
  have hall := List.countP_eq_length.mp
    (show (List.range 64).countP (fun b => w.testBit b) = (List.range 64).length by
      simpa using h)
  intro b hb
  simpa using hall b (List.mem_range.mpr hb)

theorem countP_not_eq {α : Type} (l : List α) (p : α → Bool) :
    l.countP (fun a => !p a) = l.length - l.countP p := by
  induction l with
  | nil => rfl
  | cons x t ih =>
    have hle : t.countP p ≤ t.length := List.countP_le_length _
    cases hx : p x <;> (simp [List.countP_cons, hx, ih]; try omega)

theorem testBit_U64MAX {b : Nat} (hb : b < 64) : Nat.testBit U64MAX b = true := by
  have hU : U64MAX = 2 ^ 64 - 1 := rfl
  rw [hU, Nat.testBit_two_pow_sub_one]
  simp [hb]

theorem popcount64_compl (w : Nat) :
    popcount64 (U64MAX ^^^ w) = 64 - popcount64 w := by
  unfold popcount64
  have hpt : ∀ b ∈ List.range 64, (U64MAX ^^^ w).testBit b = !w.testBit b := by
    intro b hb
    rw [Nat.testBit_xor, testBit_U64MAX (List.mem_range.mp hb)]
    cases w.testBit b <;> rfl
  rw [List.countP_congr (fun x hx => by rw [hpt x hx])]
  have h := countP_not_eq (List.range 64) (fun b => w.testBit b)
  simpa using h

theorem block_popcount_two (w0 w1 : Nat) :
    block_popcount [w0, w1] = popcount64 w0 + popcount64 w1 := by
  simp [block_popcount]

theorem full_block_test {blk : bitset_block} (hwf : block_wfb blk = true)
    (hfull : blk.set_count = (64 * BLOCKSIZE : Int)) :
    ∀ b2 < IDSPERBLOCK, bitset_block_test_bit blk b2 = true := by
  have hlen := block_wfb_len hwf
  have hsc := block_wfb_sc hwf
  obtain ⟨w0, w1, he⟩ := list_len_two (hlen.trans rfl)
  have hp : popcount64 w0 + popcount64 w1 = 128 := by
    have h1 : (block_popcount blk.ints : Int) = 128 := by
      rw [← hsc, hfull]
      norm_num [BLOCKSIZE]
    rw [he, block_popcount_two] at h1
    exact_mod_cast h1
  have h0 : popcount64 w0 = 64 := by
    have := popcount64_le w0
    have := popcount64_le w1
    omega
  have h1 : popcount64 w1 = 64 := by
    have := popcount64_le w0
    omega
  intro b2 hb2
  have hb128 : b2 < 128 := by
    have : (IDSPERBLOCK : Nat) = 128 := by norm_num [IDSPERBLOCK, BLOCKSIZE]
    omega
  rw [bitset_block_test_bit_eq, he]
  have hm : b2 % 64 < 64 := Nat.mod_lt _ (by norm_num)
  rcases hq : b2 / 64 with _ | n
  · simpa using popcount64_full h0 _ hm
  · have hn : n = 0 := by omega
    subst hn
    simpa using popcount64_full h1 _ hm

theorem invert_block_test {blk : bitset_block} (hlen : blk.ints.length = BLOCKSIZE) :
    ∀ b2 < IDSPERBLOCK, bitset_block_test_bit (bitset_block_invert blk) b2
      = !(bitset_block_test_bit blk b2) := by
  intro b2 hb2
  have hb128 : b2 < 128 := by
    have : (IDSPERBLOCK : Nat) = 128 := by norm_num [IDSPERBLOCK, BLOCKSIZE]
    omega
  have hq : b2 / 64 < blk.ints.length := by
    rw [hlen]
    show b2 / 64 < 2
    omega
  rw [bitset_block_test_bit_eq, bitset_block_test_bit_eq]
  unfold bitset_block_invert
  dsimp only
  have hmap : (blk.ints.map (fun x => U64MAX ^^^ x)).getD (b2 / 64) 0
      = U64MAX ^^^ (blk.ints.getD (b2 / 64) 0) := by
    rw [List.getD_eq_getElem?_getD, List.getD_eq_getElem?_getD, List.getElem?_map,
      List.getElem?_eq_getElem hq]
    rfl
  rw [hmap, Nat.testBit_xor, testBit_U64MAX (Nat.mod_lt _ (by norm_num))]
  cases (blk.ints.getD (b2 / 64) 0).testBit (b2 % 64) <;> rfl

theorem block_wfb_invert {blk : bitset_block} (hwf : block_wfb blk = true) :
    block_wfb (bitset_block_invert blk) = true := by
  have hlen := block_wfb_len hwf
  have hbd := block_wfb_bound hwf
  have hsc := block_wfb_sc hwf
  obtain ⟨w0, w1, he⟩ := list_len_two (hlen.trans rfl)
  have hb0 : w0 < 2 ^ 64 := hbd w0 (by rw [he]; simp)
  have hb1 : w1 < 2 ^ 64 := hbd w1 (by rw [he]; simp)
  have hU : U64MAX < 2 ^ 64 := by norm_num [U64MAX]
  simp only [block_wfb, Bool.and_eq_true, beq_iff_eq, List.all_eq_true,
    decide_eq_true_eq] at hwf ⊢
  unfold bitset_block_invert
  dsimp only
  refine ⟨⟨?_, ?_⟩, ?_⟩
  · rw [List.length_map]
    exact hlen
  · intro w hw
    obtain ⟨x, hx, rfl⟩ := List.mem_map.mp hw
    exact Nat.xor_lt_two_pow hU (hbd x hx)
  · rw [he, hsc, he, block_popcount_two]
    have hc0 := popcount64_compl w0
    have hc1 := popcount64_compl w1
    have hl0 := popcount64_le w0
    have hl1 := popcount64_le w1
    have hmap : ([w0, w1].map (fun x => U64MAX ^^^ x)) = [U64MAX ^^^ w0, U64MAX ^^^ w1] := by
      simp
    rw [hmap, block_popcount_two, hc0, hc1, idsperblock_eq]
    push_cast
    omega

/-! ## Store well-formedness preservation -/

theorem store_wfb_of_entries {st : Store}
    (h : ∀ id blk, store_get st id = some blk → block_wfb blk = true) :
    store_wfb st = true := by
  unfold store_wfb
  rw [List.all_eq_true]
  intro o ho
  obtain ⟨n, hn⟩ := List.getElem?_of_mem ho
  cases o with
  | none => rfl
  | some blk =>
    refine h n blk ?_
    rw [store_get, List.getD_eq_getElem?_getD, hn]
    rfl

theorem store_wfb_set {st : Store} (hst : store_wfb st = true) (id : Nat)
    {v : Option bitset_block} (hv : ∀ blk, v = some blk → block_wfb blk = true) :
    store_wfb (st.set id v) = true := by
  refine store_wfb_of_entries ?_
  intro id2 blk hg
  by_cases h : id2 = id
  · subst h
    by_cases hlt : id2 < st.length
    · rw [store_get_set_self _ hlt] at hg
      exact hv blk hg
    · rw [List.set_eq_of_length_le (Nat.le_of_not_lt hlt)] at hg
      exact store_wfb_block hst hg
  · rw [store_get_set_ne _ h] at hg
    exact store_wfb_block hst hg

theorem store_wfb_decref {st : Store} (hst : store_wfb st = true) (id : Nat) :
    store_wfb (bitset_block_decref st id) = true := by
  unfold bitset_block_decref
  cases hg : store_get st id with
  | none => exact hst
  | some b =>
    dsimp only
    split
    · exact store_wfb_set hst id (fun blk h => by cases h)
    · refine store_wfb_set hst id ?_
      intro blk h
      cases h
      have hwf := store_wfb_block hst hg
      unfold block_wfb at hwf ⊢
      exact hwf

theorem store_wfb_modify {st : Store} (hst : store_wfb st = true) (id : Nat)
    {f : bitset_block → bitset_block}
    (hf : ∀ blk, block_wfb blk = true → block_wfb (f blk) = true) :
    store_wfb (store_modify st id f) = true := by
  unfold store_modify
  cases hg : store_get st id with
  | none => exact hst
  | some b =>
    refine store_wfb_set hst id ?_
    intro blk h
    cases h
    exact hf b (store_wfb_block hst hg)

theorem store_wfb_append {st : Store} (hst : store_wfb st = true)
    {blk : bitset_block} (hwf : block_wfb blk = true) :
    store_wfb (st ++ [some blk]) = true := by
  unfold store_wfb at hst ⊢
  rw [List.all_append, hst]
  simpa using hwf

/-- Pairwise slot-distinctness of block ids, extracted from `Nodup` of the
present-id list. -/
theorem nodup_present_pairwise :
    ∀ {l : List (Option Nat)}, (l.filterMap (fun o => o)).Nodup →
    ∀ j1 j2 id, j1 ≠ j2 → l.getD j1 none = some id → l.getD j2 none ≠ some id := by
  intro l
  induction l with
  | nil =>
    intro _ j1 j2 id _ h1
    simp [List.getD] at h1
  | cons o t ih =>
    intro hnd j1 j2 id hne h1 h2
    cases o with
    | none =>
      rw [List.filterMap_cons_none rfl] at hnd
      cases j1 with
      | zero => simp at h1
      | succ n1 =>
        cases j2 with
        | zero => simp at h2
        | succ n2 =>
          rw [List.getD_cons_succ] at h1 h2
          exact ih hnd n1 n2 id (fun he => hne (by rw [he])) h1 h2
    | some x =>
      have hfm : List.filterMap (fun o => o) (some x :: t)
          = x :: List.filterMap (fun o => o) t := by simp
      rw [hfm] at hnd
      have hx := (List.nodup_cons.mp hnd).1
      have hnd' := (List.nodup_cons.mp hnd).2
      cases j1 with
      | zero =>
        rw [List.getD_cons_zero] at h1
        cases j2 with
        | zero => exact hne rfl
        | succ n2 =>
          rw [List.getD_cons_succ] at h2
          refine hx ?_
          rw [List.mem_filterMap]
          refine ⟨some id, getD_mem h2, ?_⟩
          rw [← Option.some.inj h1]
      | succ n1 =>
        rw [List.getD_cons_succ] at h1
        cases j2 with
        | zero =>
          rw [List.getD_cons_zero] at h2
          refine hx ?_
          rw [List.mem_filterMap]
          refine ⟨some id, getD_mem h1, ?_⟩
          rw [← Option.some.inj h2]
        | succ n2 =>
          rw [List.getD_cons_succ] at h2
          exact ih hnd' n1 n2 id (fun he => hne (by rw [he])) h1 h2

theorem allones_wfb :
    block_wfb ⟨1, (IDSPERBLOCK : Int), List.replicate BLOCKSIZE U64MAX⟩ = true := by decide

theorem allones_test : ∀ b2 < IDSPERBLOCK,
    bitset_block_test_bit ⟨1, (IDSPERBLOCK : Int), List.replicate BLOCKSIZE U64MAX⟩ b2
      = true := by decide

/-- Everything `bitset_invert`'s loop guarantees: it returns `OK`, preserves
the bitset's shape and the heap's block integrity, leaves untouched slots and
unreferenced heap entries alone, and negates the observation of every
processed slot. -/
theorem invert_loop_walk :
    ∀ (ks : List Nat) (st : Store) (a : bitset), ks.Nodup →
    store_wfb st = true →
    (∀ k ∈ ks, k < a.blocks.length) →
    (∀ j id, a.blocks.getD j none = some id →
      ∃ blkj, store_get st id = some blkj ∧ block_wfb blkj = true) →
    (∀ j1 j2 id, j1 ≠ j2 → a.blocks.getD j1 none = some id →
      a.blocks.getD j2 none ≠ some id) →
    ∃ st' a', bitset_invert_loop true st a ks = (rc.OK, st', a') ∧
      a'.bitcount = a.bitcount ∧
      a'.block_count = a.block_count ∧
      a'.blocks.length = a.blocks.length ∧
      st.length ≤ st'.length ∧
      store_wfb st' = true ∧
      (∀ j id, a'.blocks.getD j none = some id →
        ∃ blkj, store_get st' id = some blkj ∧ block_wfb blkj = true) ∧
      (∀ j1 j2 id, j1 ≠ j2 → a'.blocks.getD j1 none = some id →
        a'.blocks.getD j2 none ≠ some id) ∧
      (∀ j, j ∉ ks → a'.blocks.getD j none = a.blocks.getD j none) ∧
      (∀ id, id < st.length → (∀ k ∈ ks, a.blocks.getD k none ≠ some id) →
        store_get st' id = store_get st id) ∧
      (∀ j ∈ ks, ∀ b2, b2 < IDSPERBLOCK →
        slot_test st' a' j b2 = !(slot_test st a j b2)) := by
  intro ks
  induction ks with
  | nil =>
    intro st a _ hstwf _ hlive hdist
    exact ⟨st, a, rfl, rfl, rfl, rfl, Nat.le_refl _, hstwf, hlive, hdist,
      fun _ _ => rfl, fun _ _ _ => rfl, fun j hj => absurd hj (by simp)⟩
  | cons k ks ih =>
    intro st a hnd hstwf hklen hlive hdist
    have hknotin : k ∉ ks := (List.nodup_cons.mp hnd).1
    have hnd' : ks.Nodup := (List.nodup_cons.mp hnd).2
    have hklt : k < a.blocks.length := hklen k (List.mem_cons_self k ks)
    cases hak : a.blocks.getD k none with
    | none =>
      have hst1wf : store_wfb (st ++ [some ⟨1, (IDSPERBLOCK : Int),
          List.replicate BLOCKSIZE U64MAX⟩]) = true := store_wfb_append hstwf allones_wfb
      have hlive1 : ∀ j id,
          ({ a with blocks := a.blocks.set k (some st.length) } :
            bitset).blocks.getD j none = some id →
          ∃ blkj, store_get (st ++ [some ⟨1, (IDSPERBLOCK : Int),
            List.replicate BLOCKSIZE U64MAX⟩]) id = some blkj ∧ block_wfb blkj = true := by
        intro j id hj
        dsimp only at hj
        by_cases hjk : j = k
        · subst hjk
          rw [getD_set_self _ _ hklt] at hj
          cases hj
          exact ⟨_, store_get_append_self st _, allones_wfb⟩
        · rw [getD_set_ne _ _ hjk] at hj
          obtain ⟨blkj, hgj, hwfj⟩ := hlive j id hj
          exact ⟨blkj, by rw [store_get_append_lt _ (store_get_lt_length hgj)]; exact hgj,
            hwfj⟩
      have hdist1 : ∀ j1 j2 id, j1 ≠ j2 →
          ({ a with blocks := a.blocks.set k (some st.length) } :
            bitset).blocks.getD j1 none = some id →
          ({ a with blocks := a.blocks.set k (some st.length) } :
            bitset).blocks.getD j2 none ≠ some id := by
        intro j1 j2 id hne hj1 hj2
        dsimp only at hj1 hj2
        by_cases h1k : j1 = k
        · subst h1k
          rw [getD_set_self _ _ hklt] at hj1
          cases hj1
          rw [getD_set_ne _ _ (fun he => hne he.symm)] at hj2
          obtain ⟨blkj, hgj, _⟩ := hlive j2 _ hj2
          exact absurd (store_get_lt_length hgj) (by omega)
        · rw [getD_set_ne _ _ h1k] at hj1
          by_cases h2k : j2 = k
          · subst h2k
            rw [getD_set_self _ _ hklt] at hj2
            cases hj2
            obtain ⟨blkj, hgj, _⟩ := hlive j1 _ hj1
            exact absurd (store_get_lt_length hgj) (by omega)
          · rw [getD_set_ne _ _ h2k] at hj2
            exact hdist j1 j2 id hne hj1 hj2
      obtain ⟨st', a', heq, hbc, hbcnt, hblen, hlen, hstwf', hlive', hdist', hslots,
          hpres, hobs⟩ :=
        ih (st ++ [some ⟨1, (IDSPERBLOCK : Int), List.replicate BLOCKSIZE U64MAX⟩])
          { a with blocks := a.blocks.set k (some st.length) }
          hnd' hst1wf (by intro kk hkk; simpa using hklen kk (List.mem_cons_of_mem _ hkk))
          hlive1 hdist1
      refine ⟨st', a', ?_, hbc, hbcnt, by rw [hblen]; simp, ?_, hstwf', hlive', hdist',
        ?_, ?_, ?_⟩
      · unfold bitset_invert_loop
        rw [hak]
        dsimp only
        rw [if_pos rfl]
        dsimp only [store_alloc]
        exact heq
      · rw [List.length_append] at hlen
        omega
      · intro j hj
        have hjk : j ≠ k := fun he => hj (he ▸ List.mem_cons_self k ks)
        rw [hslots j (fun hmem => hj (List.mem_cons_of_mem _ hmem))]
        dsimp only
        exact getD_set_ne _ _ hjk
      · intro id hid hcond
        have hstep : store_get (st ++ [some ⟨1, (IDSPERBLOCK : Int),
            List.replicate BLOCKSIZE U64MAX⟩]) id = store_get st id :=
          store_get_append_lt _ hid
        rw [← hstep]
        refine hpres id (by rw [List.length_append]; omega) ?_
        intro kk hkk
        dsimp only
        refine getD_set_ne_val k kk (fun he => ?_) (hcond kk (List.mem_cons_of_mem _ hkk))
        have : st.length = id := Option.some.inj he
        omega
      · intro j hj b2 hb2
        cases List.mem_cons.mp hj with
        | inl hjk =>
          subst hjk
          have hlhs : slot_test st a j b2 = false := by
            unfold slot_test
            rw [hak]
          rw [hlhs]
          unfold slot_test
          rw [hslots j hknotin]
          dsimp only
          rw [getD_set_self _ _ hklt]
          dsimp only
          have hstore : store_get st' st.length = some ⟨1, (IDSPERBLOCK : Int),
              List.replicate BLOCKSIZE U64MAX⟩ := by
            rw [hpres st.length (by rw [List.length_append]; simp) ?_]
            · exact store_get_append_self st _
            intro kk hkk
            dsimp only
            have hkkj : kk ≠ j := fun he => hknotin (he ▸ hkk)
            rw [getD_set_ne _ _ hkkj]
            intro he
            obtain ⟨blkj, hgj, _⟩ := hlive kk _ he
            exact absurd (store_get_lt_length hgj) (by omega)
          rw [store_getblk_eq hstore]
          exact allones_test b2 hb2
        | inr hjks =>
          rw [hobs j hjks b2 hb2]
          have hjk : j ≠ k := fun he => hknotin (he ▸ hjks)
          have hsame : slot_test (st ++ [some ⟨1, (IDSPERBLOCK : Int),
              List.replicate BLOCKSIZE U64MAX⟩])
              { a with blocks := a.blocks.set k (some st.length) } j b2
              = slot_test st a j b2 := by
            unfold slot_test
            dsimp only
            rw [getD_set_ne _ _ hjk]
            cases hjv : a.blocks.getD j none with
            | none => rfl
            | some idj =>
              obtain ⟨blkj, hgj, _⟩ := hlive j idj hjv
              dsimp only
              unfold store_getblk
              rw [store_get_append_lt _ (store_get_lt_length hgj)]
          rw [hsame]
    | some idk =>
      obtain ⟨blkk, hgk, hwfk⟩ := hlive k idk hak
      have hidklt : idk < st.length := store_get_lt_length hgk
      by_cases hfull : (store_getblk st idk).set_count = (64 * BLOCKSIZE : Int)
      · have hst1wf : store_wfb (bitset_block_decref st idk) = true :=
          store_wfb_decref hstwf idk
        have hlive1 : ∀ j id,
            ({ a with blocks := a.blocks.set k none } : bitset).blocks.getD j none
              = some id →
            ∃ blkj, store_get (bitset_block_decref st idk) id = some blkj ∧
              block_wfb blkj = true := by
          intro j id hj
          dsimp only at hj
          have hjk : j ≠ k := by
            intro he
            subst he
            rw [getD_set_self _ _ hklt] at hj
            cases hj
          rw [getD_set_ne _ _ hjk] at hj
          obtain ⟨blkj, hgj, hwfj⟩ := hlive j id hj
          have hidne : id ≠ idk := by
            intro he
            exact hdist j k id hjk hj (by rw [hak, he])
          exact ⟨blkj, by rw [store_get_decref_ne st hidne]; exact hgj, hwfj⟩
        have hdist1 : ∀ j1 j2 id, j1 ≠ j2 →
            ({ a with blocks := a.blocks.set k none } : bitset).blocks.getD j1 none
              = some id →
            ({ a with blocks := a.blocks.set k none } : bitset).blocks.getD j2 none
              ≠ some id := by
          intro j1 j2 id hne hj1 hj2
          dsimp only at hj1 hj2
          have h1k : j1 ≠ k := by
            intro he
            subst he
            rw [getD_set_self _ _ hklt] at hj1
            cases hj1
          have h2k : j2 ≠ k := by
            intro he
            subst he
            rw [getD_set_self _ _ hklt] at hj2
            cases hj2
          rw [getD_set_ne _ _ h1k] at hj1
          rw [getD_set_ne _ _ h2k] at hj2
          exact hdist j1 j2 id hne hj1 hj2
        obtain ⟨st', a', heq, hbc, hbcnt, hblen, hlen, hstwf', hlive', hdist', hslots,
            hpres, hobs⟩ :=
          ih (bitset_block_decref st idk) { a with blocks := a.blocks.set k none }
            hnd' hst1wf (by intro kk hkk; simpa using hklen kk (List.mem_cons_of_mem _ hkk))
            hlive1 hdist1
        refine ⟨st', a', ?_, hbc, hbcnt, by rw [hblen]; simp, ?_, hstwf', hlive', hdist',
          ?_, ?_, ?_⟩
        · unfold bitset_invert_loop
          rw [hak]
          dsimp only
          rw [if_pos hfull]
          exact heq
        · rw [decref_length] at hlen
          exact hlen
        · intro j hj
          have hjk : j ≠ k := fun he => hj (he ▸ List.mem_cons_self k ks)
          rw [hslots j (fun hmem => hj (List.mem_cons_of_mem _ hmem))]
          dsimp only
          exact getD_set_ne _ _ hjk
        · intro id hid hcond
          have hidne : id ≠ idk := by
            intro he
            exact (hcond k (List.mem_cons_self k ks)) (by rw [hak, he])
          have hstep : store_get (bitset_block_decref st idk) id = store_get st id :=
            store_get_decref_ne st hidne
          rw [← hstep]
          refine hpres id (by rw [decref_length]; exact hid) ?_
          intro kk hkk
          dsimp only
          exact getD_set_ne_val k kk (by simp) (hcond kk (List.mem_cons_of_mem _ hkk))
        · intro j hj b2 hb2
          cases List.mem_cons.mp hj with
          | inl hjk =>
            subst hjk
            have hlhs : slot_test st a j b2 = true := by
              unfold slot_test
              rw [hak]
              dsimp only
              rw [store_getblk_eq hgk]
              exact full_block_test hwfk (by rw [store_getblk_eq hgk] at hfull; exact hfull)
                b2 hb2
            rw [hlhs]
            unfold slot_test
            rw [hslots j hknotin]
            dsimp only
            rw [getD_set_self _ _ hklt]
            rfl
          | inr hjks =>
            rw [hobs j hjks b2 hb2]
            have hjk : j ≠ k := fun he => hknotin (he ▸ hjks)
            have hsame : slot_test (bitset_block_decref st idk)
                { a with blocks := a.blocks.set k none } j b2 = slot_test st a j b2 := by
              unfold slot_test
              dsimp only
              rw [getD_set_ne _ _ hjk]
              cases hjv : a.blocks.getD j none with
              | none => rfl
              | some idj =>
                have hidne : idj ≠ idk := by
                  intro he
                  exact hdist j k idj hjk hjv (by rw [hak, he])
                dsimp only
                unfold store_getblk
                rw [store_get_decref_ne st hidne]
            rw [hsame]
      · have hst1wf : store_wfb (store_modify st idk bitset_block_invert) = true :=
          store_wfb_modify hstwf idk (fun blk h => block_wfb_invert h)
        have hg1 : store_get (store_modify st idk bitset_block_invert) idk
            = some (bitset_block_invert blkk) := by
          rw [store_get_modify_self, hgk]
          rfl
        have hlive1 : ∀ j id, a.blocks.getD j none = some id →
            ∃ blkj, store_get (store_modify st idk bitset_block_invert) id = some blkj ∧
              block_wfb blkj = true := by
          intro j id hj
          by_cases hidne : id = idk
          · subst hidne
            exact ⟨_, hg1, block_wfb_invert hwfk⟩
          · obtain ⟨blkj, hgj, hwfj⟩ := hlive j id hj
            exact ⟨blkj, by rw [store_get_modify_ne st _ hidne]; exact hgj, hwfj⟩
        obtain ⟨st', a', heq, hbc, hbcnt, hblen, hlen, hstwf', hlive', hdist', hslots,
            hpres, hobs⟩ :=
          ih (store_modify st idk bitset_block_invert) a
            hnd' hst1wf (fun kk hkk => hklen kk (List.mem_cons_of_mem _ hkk))
            hlive1 hdist
        refine ⟨st', a', ?_, hbc, hbcnt, hblen, ?_, hstwf', hlive', hdist', ?_, ?_, ?_⟩
        · unfold bitset_invert_loop
          rw [hak]
          dsimp only
          rw [if_neg hfull]
          exact heq
        · rw [store_modify_length] at hlen
          exact hlen
        · intro j hj
          exact hslots j (fun hmem => hj (List.mem_cons_of_mem _ hmem))
        · intro id hid hcond
          have hidne : id ≠ idk := by
            intro he
            exact (hcond k (List.mem_cons_self k ks)) (by rw [hak, he])
          have hstep : store_get (store_modify st idk bitset_block_invert) id
              = store_get st id := store_get_modify_ne st _ (fun he => hidne he)
          rw [← hstep]
          refine hpres id (by rw [store_modify_length]; exact hid) ?_
          intro kk hkk
          exact hcond kk (List.mem_cons_of_mem _ hkk)
        · intro j hj b2 hb2
          cases List.mem_cons.mp hj with
          | inl hjk =>
            subst hjk
            have hlhs : slot_test st a j b2
                = bitset_block_test_bit blkk b2 := by
              unfold slot_test
              rw [hak]
              dsimp only
              rw [store_getblk_eq hgk]
            rw [hlhs]
            unfold slot_test
            rw [hslots j hknotin, hak]
            dsimp only
            have hstore : store_get st' idk = some (bitset_block_invert blkk) := by
              rw [hpres idk (by rw [store_modify_length]; exact hidklt) ?_]
              · exact hg1
              intro kk hkk
              have hkkk : kk ≠ j := fun he => hknotin (he ▸ hkk)
              exact hdist j kk idk hkkk.symm hak
            rw [store_getblk_eq hstore]
            exact invert_block_test (block_wfb_len hwfk) b2 hb2
          | inr hjks =>
            rw [hobs j hjks b2 hb2]
            have hjk : j ≠ k := fun he => hknotin (he ▸ hjks)
            have hsame : slot_test (store_modify st idk bitset_block_invert) a j b2
                = slot_test st a j b2 := by
              unfold slot_test
              cases hjv : a.blocks.getD j none with
              | none => rfl
              | some idj =>
                have hidne : idj ≠ idk := by
                  intro he
                  exact hdist j k idj hjk hjv (by rw [hak, he])
                dsimp only
                unfold store_getblk
                rw [store_get_modify_ne st _ (fun he => hidne he)]
            rw [hsame]

theorem dup_incref_intsAt :
    ∀ (ls : List (Option Nat)) (st : Store) (id : Nat),
    intsAt (dup_incref_loop st ls) id = intsAt st id := by
  intro ls
  induction ls with
  | nil => intro st id; rfl
  | cons o t ih =>
    intro st id
    cases o with
    | none => exact ih st id
    | some j =>
      show intsAt (dup_incref_loop (bitset_block_incref st j) t) id = intsAt st id
      rw [ih, intsAt_incref]

theorem dup_incref_isSome :
    ∀ (ls : List (Option Nat)) (st : Store) (id : Nat),
    (store_get (dup_incref_loop st ls) id).isSome = (store_get st id).isSome := by
  intro ls
  induction ls with
  | nil => intro st id; rfl
  | cons o t ih =>
    intro st id
    cases o with
    | none => exact ih st id
    | some j =>
      show (store_get (dup_incref_loop (bitset_block_incref st j) t) id).isSome
        = (store_get st id).isSome
      rw [ih, isSome_incref]

theorem dup_incref_wfb :
    ∀ (ls : List (Option Nat)) {st : Store}, store_wfb st = true →
    store_wfb (dup_incref_loop st ls) = true := by
  intro ls
  induction ls with
  | nil => intro st h; exact h
  | cons o t ih =>
    intro st h
    cases o with
    | none => exact ih h
    | some j =>
      show store_wfb (dup_incref_loop (bitset_block_incref st j) t) = true
      exact ih (store_wfb_modify h j (fun blk hb => hb))

theorem slot_test_dup (ls : List (Option Nat)) (st : Store) (x : bitset) (j b2 : Nat) :
    slot_test (dup_incref_loop st ls) x j b2 = slot_test st x j b2 := by
  unfold slot_test
  cases hv : x.blocks.getD j none with
  | none => rfl
  | some id =>
    dsimp only
    have h := dup_incref_intsAt ls st id
    unfold intsAt at h
    have hints : (store_getblk (dup_incref_loop st ls) id).ints
        = (store_getblk st id).ints := by
      unfold store_getblk
      cases hg : store_get st id <;> cases hg' : store_get (dup_incref_loop st ls) id <;>
        rw [hg, hg'] at h <;> simp_all
    exact test_bit_only_ints hints _

theorem btest_eq_slot_test {st : Store} {a : bitset} {bit : Int}
    (h0 : 0 ≤ bit) (h1 : bit < a.bitcount) :
    btest st a bit = slot_test st a (bit.toNat / IDSPERBLOCK) (bit.toNat % IDSPERBLOCK) := by
  unfold btest bitset_test_bit slot_test
  rw [if_neg (by omega)]
  cases hv : a.blocks.getD (bit.toNat / IDSPERBLOCK) none <;> rfl

/-- C4 (amended): `complement` is `bitset_inverse` (duplicate then invert).
Applied twice to a well-formed bitset `a` it succeeds and the final result
observationally equals the ORIGINAL `a`: same `bit_capacity` and the same
`test` result at every valid index, where the reference observation is taken
on `a` BEFORE the two calls (the calls themselves may corrupt `a` in place,
which is the refuted final-state reading of the claim). -/
theorem C4_double_complement (st : Store) (a : bitset)
    (hst : store_wfb st = true) (ha : bs_wfb st a = true) :
    ∃ st2 r1 st4 r2,
      bitset_inverse true false st a = (rc.OK, st2, some r1) ∧
      bitset_inverse true false st2 r1 = (rc.OK, st4, some r2) ∧
      r2.bitcount = a.bitcount ∧
      ∀ bit : Int, 0 ≤ bit → bit < a.bitcount →
        btest st4 r2 bit = btest st a bit := by
  have hlen_a := bs_wfb_len ha
  have hcap_a := bs_wfb_cap ha
  have hstw1 : store_wfb (dup_incref_loop st a.blocks) = true := dup_incref_wfb _ hst
  have hlive1 : ∀ j id, a.blocks.getD j none = some id →
      ∃ blkj, store_get (dup_incref_loop st a.blocks) id = some blkj ∧
        block_wfb blkj = true := by
    intro j id hj
    obtain ⟨blk, hg⟩ := bs_wfb_live ha hj
    have hs : (store_get (dup_incref_loop st a.blocks) id).isSome = true := by
      rw [dup_incref_isSome, hg]
      rfl
    obtain ⟨blk', hg'⟩ := Option.isSome_iff_exists.mp hs
    exact ⟨blk', hg', store_wfb_block hstw1 hg'⟩
  have hdist_a : ∀ j1 j2 id, j1 ≠ j2 → a.blocks.getD j1 none = some id →
      a.blocks.getD j2 none ≠ some id :=
    nodup_present_pairwise (bs_wfb_nodup ha)
  obtain ⟨st2, r1, heq1, hbc1, hbcnt1, hblen1, _, hstw2, hlive2, hdist2, _, _, hobs1⟩ :=
    invert_loop_walk (List.range a.block_count.toNat) (dup_incref_loop st a.blocks)
      ⟨a.bitcount, a.block_count, a.blocks⟩ (List.nodup_range _) hstw1
      (by
        intro k hk
        rw [List.mem_range] at hk
        show k < a.blocks.length
        rw [hlen_a]
        exact hk)
      hlive1 hdist_a
  have hinvert1 : bitset_invert true (dup_incref_loop st a.blocks)
      ⟨a.bitcount, a.block_count, a.blocks⟩ = (rc.OK, st2, r1) := by
    unfold bitset_invert
    dsimp only
    exact heq1
  have hinv1 : bitset_inverse true false st a = (rc.OK, st2, some r1) := by
    unfold bitset_inverse
    rw [if_neg (by simp : ¬false = true)]
    have hdup : bitset_dup true false st a = (rc.OK, dup_incref_loop st a.blocks,
      some ⟨a.bitcount, a.block_count, a.blocks⟩) := rfl
    rw [hdup]
    dsimp only
    rw [hinvert1]
  have hb : r1.block_count = a.block_count := hbcnt1
  have hl : r1.blocks.length = a.blocks.length := hblen1
  have hbcQ : r1.bitcount = a.bitcount := hbc1
  have hstw3 : store_wfb (dup_incref_loop st2 r1.blocks) = true := dup_incref_wfb _ hstw2
  have hlive3 : ∀ j id, r1.blocks.getD j none = some id →
      ∃ blkj, store_get (dup_incref_loop st2 r1.blocks) id = some blkj ∧
        block_wfb blkj = true := by
    intro j id hj
    obtain ⟨blk, hg, _⟩ := hlive2 j id hj
    have hs : (store_get (dup_incref_loop st2 r1.blocks) id).isSome = true := by
      rw [dup_incref_isSome, hg]
      rfl
    obtain ⟨blk', hg'⟩ := Option.isSome_iff_exists.mp hs
    exact ⟨blk', hg', store_wfb_block hstw3 hg'⟩
  obtain ⟨st4, r2, heq2, hbc2, _, _, _, _, _, _, _, _, hobs2⟩ :=
    invert_loop_walk (List.range r1.block_count.toNat) (dup_incref_loop st2 r1.blocks)
      ⟨r1.bitcount, r1.block_count, r1.blocks⟩ (List.nodup_range _) hstw3
      (by
        intro k hk
        rw [List.mem_range, hb] at hk
        show k < r1.blocks.length
        rw [hl, hlen_a]
        exact hk)
      hlive3 hdist2
  have hinvert2 : bitset_invert true (dup_incref_loop st2 r1.blocks)
      ⟨r1.bitcount, r1.block_count, r1.blocks⟩ = (rc.OK, st4, r2) := by
    unfold bitset_invert
    dsimp only
    exact heq2
  have hinv2 : bitset_inverse true false st2 r1 = (rc.OK, st4, some r2) := by
    unfold bitset_inverse
    rw [if_neg (by simp : ¬false = true)]
    have hdup2 : bitset_dup true false st2 r1 = (rc.OK, dup_incref_loop st2 r1.blocks,
      some ⟨r1.bitcount, r1.block_count, r1.blocks⟩) := rfl
    rw [hdup2]
    dsimp only
    rw [hinvert2]
  have hbc2' : r2.bitcount = a.bitcount := hbc2.trans hbcQ
  refine ⟨st2, r1, st4, r2, hinv1, hinv2, hbc2', ?_⟩
  intro bit h0 h1
  have hj : bit.toNat / IDSPERBLOCK < a.blocks.length := block_index_lt hlen_a hcap_a h0 h1
  have hb2 : bit.toNat % IDSPERBLOCK < IDSPERBLOCK :=
    Nat.mod_lt _ (by norm_num [IDSPERBLOCK, BLOCKSIZE])
  have hjmem : bit.toNat / IDSPERBLOCK ∈ List.range a.block_count.toNat := by
    rw [List.mem_range, ← hlen_a]
    exact hj
  have hjmem2 : bit.toNat / IDSPERBLOCK ∈ List.range r1.block_count.toNat := by
    rw [List.mem_range, hb, ← hlen_a]
    exact hj
  have h1' : bit < r2.bitcount := by rw [hbc2']; exact h1
  rw [btest_eq_slot_test h0 h1', btest_eq_slot_test h0 h1]
  calc slot_test st4 r2 (bit.toNat / IDSPERBLOCK) (bit.toNat % IDSPERBLOCK)
      = !(slot_test (dup_incref_loop st2 r1.blocks)
          (⟨r1.bitcount, r1.block_count, r1.blocks⟩ : bitset)
          (bit.toNat / IDSPERBLOCK) (bit.toNat % IDSPERBLOCK)) :=
        hobs2 _ hjmem2 _ hb2
    _ = !(slot_test st2 r1 (bit.toNat / IDSPERBLOCK) (bit.toNat % IDSPERBLOCK)) := by
        rw [slot_test_dup]
    _ = !(!(slot_test (dup_incref_loop st a.blocks)
          (⟨a.bitcount, a.block_count, a.blocks⟩ : bitset)
          (bit.toNat / IDSPERBLOCK) (bit.toNat % IDSPERBLOCK))) := by
        rw [hobs1 _ hjmem _ hb2]
    _ = slot_test (dup_incref_loop st a.blocks)
          (⟨a.bitcount, a.block_count, a.blocks⟩ : bitset)
          (bit.toNat / IDSPERBLOCK) (bit.toNat % IDSPERBLOCK) := Bool.not_not _
    _ = slot_test st a (bit.toNat / IDSPERBLOCK) (bit.toNat % IDSPERBLOCK) := by
        rw [slot_test_dup]

theorem C4_double_complement_witness :
    store_wfb ([] : Store) = true ∧ bs_wfb ([] : Store) (bitset_init 128) = true ∧
    (∃ st2 r1 st4 r2,
      bitset_inverse true false [] (bitset_init 128) = (rc.OK, st2, some r1) ∧
      bitset_inverse true false st2 r1 = (rc.OK, st4, some r2) ∧
      r2.bitcount = (bitset_init 128).bitcount ∧
      ∀ bit : Int, 0 ≤ bit → bit < (bitset_init 128).bitcount →
        btest st4 r2 bit = btest [] (bitset_init 128) bit) :=
  ⟨rfl, by decide, C4_double_complement [] (bitset_init 128) rfl (by decide)⟩

theorem sum_set_nat : ∀ (l : List Nat) (n x : Nat), n < l.length →
    (l.set n x).sum + l.getD n 0 = l.sum + x := by
  intro l
  induction l with
  | nil => intro n x h; simp at h
  | cons y t ih =>
    intro n x h
    cases n with
    | zero =>
      simp only [List.set_cons_zero, List.sum_cons, List.getD_cons_zero]
      omega
    | succ m =>
      have hm : m < t.length := by simpa using h
      have := ih m x hm
      simp only [List.set_cons_succ, List.sum_cons, List.getD_cons_succ]
      omega

theorem countP_set_opt (id : Nat) :
    ∀ (l : List (Option Nat)) (i : Nat) (v : Option Nat), i < l.length →
    (l.set i v).countP (fun o => o == some id)
        + (if l.getD i none == some id then 1 else 0)
      = l.countP (fun o => o == some id) + (if v == some id then 1 else 0) := by
  intro l
  induction l with
  | nil => intro i v h; simp at h
  | cons y t ih =>
    intro i v h
    cases i with
    | zero =>
      simp only [List.set_cons_zero, List.countP_cons, List.getD_cons_zero]
      omega
    | succ m =>
      have hm : m < t.length := by simpa using h
      have := ih m v hm
      simp only [List.set_cons_succ, List.countP_cons, List.getD_cons_succ]
      omega

theorem set_getD_self {α : Type} : ∀ (l : List α) (n : Nat) (d : α), n < l.length →
    l.set n (l.getD n d) = l := by
  intro l
  induction l with
  | nil => intro n d h; simp at h
  | cons y t ih =>
    intro n d h
    cases n with
    | zero => simp [List.getD_cons_zero]
    | succ m =>
      have hm : m < t.length := by simpa using h
      rw [List.getD_cons_succ, List.set_cons_succ, ih m d hm]

theorem set_last_append {α : Type} : ∀ (L : List α) (r r' : α),
    (L ++ [r]).set L.length r' = L ++ [r'] := by
  intro L
  induction L with
  | nil => intro r r'; rfl
  | cons y t ih =>
    intro r r'
    simp only [List.cons_append, List.length_cons, List.set_cons_succ, ih]

theorem getD_mem_lt {α : Type} {l : List α} {n : Nat} (d : α) (h : n < l.length) :
    l.getD n d ∈ l := by
  rw [List.getD_eq_getElem?_getD, List.getElem?_eq_getElem h]
  exact List.getElem_mem h

theorem mem_set_of_getD_ne {α : Type} :
    ∀ {l : List α} {x : α} (i : Nat) (v d : α), x ∈ l → l.getD i d ≠ x → x ∈ l.set i v := by
  intro l
  induction l with
  | nil => intro x i v d h _; simp at h
  | cons y t ih =>
    intro x i v d hx hne
    cases i with
    | zero =>
      rw [List.getD_cons_zero] at hne
      cases List.mem_cons.mp hx with
      | inl h => exact absurd h.symm hne
      | inr h =>
        rw [List.set_cons_zero]
        exact List.mem_cons_of_mem _ h
    | succ m =>
      rw [List.getD_cons_succ] at hne
      rw [List.set_cons_succ]
      cases List.mem_cons.mp hx with
      | inl h => exact h ▸ List.mem_cons_self _ _
      | inr h => exact List.mem_cons_of_mem _ (ih m v d h hne)

theorem slotrefs_pos {bs : bitset} {id : Nat} (h : some id ∈ bs.blocks) :
    1 ≤ slotrefs bs id := by
  unfold slotrefs
  rw [Nat.succ_le, List.countP_pos_iff]
  exact ⟨some id, h, by simp⟩

theorem refs_pos {L : List bitset} {id : Nat} (h : referenced L id) : 1 ≤ refs L id := by
  obtain ⟨bs, hbs, hmem⟩ := h
  unfold refs
  calc 1 ≤ slotrefs bs id := slotrefs_pos hmem
    _ ≤ _ := List.single_le_sum (fun _ _ => Nat.zero_le _) _
      (List.mem_map_of_mem (fun bs => slotrefs bs id) hbs)

theorem refs_zero {L : List bitset} {id : Nat} (h : ¬ referenced L id) : refs L id = 0 := by
  unfold refs
  refine List.sum_eq_zero ?_
  intro x hx
  rw [List.mem_map] at hx
  obtain ⟨bs, hbs, rfl⟩ := hx
  unfold slotrefs
  rw [List.countP_eq_zero]
  intro o ho hpo
  rw [beq_iff_eq] at hpo
  exact h ⟨bs, hbs, hpo ▸ ho⟩

theorem refs_append (L : List bitset) (r : bitset) (id : Nat) :
    refs (L ++ [r]) id = refs L id + slotrefs r id := by
  unfold refs
  rw [List.map_append, List.sum_append]
  simp

theorem refs_set_eq (L : List bitset) (k : Nat) (a' : bitset) (id : Nat)
    (hk : k < L.length) :
    refs (L.set k a') id + slotrefs (L.getD k defaultBitset) id
      = refs L id + slotrefs a' id := by
  unfold refs
  rw [List.map_set]
  have h1 : (L.map (fun bs => slotrefs bs id)).getD k 0
      = slotrefs (L.getD k defaultBitset) id := by
    rw [List.getD_eq_getElem?_getD, List.getElem?_map,
      List.getElem?_eq_getElem hk, List.getD_eq_getElem?_getD,
      List.getElem?_eq_getElem hk]
    rfl
  rw [← h1]
  exact sum_set_nat _ k _ (by simpa using hk)

theorem rcinv_iff (st : Store) (L : List bitset) :
    rcinvb st L = true ↔ rcinvP st L := by
  unfold rcinvb rcinvP
  rw [List.all_eq_true]
  constructor
  · rintro h id ⟨bs, hbs, hmem⟩
    have h2 := h bs hbs
    rw [List.all_eq_true] at h2
    have hid : id ∈ present_ids bs := by
      unfold present_ids
      rw [List.mem_filterMap]
      exact ⟨some id, hmem, rfl⟩
    have h3 := h2 id hid
    cases hg : store_get st id with
    | none => rw [hg] at h3; simp at h3
    | some blk =>
      rw [hg] at h3
      simp only [beq_iff_eq] at h3
      exact ⟨blk, rfl, h3⟩
  · intro h bs hbs
    rw [List.all_eq_true]
    intro id hid
    have hmem : some id ∈ bs.blocks := by
      unfold present_ids at hid
      rw [List.mem_filterMap] at hid
      obtain ⟨o, ho, he⟩ := hid
      cases o with
      | none => cases he
      | some x => cases he; exact ho
    obtain ⟨blk, hg, hrc⟩ := h id ⟨bs, hbs, hmem⟩
    rw [hg]
    simp [hrc]


theorem set_set_self {α : Type} : ∀ (l : List α) (k : Nat) (x y : α),
    (l.set k x).set k y = l.set k y := by
  intro l
  induction l with
  | nil => intro k x y; rfl
  | cons h t ih =>
    intro k x y
    cases k with
    | zero => rfl
    | succ m => simp only [List.set_cons_succ, ih]

theorem mem_set_self {α : Type} {l : List α} {k : Nat} (a : α) (h : k < l.length) :
    a ∈ l.set k a := by
  have h2 := @getD_mem_lt α (l.set k a) k a (by simpa using h)
  rwa [getD_set_self a a h] at h2

theorem ite_none_eq_some (id : Nat) :
    (if (none : Option Nat) = some id then 1 else 0) = 0 :=
  if_neg (by simp)

theorem ite_some_eq_some_self (id : Nat) :
    (if (some id : Option Nat) = some id then 1 else 0) = 1 :=
  if_pos rfl

theorem ite_some_eq_some_ne {id id' : Nat} (h : id ≠ id') :
    (if (some id : Option Nat) = some id' then 1 else 0) = 0 :=
  if_neg (by simp [h])

theorem slotrefs_set_blocks (a : bitset) (i : Nat) (v : Option Nat) (id : Nat)
    (hi : i < a.blocks.length) :
    slotrefs { a with blocks := a.blocks.set i v } id
        + (if a.blocks.getD i none = some id then 1 else 0)
      = slotrefs a id + (if v = some id then 1 else 0) := by
  have h := countP_set_opt id a.blocks i v hi
  unfold slotrefs
  simpa [beq_iff_eq] using h

theorem refs_two_sets (L : List bitset) (k : Nat) (a a' : bitset) (id : Nat)
    (hk : k < L.length) :
    refs (L.set k a') id + slotrefs a id = refs (L.set k a) id + slotrefs a' id := by
  have h1 := refs_set_eq L k a' id hk
  have h2 := refs_set_eq L k a id hk
  omega

theorem referenced_set_cases {L : List bitset} {k : Nat} (hk : k < L.length)
    {a a' : bitset} {id : Nat}
    (href : referenced (L.set k a') id)
    (hsub : some id ∈ a'.blocks → some id ∈ a.blocks) :
    referenced (L.set k a) id := by
  obtain ⟨bs, hbs, hmem⟩ := href
  have hbs' : bs ∈ (L.set k a).set k a' := by rw [set_set_self]; exact hbs
  rcases List.mem_or_eq_of_mem_set hbs' with h | h
  · exact ⟨bs, h, hmem⟩
  · subst h
    exact ⟨a, mem_set_self a hk, hsub hmem⟩

theorem referenced_append_iff {L : List bitset} {r : bitset} {id : Nat} :
    referenced (L ++ [r]) id ↔ referenced L id ∨ some id ∈ r.blocks := by
  constructor
  · rintro ⟨bs, hbs, hmem⟩
    rcases List.mem_append.mp hbs with h | h
    · exact Or.inl ⟨bs, h, hmem⟩
    · rw [List.mem_singleton] at h
      exact Or.inr (h ▸ hmem)
  · rintro (⟨bs, hbs, hmem⟩ | hmem)
    · exact ⟨bs, List.mem_append_left _ hbs, hmem⟩
    · exact ⟨r, List.mem_append_right _ (List.mem_singleton_self r), hmem⟩

theorem rcinv_modify {st : Store} {L : List bitset} {id : Nat}
    {f : bitset_block → bitset_block}
    (hrc : ∀ blk, (f blk).ref_count = blk.ref_count)
    (hinv : rcinvP st L) : rcinvP (store_modify st id f) L := by
  intro id' href'
  obtain ⟨blk, hg, he⟩ := hinv id' href'
  by_cases hid : id' = id
  · subst hid
    refine ⟨f blk, ?_, by rw [hrc]; exact he⟩
    rw [store_get_modify_self, hg]
    rfl
  · exact ⟨blk, by rw [store_get_modify_ne st _ hid]; exact hg, he⟩

theorem rcinv_leak {st : Store} {L : List bitset} (o : Option bitset_block)
    (hinv : rcinvP st L) : rcinvP (st ++ [o]) L := by
  intro id href
  obtain ⟨b, hg, he⟩ := hinv id href
  exact ⟨b, by rw [store_get_append_lt _ (store_get_lt_length hg)]; exact hg, he⟩

theorem rcinv_adopt {L : List bitset} {k : Nat} (hk : k < L.length) {a : bitset}
    {st : Store} {i id : Nat}
    (hi : i < a.blocks.length)
    (hslot : a.blocks.getD i none = none)
    (href : referenced (L.set k a) id)
    (hinv : rcinvP st (L.set k a)) :
    rcinvP (bitset_block_incref st id)
      (L.set k { a with blocks := a.blocks.set i (some id) }) := by
  intro id' href'
  by_cases hid : id' = id
  · subst hid
    have hs := slotrefs_set_blocks a i (some id') id' hi
    rw [hslot, ite_none_eq_some, ite_some_eq_some_self, Nat.add_zero] at hs
    have ht := refs_two_sets L k a { a with blocks := a.blocks.set i (some id') } id' hk
    have hrefs : refs (L.set k { a with blocks := a.blocks.set i (some id') }) id'
        = refs (L.set k a) id' + 1 := by omega
    obtain ⟨blk, hg, he⟩ := hinv id' href
    refine ⟨{ blk with ref_count := blk.ref_count + 1 }, ?_, ?_⟩
    · rw [store_get_incref_self, hg]
      rfl
    · dsimp only
      rw [hrefs]
      push_cast
      omega
  · have hs := slotrefs_set_blocks a i (some id) id' hi
    rw [hslot, ite_none_eq_some, ite_some_eq_some_ne (fun he2 => hid he2.symm),
      Nat.add_zero, Nat.add_zero] at hs
    have ht := refs_two_sets L k a { a with blocks := a.blocks.set i (some id) } id' hk
    have hrefs : refs (L.set k { a with blocks := a.blocks.set i (some id) }) id'
        = refs (L.set k a) id' := by omega
    have href2 : referenced (L.set k a) id' := by
      refine referenced_set_cases hk href' ?_
      intro hmem
      rcases List.mem_or_eq_of_mem_set hmem with h | h
      · exact h
      · cases h
        exact absurd rfl hid
    obtain ⟨blk, hg, he⟩ := hinv id' href2
    refine ⟨blk, ?_, by rw [hrefs]; exact he⟩
    rw [store_get_incref_ne st hid]
    exact hg

theorem rcinv_drop {L : List bitset} {k : Nat} (hk : k < L.length) {a : bitset}
    {st : Store} {i id : Nat}
    (hslot : a.blocks.getD i none = some id)
    (hinv : rcinvP st (L.set k a)) :
    rcinvP (bitset_block_decref st id)
      (L.set k { a with blocks := a.blocks.set i none }) := by
  have hi : i < a.blocks.length := getD_lt_length hslot
  have href_old : referenced (L.set k a) id := ⟨a, mem_set_self a hk, getD_mem hslot⟩
  obtain ⟨blk, hg, he⟩ := hinv id href_old
  have hs := slotrefs_set_blocks a i none id hi
  rw [hslot, ite_some_eq_some_self, ite_none_eq_some, Nat.add_zero] at hs
  have ht := refs_two_sets L k a { a with blocks := a.blocks.set i none } id hk
  have hrefs : refs (L.set k { a with blocks := a.blocks.set i none }) id + 1
      = refs (L.set k a) id := by omega
  intro id' href'
  by_cases hid : id' = id
  · subst hid
    have hpos : 1 ≤ refs (L.set k { a with blocks := a.blocks.set i none }) id' :=
      refs_pos href'
    have hne0 : ¬ blk.ref_count - 1 = 0 := by
      rw [he]
      omega
    have hst' : bitset_block_decref st id'
        = st.set id' (some { blk with ref_count := blk.ref_count - 1 }) := by
      unfold bitset_block_decref
      rw [hg]
      dsimp only
      rw [if_neg hne0]
    rw [hst']
    refine ⟨{ blk with ref_count := blk.ref_count - 1 },
      store_get_set_self _ (store_get_lt_length hg), ?_⟩
    dsimp only
    omega
  · have hs2 := slotrefs_set_blocks a i none id' hi
    rw [hslot, ite_some_eq_some_ne (fun he2 => hid he2.symm), ite_none_eq_some,
      Nat.add_zero, Nat.add_zero] at hs2
    have ht2 := refs_two_sets L k a { a with blocks := a.blocks.set i none } id' hk
    have hrefs2 : refs (L.set k { a with blocks := a.blocks.set i none }) id'
        = refs (L.set k a) id' := by omega
    have href2 : referenced (L.set k a) id' := by
      refine referenced_set_cases hk href' ?_
      intro hmem
      rcases List.mem_or_eq_of_mem_set hmem with h | h
      · exact h
      · cases h
    obtain ⟨blk2, hg2, he2⟩ := hinv id' href2
    refine ⟨blk2, ?_, by rw [hrefs2]; exact he2⟩
    rw [store_get_decref_ne st hid]
    exact hg2

theorem rcinv_fresh {L : List bitset} {k : Nat} (hk : k < L.length) {a : bitset}
    {st : Store} {i : Nat} {blk : bitset_block}
    (hrc1 : blk.ref_count = 1)
    (hi : i < a.blocks.length)
    (hslot : a.blocks.getD i none = none)
    (hinv : rcinvP st (L.set k a)) :
    rcinvP (st ++ [some blk])
      (L.set k { a with blocks := a.blocks.set i (some st.length) }) := by
  have hnotref : ¬ referenced (L.set k a) st.length := by
    intro h
    obtain ⟨b, hg, _⟩ := hinv _ h
    exact absurd (store_get_lt_length hg) (by omega)
  intro id' href'
  by_cases hid : id' = st.length
  · subst hid
    have hs := slotrefs_set_blocks a i (some st.length) st.length hi
    rw [hslot, ite_none_eq_some, ite_some_eq_some_self, Nat.add_zero] at hs
    have ht := refs_two_sets L k a
      { a with blocks := a.blocks.set i (some st.length) } st.length hk
    have hz : refs (L.set k a) st.length = 0 := refs_zero hnotref
    have hrefs : refs
        (L.set k { a with blocks := a.blocks.set i (some st.length) }) st.length
        = 1 := by omega
    refine ⟨blk, store_get_append_self st _, ?_⟩
    rw [hrc1, hrefs]
    rfl
  · have hs := slotrefs_set_blocks a i (some st.length) id' hi
    rw [hslot, ite_none_eq_some, ite_some_eq_some_ne (fun he2 => hid he2.symm),
      Nat.add_zero, Nat.add_zero] at hs
    have ht := refs_two_sets L k a
      { a with blocks := a.blocks.set i (some st.length) } id' hk
    have hrefs : refs (L.set k { a with blocks := a.blocks.set i (some st.length) }) id'
        = refs (L.set k a) id' := by omega
    have href2 : referenced (L.set k a) id' := by
      refine referenced_set_cases hk href' ?_
      intro hmem
      rcases List.mem_or_eq_of_mem_set hmem with h | h
      · exact h
      · cases h
        exact absurd rfl hid
    obtain ⟨blk2, hg2, he2⟩ := hinv id' href2
    refine ⟨blk2, ?_, by rw [hrefs]; exact he2⟩
    rw [store_get_append_lt _ (store_get_lt_length hg2)]
    exact hg2

theorem slotrefs_mk_append (bc bcnt : Int) (ds : List (Option Nat)) (o : Option Nat)
    (id : Nat) :
    slotrefs ⟨bc, bcnt, ds ++ [o]⟩ id
      = slotrefs ⟨bc, bcnt, ds⟩ id + (if o = some id then 1 else 0) := by
  unfold slotrefs
  dsimp only
  rw [List.countP_append]
  congr 1
  simp [List.countP_cons, beq_iff_eq]

theorem slotrefs_mk_cons (bc bcnt : Int) (o : Option Nat) (t : List (Option Nat))
    (id : Nat) :
    slotrefs ⟨bc, bcnt, o :: t⟩ id
      = slotrefs ⟨bc, bcnt, t⟩ id + (if o = some id then 1 else 0) := by
  unfold slotrefs
  dsimp only
  rw [List.countP_cons]
  congr 1
  simp [beq_iff_eq]

theorem rcinv_extend_slot {st : Store} {L : List bitset} {bc bcnt : Int}
    {ds : List (Option Nat)} {id : Nat}
    (href : referenced (L ++ [(⟨bc, bcnt, ds⟩ : bitset)]) id)
    (hinv : rcinvP st (L ++ [(⟨bc, bcnt, ds⟩ : bitset)])) :
    rcinvP (bitset_block_incref st id)
      (L ++ [(⟨bc, bcnt, ds ++ [some id]⟩ : bitset)]) := by
  intro id' href'
  have hrefs := refs_append L (⟨bc, bcnt, ds ++ [some id]⟩ : bitset) id'
  have hrefs0 := refs_append L (⟨bc, bcnt, ds⟩ : bitset) id'
  have hslot := slotrefs_mk_append bc bcnt ds (some id) id'
  by_cases hid : id' = id
  · subst hid
    rw [ite_some_eq_some_self] at hslot
    obtain ⟨blk, hg, he⟩ := hinv id' href
    refine ⟨{ blk with ref_count := blk.ref_count + 1 }, ?_, ?_⟩
    · rw [store_get_incref_self, hg]
      rfl
    · dsimp only
      rw [hrefs, hslot]
      push_cast
      rw [hrefs0] at he
      push_cast at he
      omega
  · rw [ite_some_eq_some_ne (fun he2 => hid he2.symm), Nat.add_zero] at hslot
    have href2 : referenced (L ++ [(⟨bc, bcnt, ds⟩ : bitset)]) id' := by
      rcases referenced_append_iff.mp href' with h | h
      · exact referenced_append_iff.mpr (Or.inl h)
      · dsimp only at h
        rcases List.mem_append.mp h with h2 | h2
        · exact referenced_append_iff.mpr (Or.inr h2)
        · rw [List.mem_singleton] at h2
          cases h2
          exact absurd rfl hid
    obtain ⟨blk, hg, he⟩ := hinv id' href2
    refine ⟨blk, ?_, ?_⟩
    · rw [store_get_incref_ne st hid]
      exact hg
    · rw [hrefs, hslot, ← hrefs0]
      exact he

theorem rcinv_extend_none {st : Store} {L : List bitset} {bc bcnt : Int}
    {ds : List (Option Nat)}
    (hinv : rcinvP st (L ++ [(⟨bc, bcnt, ds⟩ : bitset)])) :
    rcinvP st (L ++ [(⟨bc, bcnt, ds ++ [none]⟩ : bitset)]) := by
  intro id' href'
  have hrefs := refs_append L (⟨bc, bcnt, ds ++ [none]⟩ : bitset) id'
  have hrefs0 := refs_append L (⟨bc, bcnt, ds⟩ : bitset) id'
  have hslot := slotrefs_mk_append bc bcnt ds none id'
  rw [ite_none_eq_some, Nat.add_zero] at hslot
  have href2 : referenced (L ++ [(⟨bc, bcnt, ds⟩ : bitset)]) id' := by
    rcases referenced_append_iff.mp href' with h | h
    · exact referenced_append_iff.mpr (Or.inl h)
    · dsimp only at h
      rcases List.mem_append.mp h with h2 | h2
      · exact referenced_append_iff.mpr (Or.inr h2)
      · rw [List.mem_singleton] at h2
        cases h2
  obtain ⟨blk, hg, he⟩ := hinv id' href2
  refine ⟨blk, hg, ?_⟩
  rw [hrefs, hslot, ← hrefs0]
  exact he

theorem rcinv_retract_some {st : Store} {L : List bitset} {bc bcnt : Int}
    {t : List (Option Nat)} {id : Nat}
    (hinv : rcinvP st (L ++ [(⟨bc, bcnt, some id :: t⟩ : bitset)])) :
    rcinvP (bitset_block_decref st id) (L ++ [(⟨bc, bcnt, t⟩ : bitset)]) := by
  have href_old : referenced (L ++ [(⟨bc, bcnt, some id :: t⟩ : bitset)]) id :=
    referenced_append_iff.mpr (Or.inr (List.mem_cons_self _ _))
  obtain ⟨blk, hg, he⟩ := hinv id href_old
  intro id' href'
  have hrefs := refs_append L (⟨bc, bcnt, t⟩ : bitset) id'
  have hrefs0 := refs_append L (⟨bc, bcnt, some id :: t⟩ : bitset) id'
  have hslot := slotrefs_mk_cons bc bcnt (some id) t id'
  have href2 : referenced (L ++ [(⟨bc, bcnt, some id :: t⟩ : bitset)]) id' := by
    rcases referenced_append_iff.mp href' with h | h
    · exact referenced_append_iff.mpr (Or.inl h)
    · exact referenced_append_iff.mpr (Or.inr (List.mem_cons_of_mem _ h))
  by_cases hid : id' = id
  · subst hid
    have hpos : 1 ≤ refs (L ++ [(⟨bc, bcnt, t⟩ : bitset)]) id' := refs_pos href'
    rw [ite_some_eq_some_self] at hslot
    have hge2 : (2 : Int) ≤ blk.ref_count := by
      rw [he, hrefs0, hslot]
      push_cast
      rw [hrefs] at hpos
      omega
    have hne0 : ¬ blk.ref_count - 1 = 0 := by omega
    have hst' : bitset_block_decref st id'
        = st.set id' (some { blk with ref_count := blk.ref_count - 1 }) := by
      unfold bitset_block_decref
      rw [hg]
      dsimp only
      rw [if_neg hne0]
    rw [hst']
    refine ⟨{ blk with ref_count := blk.ref_count - 1 },
      store_get_set_self _ (store_get_lt_length hg), ?_⟩
    dsimp only
    rw [he, hrefs0, hslot, hrefs]
    push_cast
    omega
  · obtain ⟨blk2, hg2, he2⟩ := hinv id' href2
    rw [ite_some_eq_some_ne (fun he3 => hid he3.symm), Nat.add_zero] at hslot
    refine ⟨blk2, ?_, ?_⟩
    · rw [store_get_decref_ne st hid]
      exact hg2
    · rw [hrefs, ← hslot, ← hrefs0]
      exact he2

theorem rcinv_retract_none {st : Store} {L : List bitset} {bc bcnt : Int}
    {t : List (Option Nat)}
    (hinv : rcinvP st (L ++ [(⟨bc, bcnt, none :: t⟩ : bitset)])) :
    rcinvP st (L ++ [(⟨bc, bcnt, t⟩ : bitset)]) := by
  intro id' href'
  have hrefs := refs_append L (⟨bc, bcnt, t⟩ : bitset) id'
  have hrefs0 := refs_append L (⟨bc, bcnt, none :: t⟩ : bitset) id'
  have hslot := slotrefs_mk_cons bc bcnt none t id'
  rw [ite_none_eq_some, Nat.add_zero] at hslot
  have href2 : referenced (L ++ [(⟨bc, bcnt, none :: t⟩ : bitset)]) id' := by
    rcases referenced_append_iff.mp href' with h | h
    · exact referenced_append_iff.mpr (Or.inl h)
    · exact referenced_append_iff.mpr (Or.inr (List.mem_cons_of_mem _ h))
  obtain ⟨blk, hg, he⟩ := hinv id' href2
  refine ⟨blk, hg, ?_⟩
  rw [hrefs, ← hslot, ← hrefs0]
  exact he

theorem slotrefs_zero {r : bitset} {id : Nat} (h : some id ∉ r.blocks) :
    slotrefs r id = 0 := by
  unfold slotrefs
  rw [List.countP_eq_zero]
  intro o ho hpo
  rw [beq_iff_eq] at hpo
  exact h (hpo ▸ ho)

theorem rcinv_append_norefs {st : Store} {L : List bitset} {r : bitset}
    (hr : ∀ id : Nat, some id ∉ r.blocks)
    (hinv : rcinvP st L) : rcinvP st (L ++ [r]) := by
  intro id href
  rcases referenced_append_iff.mp href with h | h
  · obtain ⟨blk, hg, he⟩ := hinv id h
    refine ⟨blk, hg, ?_⟩
    rw [refs_append, slotrefs_zero (hr id), Nat.add_zero]
    exact he
  · exact absurd h (hr id)

theorem rcinv_append_drop {st : Store} {L : List bitset} {bc bcnt : Int}
    (hinv : rcinvP st (L ++ [(⟨bc, bcnt, ([] : List (Option Nat))⟩ : bitset)])) :
    rcinvP st L := by
  intro id href
  obtain ⟨blk, hg, he⟩ := hinv id (referenced_append_iff.mpr (Or.inl href))
  refine ⟨blk, hg, ?_⟩
  rw [refs_append] at he
  have hz : slotrefs (⟨bc, bcnt, ([] : List (Option Nat))⟩ : bitset) id = 0 := rfl
  rw [hz, Nat.add_zero] at he
  exact he

theorem rcinv_dup_fold (L : List bitset) (bc bcnt : Int) :
    ∀ (ls ds : List (Option Nat)) (st : Store),
    rcinvP st (L ++ [(⟨bc, bcnt, ds⟩ : bitset)]) →
    (∀ id : Nat, some id ∈ ls → referenced (L ++ [(⟨bc, bcnt, ds⟩ : bitset)]) id) →
    rcinvP (dup_incref_loop st ls) (L ++ [(⟨bc, bcnt, ds ++ ls⟩ : bitset)]) := by
  intro ls
  induction ls with
  | nil =>
    intro ds st hinv _
    simpa using hinv
  | cons o t ih =>
    intro ds st hinv href
    have hmono : ∀ id : Nat, referenced (L ++ [(⟨bc, bcnt, ds⟩ : bitset)]) id →
        referenced (L ++ [(⟨bc, bcnt, ds ++ [o]⟩ : bitset)]) id := by
      intro id h
      rcases referenced_append_iff.mp h with h2 | h2
      · exact referenced_append_iff.mpr (Or.inl h2)
      · exact referenced_append_iff.mpr (Or.inr (List.mem_append_left _ h2))
    have hassoc : (ds ++ [o]) ++ t = ds ++ (o :: t) := by simp
    cases o with
    | none =>
      have h1 : rcinvP st (L ++ [(⟨bc, bcnt, ds ++ [none]⟩ : bitset)]) :=
        rcinv_extend_none hinv
      have h2 := ih (ds ++ [none]) st h1
        (fun id hm => hmono id (href id (List.mem_cons_of_mem _ hm)))
      rw [hassoc] at h2
      exact h2
    | some id =>
      have h1 : rcinvP (bitset_block_incref st id)
          (L ++ [(⟨bc, bcnt, ds ++ [some id]⟩ : bitset)]) :=
        rcinv_extend_slot (href id (List.mem_cons_self _ _)) hinv
      have h2 := ih (ds ++ [some id]) (bitset_block_incref st id) h1
        (fun id2 hm => hmono id2 (href id2 (List.mem_cons_of_mem _ hm)))
      rw [hassoc] at h2
      exact h2

theorem rcinv_free_fold (L : List bitset) (bc bcnt : Int) :
    ∀ (ls : List (Option Nat)) (st : Store),
    rcinvP st (L ++ [(⟨bc, bcnt, ls⟩ : bitset)]) →
    rcinvP (bitset_free st ls) L := by
  intro ls
  induction ls with
  | nil => intro st hinv; exact rcinv_append_drop hinv
  | cons o t ih =>
    intro st hinv
    cases o with
    | none => exact ih st (rcinv_retract_none hinv)
    | some id => exact ih (bitset_block_decref st id) (rcinv_retract_some hinv)

theorem refs_perm {L L' : List bitset} (h : L.Perm L') (id : Nat) :
    refs L id = refs L' id := by
  unfold refs
  exact (h.map (fun bs => slotrefs bs id)).sum_eq

theorem rcinv_perm {st : Store} {L L' : List bitset} (h : L.Perm L')
    (hinv : rcinvP st L) : rcinvP st L' := by
  intro id href
  obtain ⟨bs, hbs, hmem⟩ := href
  obtain ⟨blk, hg, he⟩ := hinv id ⟨bs, h.mem_iff.mpr hbs, hmem⟩
  refine ⟨blk, hg, ?_⟩
  rw [← refs_perm h]
  exact he

theorem perm_eraseIdx_append (L : List bitset) (k : Nat) (hk : k < L.length) :
    L.Perm (L.eraseIdx k ++ [L.getD k defaultBitset]) := by
  have hx : L.getD k defaultBitset = L[k] := by
    rw [List.getD_eq_getElem?_getD, List.getElem?_eq_getElem hk]
    rfl
  rw [hx, List.eraseIdx_eq_take_drop_succ]
  have h2 : L.Perm (L[k] :: (L.take k ++ L.drop (k + 1))) := by
    conv_lhs => rw [← List.take_append_drop k L, ← List.getElem_cons_drop L k hk]
    exact List.perm_middle
  exact h2.trans ((List.perm_append_singleton _ _).symm)

theorem shapeb_mem {L : List bitset} (h : shapeb L = true) {bs : bitset} (hbs : bs ∈ L) :
    bs.blocks.length = bs.block_count.toNat := by
  unfold shapeb at h
  rw [List.all_eq_true] at h
  simpa using h bs hbs

theorem shapeb_getD {L : List bitset} (h : shapeb L = true) (k : Nat) :
    (L.getD k defaultBitset).blocks.length
      = (L.getD k defaultBitset).block_count.toNat := by
  by_cases hk : k < L.length
  · exact shapeb_mem h (getD_mem_lt _ hk)
  · rw [List.getD_eq_getElem?_getD, List.getElem?_eq_none (Nat.le_of_not_lt hk)]
    rfl

theorem shapeb_set {L : List bitset} (h : shapeb L = true) {k : Nat} {a' : bitset}
    (ha' : a'.blocks.length = a'.block_count.toNat) : shapeb (L.set k a') = true := by
  unfold shapeb at h ⊢
  rw [List.all_eq_true] at h ⊢
  intro bs hbs
  rcases List.mem_or_eq_of_mem_set hbs with h2 | h2
  · exact h bs h2
  · subst h2
    simpa using ha'

theorem shapeb_append {L : List bitset} (h : shapeb L = true) {r : bitset}
    (hr : r.blocks.length = r.block_count.toNat) : shapeb (L ++ [r]) = true := by
  unfold shapeb at h ⊢
  rw [List.all_eq_true] at h ⊢
  intro bs hbs
  rcases List.mem_append.mp hbs with h2 | h2
  · exact h bs h2
  · rw [List.mem_singleton] at h2
    subst h2
    simpa using hr

theorem shapeb_eraseIdx {L : List bitset} (h : shapeb L = true) (k : Nat) :
    shapeb (L.eraseIdx k) = true := by
  unfold shapeb at h ⊢
  rw [List.all_eq_true] at h ⊢
  intro bs hbs
  exact h bs ((List.eraseIdx_sublist L k).subset hbs)

/-- The invert loop keeps the reference-count invariant: fresh all-ones
blocks enter with `ref_count` 1, released full blocks decref, in-place
complements do not touch `ref_count`. -/
theorem invert_loop_rcinv (L : List bitset) (k : Nat) (hk : k < L.length) :
    ∀ (ks : List Nat) (st : Store) (a : bitset),
    (∀ i ∈ ks, i < a.blocks.length) →
    rcinvP st (L.set k a) →
    ∃ st' a', bitset_invert_loop true st a ks = (rc.OK, st', a') ∧
      rcinvP st' (L.set k a') ∧
      a'.bitcount = a.bitcount ∧ a'.block_count = a.block_count ∧
      a'.blocks.length = a.blocks.length := by
  intro ks
  induction ks with
  | nil => intro st a _ hinv; exact ⟨st, a, rfl, hinv, rfl, rfl, rfl⟩
  | cons i ks ih =>
    intro st a hlen hinv
    have hi : i < a.blocks.length := hlen i (List.mem_cons_self _ _)
    cases hslot : a.blocks.getD i none with
    | none =>
      obtain ⟨st', a', heq, hinv', h1, h2, h3⟩ :=
        ih (st ++ [some ⟨1, (IDSPERBLOCK : Int), List.replicate BLOCKSIZE U64MAX⟩])
          { a with blocks := a.blocks.set i (some st.length) }
          (by
            intro j hj
            dsimp only
            rw [List.length_set]
            exact hlen j (List.mem_cons_of_mem _ hj))
          (rcinv_fresh hk rfl hi hslot hinv)
      refine ⟨st', a', ?_, hinv', h1, h2, by rw [h3]; dsimp only; rw [List.length_set]⟩
      unfold bitset_invert_loop
      rw [hslot]
      dsimp only
      rw [if_pos rfl]
      dsimp only [store_alloc]
      exact heq
    | some id =>
      by_cases hfull : (store_getblk st id).set_count = (64 * BLOCKSIZE : Int)
      · obtain ⟨st', a', heq, hinv', h1, h2, h3⟩ :=
          ih (bitset_block_decref st id) { a with blocks := a.blocks.set i none }
            (by
              intro j hj
              dsimp only
              rw [List.length_set]
              exact hlen j (List.mem_cons_of_mem _ hj))
            (rcinv_drop hk hslot hinv)
        refine ⟨st', a', ?_, hinv', h1, h2, by rw [h3]; dsimp only; rw [List.length_set]⟩
        unfold bitset_invert_loop
        rw [hslot]
        dsimp only
        rw [if_pos hfull]
        exact heq
      · obtain ⟨st', a', heq, hinv', h1, h2, h3⟩ :=
          ih (store_modify st id bitset_block_invert) a
            (fun j hj => hlen j (List.mem_cons_of_mem _ hj))
            (rcinv_modify (fun blk => rfl) hinv)
        refine ⟨st', a', ?_, hinv', h1, h2, h3⟩
        unfold bitset_invert_loop
        rw [hslot]
        dsimp only
        rw [if_neg hfull]
        exact heq

/-- The or loop keeps the reference-count invariant: adoption increfs `b`'s
block, shared blocks are privatised through `bitset_block_realloc` (decref
plus a fresh `ref_count`-1 copy), and in-place combines do not touch
`ref_count`.  The side condition records that `b` either is a live bitset at
another index or (when `a` and `b` are the same object) `b` has no block
where `a` has none, which rules the adopting branch out. -/
theorem or_loop_rcinv (L : List bitset) (k : Nat) (hk : k < L.length) (b : bitset) :
    ∀ (ks : List Nat) (st : Store) (a : bitset),
    (∀ i ∈ ks, i < a.blocks.length) →
    ((∃ j, j ≠ k ∧ j < L.length ∧ L.getD j defaultBitset = b) ∨
      (∀ i : Nat, a.blocks.getD i none = none → b.blocks.getD i none = none)) →
    rcinvP st (L.set k a) →
    ∃ st' a', bitset_or_loop true st a b ks = (rc.OK, st', a') ∧
      rcinvP st' (L.set k a') ∧
      a'.bitcount = a.bitcount ∧ a'.block_count = a.block_count ∧
      a'.blocks.length = a.blocks.length := by
  intro ks
  induction ks with
  | nil => intro st a _ _ hinv; exact ⟨st, a, rfl, hinv, rfl, rfl, rfl⟩
  | cons i ks ih =>
    intro st a hlen HB hinv
    have hi : i < a.blocks.length := hlen i (List.mem_cons_self _ _)
    have hlen' : ∀ v : Option Nat, ∀ j ∈ ks,
        j < ({ a with blocks := a.blocks.set i v } : bitset).blocks.length := by
      intro v j hj
      dsimp only
      rw [List.length_set]
      exact hlen j (List.mem_cons_of_mem _ hj)
    cases hak : a.blocks.getD i none with
    | none =>
      cases hbk : b.blocks.getD i none with
      | none =>
        obtain ⟨st', a', heq, hinv', h1, h2, h3⟩ :=
          ih st a (fun j hj => hlen j (List.mem_cons_of_mem _ hj)) HB hinv
        refine ⟨st', a', ?_, hinv', h1, h2, h3⟩
        unfold bitset_or_loop
        rw [hak, hbk]
        exact heq
      | some bid =>
        rcases HB with hb | hb
        · obtain ⟨j, hjk, hjlt, hjb⟩ := hb
          have hbmem : b ∈ L.set k a := by
            have h2 := @getD_mem_lt bitset (L.set k a) j defaultBitset
              (by rw [List.length_set]; exact hjlt)
            rwa [getD_set_ne a defaultBitset hjk, hjb] at h2
          have href : referenced (L.set k a) bid := ⟨b, hbmem, getD_mem hbk⟩
          have HB' : (∃ j, j ≠ k ∧ j < L.length ∧ L.getD j defaultBitset = b) ∨
              (∀ i' : Nat, ({ a with blocks := a.blocks.set i (some bid) } :
                bitset).blocks.getD i' none = none → b.blocks.getD i' none = none) :=
            Or.inl ⟨j, hjk, hjlt, hjb⟩
          obtain ⟨st', a', heq, hinv', h1, h2, h3⟩ :=
            ih (bitset_block_incref st bid)
              { a with blocks := a.blocks.set i (some bid) }
              (hlen' (some bid)) HB' (rcinv_adopt hk hi hak href hinv)
          refine ⟨st', a', ?_, hinv', h1, h2,
            by rw [h3]; dsimp only; rw [List.length_set]⟩
          unfold bitset_or_loop
          rw [hak, hbk]
          exact heq
        · exact absurd (hb i hak) (by rw [hbk]; simp)
    | some aid =>
      cases hbk : b.blocks.getD i none with
      | none =>
        obtain ⟨st', a', heq, hinv', h1, h2, h3⟩ :=
          ih st a (fun j hj => hlen j (List.mem_cons_of_mem _ hj)) HB hinv
        refine ⟨st', a', ?_, hinv', h1, h2, h3⟩
        unfold bitset_or_loop
        rw [hak, hbk]
        exact heq
      | some bid =>
        have HBkeep : ∀ v : Option Nat, v ≠ none →
            ((∃ j, j ≠ k ∧ j < L.length ∧ L.getD j defaultBitset = b) ∨
              (∀ i' : Nat, ({ a with blocks := a.blocks.set i v } :
                bitset).blocks.getD i' none = none →
                b.blocks.getD i' none = none)) := by
          intro v hv
          rcases HB with hb | hb
          · exact Or.inl hb
          · refine Or.inr ?_
            intro i' hi'
            dsimp only at hi'
            by_cases hii : i' = i
            · subst hii
              rw [getD_set_self v none hi] at hi'
              exact absurd hi' hv
            · rw [getD_set_ne v none hii] at hi'
              exact hb i' hi'
        by_cases hshared : 1 < (store_getblk st aid).ref_count
        · have hinv1 := rcinv_drop hk hak hinv
          have hinv2 := @rcinv_fresh L k hk { a with blocks := a.blocks.set i none }
            (bitset_block_decref st aid) i
            ⟨1, (store_getblk st aid).set_count, (store_getblk st aid).ints⟩ rfl
            (by dsimp only; rw [List.length_set]; exact hi)
            (by dsimp only; exact getD_set_self none none hi) hinv1
          rw [decref_length] at hinv2
          generalize hstR : bitset_block_decref st aid ++
            [some ⟨1, (store_getblk st aid).set_count, (store_getblk st aid).ints⟩] = stR
            at hinv2
          have hinv3 := @rcinv_modify stR
            (L.set k { a with blocks := (a.blocks.set i none).set i (some st.length) })
            st.length
            (fun ab => bitset_block_or ab (store_getblk stR bid))
            (fun blk => rfl) hinv2
          obtain ⟨st', a', heq, hinv', h1, h2, h3⟩ :=
            ih (store_modify stR st.length
                (fun ab => bitset_block_or ab (store_getblk stR bid)))
              { a with blocks := (a.blocks.set i none).set i (some st.length) }
              (by
                intro j hj
                dsimp only
                rw [List.length_set, List.length_set]
                exact hlen j (List.mem_cons_of_mem _ hj))
              (by
                have h := HBkeep (some st.length) (by simp)
                rcases h with h | h
                · exact Or.inl h
                · refine Or.inr ?_
                  intro i' hi'
                  dsimp only at hi'
                  rw [set_set_self] at hi'
                  exact h i' hi')
              hinv3
          refine ⟨st', a', ?_, hinv', h1, h2,
            by rw [h3]; dsimp only; rw [List.length_set, List.length_set]⟩
          unfold bitset_or_loop
          rw [hak, hbk]
          dsimp only
          rw [if_pos hshared, bitset_block_realloc_true st hak]
          dsimp only
          rw [hstR]
          exact heq
        · obtain ⟨st', a', heq, hinv', h1, h2, h3⟩ :=
            ih (store_modify st aid
                (fun ab => bitset_block_or ab (store_getblk st bid))) a
              (fun j hj => hlen j (List.mem_cons_of_mem _ hj)) HB
              (rcinv_modify (fun blk => rfl) hinv)
          refine ⟨st', a', ?_, hinv', h1, h2, h3⟩
          unfold bitset_or_loop
          rw [hak, hbk]
          dsimp only
          rw [if_neg hshared]
          exact heq

/-- The and loop keeps the reference-count invariant: a present slot meeting
an absent `b`-slot is released (decref plus slot cleared), shared slots are
privatised via `bitset_block_realloc`, private combines are in place. -/
theorem and_loop_rcinv (L : List bitset) (k : Nat) (hk : k < L.length) (b : bitset) :
    ∀ (ks : List Nat) (st : Store) (a : bitset),
    (∀ i ∈ ks, i < a.blocks.length) →
    rcinvP st (L.set k a) →
    ∃ st' a', bitset_and_loop true st a b ks = (rc.OK, st', a') ∧
      rcinvP st' (L.set k a') ∧
      a'.bitcount = a.bitcount ∧ a'.block_count = a.block_count ∧
      a'.blocks.length = a.blocks.length := by
  intro ks
  induction ks with
  | nil => intro st a _ hinv; exact ⟨st, a, rfl, hinv, rfl, rfl, rfl⟩
  | cons i ks ih =>
    intro st a hlen hinv
    have hi : i < a.blocks.length := hlen i (List.mem_cons_self _ _)
    cases hak : a.blocks.getD i none with
    | none =>
      obtain ⟨st', a', heq, hinv', h1, h2, h3⟩ :=
        ih st a (fun j hj => hlen j (List.mem_cons_of_mem _ hj)) hinv
      refine ⟨st', a', ?_, hinv', h1, h2, h3⟩
      unfold bitset_and_loop
      rw [hak]
      exact heq
    | some aid =>
      cases hbk : b.blocks.getD i none with
      | none =>
        obtain ⟨st', a', heq, hinv', h1, h2, h3⟩ :=
          ih (bitset_block_decref st aid) { a with blocks := a.blocks.set i none }
            (by
              intro j hj
              dsimp only
              rw [List.length_set]
              exact hlen j (List.mem_cons_of_mem _ hj))
            (rcinv_drop hk hak hinv)
        refine ⟨st', a', ?_, hinv', h1, h2, by rw [h3]; dsimp only; rw [List.length_set]⟩
        unfold bitset_and_loop
        rw [hak, hbk]
        exact heq
      | some bid =>
        by_cases hshared : 1 < (store_getblk st aid).ref_count
        · have hinv1 := rcinv_drop hk hak hinv
          have hinv2 := @rcinv_fresh L k hk { a with blocks := a.blocks.set i none }
            (bitset_block_decref st aid) i
            ⟨1, (store_getblk st aid).set_count, (store_getblk st aid).ints⟩ rfl
            (by dsimp only; rw [List.length_set]; exact hi)
            (by dsimp only; exact getD_set_self none none hi) hinv1
          rw [decref_length] at hinv2
          generalize hstR : bitset_block_decref st aid ++
            [some ⟨1, (store_getblk st aid).set_count, (store_getblk st aid).ints⟩] = stR
            at hinv2
          have hinv3 := @rcinv_modify stR
            (L.set k { a with blocks := (a.blocks.set i none).set i (some st.length) })
            st.length
            (fun ab => bitset_block_and ab (store_getblk stR bid))
            (fun blk => rfl) hinv2
          obtain ⟨st', a', heq, hinv', h1, h2, h3⟩ :=
            ih (store_modify stR st.length
                (fun ab => bitset_block_and ab (store_getblk stR bid)))
              { a with blocks := (a.blocks.set i none).set i (some st.length) }
              (by
                intro j hj
                dsimp only
                rw [List.length_set, List.length_set]
                exact hlen j (List.mem_cons_of_mem _ hj))
              hinv3
          refine ⟨st', a', ?_, hinv', h1, h2,
            by rw [h3]; dsimp only; rw [List.length_set, List.length_set]⟩
          unfold bitset_and_loop
          rw [hak, hbk]
          dsimp only
          rw [if_pos hshared, bitset_block_realloc_true st hak]
          dsimp only
          rw [hstR]
          exact heq
        · obtain ⟨st', a', heq, hinv', h1, h2, h3⟩ :=
            ih (store_modify st aid
                (fun ab => bitset_block_and ab (store_getblk st bid))) a
              (fun j hj => hlen j (List.mem_cons_of_mem _ hj))
              (rcinv_modify (fun blk => rfl) hinv)
          refine ⟨st', a', ?_, hinv', h1, h2, h3⟩
          unfold bitset_and_loop
          rw [hak, hbk]
          dsimp only
          rw [if_neg hshared]
          exact heq

/-- The subtract loop keeps the reference-count invariant: only two present
slots do work, after a `bitset_block_realloc` privatisation when shared. -/
theorem subtract_loop_rcinv (L : List bitset) (k : Nat) (hk : k < L.length) (b : bitset) :
    ∀ (ks : List Nat) (st : Store) (a : bitset),
    (∀ i ∈ ks, i < a.blocks.length) →
    rcinvP st (L.set k a) →
    ∃ st' a', bitset_subtract_loop true st a b ks = (rc.OK, st', a') ∧
      rcinvP st' (L.set k a') ∧
      a'.bitcount = a.bitcount ∧ a'.block_count = a.block_count ∧
      a'.blocks.length = a.blocks.length := by
  intro ks
  induction ks with
  | nil => intro st a _ hinv; exact ⟨st, a, rfl, hinv, rfl, rfl, rfl⟩
  | cons i ks ih =>
    intro st a hlen hinv
    have hi : i < a.blocks.length := hlen i (List.mem_cons_self _ _)
    cases hak : a.blocks.getD i none with
    | none =>
      obtain ⟨st', a', heq, hinv', h1, h2, h3⟩ :=
        ih st a (fun j hj => hlen j (List.mem_cons_of_mem _ hj)) hinv
      refine ⟨st', a', ?_, hinv', h1, h2, h3⟩
      unfold bitset_subtract_loop
      rw [hak]
      exact heq
    | some aid =>
      cases hbk : b.blocks.getD i none with
      | none =>
        obtain ⟨st', a', heq, hinv', h1, h2, h3⟩ :=
          ih st a (fun j hj => hlen j (List.mem_cons_of_mem _ hj)) hinv
        refine ⟨st', a', ?_, hinv', h1, h2, h3⟩
        unfold bitset_subtract_loop
        rw [hak, hbk]
        exact heq
      | some bid =>
        by_cases hshared : 1 < (store_getblk st aid).ref_count
        · have hinv1 := rcinv_drop hk hak hinv
          have hinv2 := @rcinv_fresh L k hk { a with blocks := a.blocks.set i none }
            (bitset_block_decref st aid) i
            ⟨1, (store_getblk st aid).set_count, (store_getblk st aid).ints⟩ rfl
            (by dsimp only; rw [List.length_set]; exact hi)
            (by dsimp only; exact getD_set_self none none hi) hinv1
          rw [decref_length] at hinv2
          generalize hstR : bitset_block_decref st aid ++
            [some ⟨1, (store_getblk st aid).set_count, (store_getblk st aid).ints⟩] = stR
            at hinv2
          have hinv3 := @rcinv_modify stR
            (L.set k { a with blocks := (a.blocks.set i none).set i (some st.length) })
            st.length
            (fun ab => bitset_block_subtract ab (store_getblk stR bid))
            (fun blk => rfl) hinv2
          obtain ⟨st', a', heq, hinv', h1, h2, h3⟩ :=
            ih (store_modify stR st.length
                (fun ab => bitset_block_subtract ab (store_getblk stR bid)))
              { a with blocks := (a.blocks.set i none).set i (some st.length) }
              (by
                intro j hj
                dsimp only
                rw [List.length_set, List.length_set]
                exact hlen j (List.mem_cons_of_mem _ hj))
              hinv3
          refine ⟨st', a', ?_, hinv', h1, h2,
            by rw [h3]; dsimp only; rw [List.length_set, List.length_set]⟩
          unfold bitset_subtract_loop
          rw [hak, hbk]
          dsimp only
          rw [if_pos hshared, bitset_block_realloc_true st hak]
          dsimp only
          rw [hstR]
          exact heq
        · obtain ⟨st', a', heq, hinv', h1, h2, h3⟩ :=
            ih (store_modify st aid
                (fun ab => bitset_block_subtract ab (store_getblk st bid))) a
              (fun j hj => hlen j (List.mem_cons_of_mem _ hj))
              (rcinv_modify (fun blk => rfl) hinv)
          refine ⟨st', a', ?_, hinv', h1, h2, h3⟩
          unfold bitset_subtract_loop
          rw [hak, hbk]
          dsimp only
          rw [if_neg hshared]
          exact heq

theorem getD_default_ge {α : Type} {l : List α} {k : Nat} (d : α)
    (h : l.length ≤ k) : l.getD k d = d := by
  rw [List.getD_eq_getElem?_getD, List.getElem?_eq_none h]
  rfl

theorem getD_append_lt {α : Type} {l : List α} {k : Nat} (r : List α) (d : α)
    (h : k < l.length) : (l ++ r).getD k d = l.getD k d := by
  rw [List.getD_eq_getElem?_getD, List.getD_eq_getElem?_getD,
    List.getElem?_append_left h]

theorem bitset_set_default (m : Bool) (st : Store) (bit : Int) :
    bitset_set m st defaultBitset bit = (rc.ERRINPUT, st, defaultBitset) := by
  unfold bitset_set
  rw [if_pos]
  show bit < 0 ∨ defaultBitset.bitcount ≤ bit
  dsimp only [defaultBitset]
  omega

theorem bitset_clr_default (m : Bool) (st : Store) (bit : Int) :
    bitset_clr m st defaultBitset bit = (rc.ERRINPUT, st, defaultBitset) := by
  unfold bitset_clr
  rw [if_pos]
  show bit < 0 ∨ defaultBitset.bitcount ≤ bit
  dsimp only [defaultBitset]
  omega

theorem bitset_toggle_default (m : Bool) (st : Store) (bit : Int) :
    bitset_toggle_bit m st defaultBitset bit = (rc.ERRINPUT, st, defaultBitset) := by
  unfold bitset_toggle_bit
  rw [if_pos]
  show bit < 0 ∨ defaultBitset.bitcount ≤ bit
  dsimp only [defaultBitset]
  omega

theorem bitset_invert_default (m : Bool) (st : Store) :
    bitset_invert m st defaultBitset = (rc.OK, st, defaultBitset) := rfl

/-- `bitset_set` keeps the reference-count invariant along every path:
error, fresh block, already-set short-circuit, COW privatisation, in-place
write. -/
theorem set_rcinv (L : List bitset) (k : Nat) (hk : k < L.length) (st : Store)
    (bit : Int) (a : bitset) (hinv : rcinvP st (L.set k a)) :
    ∃ e st' a', bitset_set true st a bit = (e, st', a') ∧
      rcinvP st' (L.set k a') ∧
      a'.bitcount = a.bitcount ∧ a'.block_count = a.block_count ∧
      a'.blocks.length = a.blocks.length := by
  by_cases hguard : bit < 0 ∨ a.bitcount ≤ bit
  · refine ⟨rc.ERRINPUT, st, a, ?_, hinv, rfl, rfl, rfl⟩
    unfold bitset_set
    rw [if_pos hguard]
  · cases hslot : a.blocks.getD (bit.toNat / IDSPERBLOCK) none with
    | none =>
      by_cases hblt : bit.toNat / IDSPERBLOCK < a.blocks.length
      · refine ⟨rc.OK,
          store_modify (st ++ [some ⟨1, 0, List.replicate BLOCKSIZE 0⟩]) st.length
            (fun b => bitset_block_set_bit b (bit.toNat % IDSPERBLOCK)),
          { a with blocks := a.blocks.set (bit.toNat / IDSPERBLOCK) (some st.length) },
          ?_, ?_, rfl, rfl, by dsimp only; rw [List.length_set]⟩
        · unfold bitset_set
          rw [if_neg hguard]
          dsimp only
          rw [hslot]
          dsimp only
          rw [bitset_block_alloc_true]
        · exact rcinv_modify (fun blk => rfl) (rcinv_fresh hk rfl hblt hslot hinv)
      · have hset : a.blocks.set (bit.toNat / IDSPERBLOCK) (some st.length) = a.blocks :=
          List.set_eq_of_length_le (Nat.le_of_not_lt hblt)
        refine ⟨rc.OK,
          store_modify (st ++ [some ⟨1, 0, List.replicate BLOCKSIZE 0⟩]) st.length
            (fun b => bitset_block_set_bit b (bit.toNat % IDSPERBLOCK)),
          { a with blocks := a.blocks.set (bit.toNat / IDSPERBLOCK) (some st.length) },
          ?_, ?_, rfl, rfl, by dsimp only; rw [List.length_set]⟩
        · unfold bitset_set
          rw [if_neg hguard]
          dsimp only
          rw [hslot]
          dsimp only
          rw [bitset_block_alloc_true]
        · have ha' :
              ({ a with blocks := a.blocks.set (bit.toNat / IDSPERBLOCK) (some st.length) }
                : bitset) = a := by
            rw [hset]
          rw [ha']
          exact rcinv_modify (fun blk => rfl) (rcinv_leak _ hinv)
    | some id =>
      by_cases htest :
          bitset_block_test_bit (store_getblk st id) (bit.toNat % IDSPERBLOCK) = true
      · refine ⟨rc.OK, st, a, ?_, hinv, rfl, rfl, rfl⟩
        unfold bitset_set
        rw [if_neg hguard]
        dsimp only
        rw [hslot]
        dsimp only
        rw [if_pos htest]
      · by_cases hshared : 1 < (store_getblk st id).ref_count
        · have hinv1 := rcinv_drop hk hslot hinv
          have hinv2 := @rcinv_fresh L k hk
            { a with blocks := a.blocks.set (bit.toNat / IDSPERBLOCK) none }
            (bitset_block_decref st id) (bit.toNat / IDSPERBLOCK)
            ⟨1, (store_getblk st id).set_count, (store_getblk st id).ints⟩ rfl
            (by dsimp only; rw [List.length_set]; exact getD_lt_length hslot)
            (by dsimp only; exact getD_set_self none none (getD_lt_length hslot)) hinv1
          rw [decref_length] at hinv2
          generalize hstR : bitset_block_decref st id ++
            [some ⟨1, (store_getblk st id).set_count, (store_getblk st id).ints⟩] = stR
            at hinv2
          refine ⟨rc.OK,
            store_modify stR st.length
              (fun b => bitset_block_set_bit b (bit.toNat % IDSPERBLOCK)),
            { a with blocks := (a.blocks.set (bit.toNat / IDSPERBLOCK) none).set (bit.toNat / IDSPERBLOCK) (some st.length) },
            ?_, ?_, rfl, rfl, by dsimp only; rw [List.length_set, List.length_set]⟩
          · unfold bitset_set
            rw [if_neg hguard]
            dsimp only
            rw [hslot]
            dsimp only
            rw [if_neg htest, if_pos hshared, bitset_block_realloc_true st hslot]
            dsimp only
            rw [hstR]
          · exact rcinv_modify (fun blk => rfl) hinv2
        · refine ⟨rc.OK,
            store_modify st id
              (fun b => bitset_block_set_bit b (bit.toNat % IDSPERBLOCK)), a,
            ?_, rcinv_modify (fun blk => rfl) hinv, rfl, rfl, rfl⟩
          unfold bitset_set
          rw [if_neg hguard]
          dsimp only
          rw [hslot]
          dsimp only
          rw [if_neg htest, if_neg hshared]

/-- `bitset_clr` keeps the reference-count invariant along every path. -/
theorem clr_rcinv (L : List bitset) (k : Nat) (hk : k < L.length) (st : Store)
    (bit : Int) (a : bitset) (hinv : rcinvP st (L.set k a)) :
    ∃ e st' a', bitset_clr true st a bit = (e, st', a') ∧
      rcinvP st' (L.set k a') ∧
      a'.bitcount = a.bitcount ∧ a'.block_count = a.block_count ∧
      a'.blocks.length = a.blocks.length := by
  by_cases hguard : bit < 0 ∨ a.bitcount ≤ bit
  · refine ⟨rc.ERRINPUT, st, a, ?_, hinv, rfl, rfl, rfl⟩
    unfold bitset_clr
    rw [if_pos hguard]
  · cases hslot : a.blocks.getD (bit.toNat / IDSPERBLOCK) none with
    | none =>
      refine ⟨rc.OK, st, a, ?_, hinv, rfl, rfl, rfl⟩
      unfold bitset_clr
      rw [if_neg hguard]
      dsimp only
      rw [hslot]
    | some id =>
      by_cases htest :
          bitset_block_test_bit (store_getblk st id) (bit.toNat % IDSPERBLOCK) = false
      · refine ⟨rc.OK, st, a, ?_, hinv, rfl, rfl, rfl⟩
        unfold bitset_clr
        rw [if_neg hguard]
        dsimp only
        rw [hslot]
        dsimp only
        rw [if_pos htest]
      · by_cases hshared : 1 < (store_getblk st id).ref_count
        · have hinv1 := rcinv_drop hk hslot hinv
          have hinv2 := @rcinv_fresh L k hk
            { a with blocks := a.blocks.set (bit.toNat / IDSPERBLOCK) none }
            (bitset_block_decref st id) (bit.toNat / IDSPERBLOCK)
            ⟨1, (store_getblk st id).set_count, (store_getblk st id).ints⟩ rfl
            (by dsimp only; rw [List.length_set]; exact getD_lt_length hslot)
            (by dsimp only; exact getD_set_self none none (getD_lt_length hslot)) hinv1
          rw [decref_length] at hinv2
          generalize hstR : bitset_block_decref st id ++
            [some ⟨1, (store_getblk st id).set_count, (store_getblk st id).ints⟩] = stR
            at hinv2
          refine ⟨rc.OK,
            store_modify stR st.length
              (fun b => bitset_block_clr_bit b (bit.toNat % IDSPERBLOCK)),
            { a with blocks := (a.blocks.set (bit.toNat / IDSPERBLOCK) none).set (bit.toNat / IDSPERBLOCK) (some st.length) },
            ?_, ?_, rfl, rfl, by dsimp only; rw [List.length_set, List.length_set]⟩
          · unfold bitset_clr
            rw [if_neg hguard]
            dsimp only
            rw [hslot]
            dsimp only
            rw [if_neg htest, if_pos hshared, bitset_block_realloc_true st hslot]
            dsimp only
            rw [hstR]
          · exact rcinv_modify (fun blk => rfl) hinv2
        · refine ⟨rc.OK,
            store_modify st id
              (fun b => bitset_block_clr_bit b (bit.toNat % IDSPERBLOCK)), a,
            ?_, rcinv_modify (fun blk => rfl) hinv, rfl, rfl, rfl⟩
          unfold bitset_clr
          rw [if_neg hguard]
          dsimp only
          rw [hslot]
          dsimp only
          rw [if_neg htest, if_neg hshared]

/-- `bitset_toggle_bit` keeps the reference-count invariant along every
path. -/
theorem toggle_rcinv (L : List bitset) (k : Nat) (hk : k < L.length) (st : Store)
    (bit : Int) (a : bitset) (hinv : rcinvP st (L.set k a)) :
    ∃ e st' a', bitset_toggle_bit true st a bit = (e, st', a') ∧
      rcinvP st' (L.set k a') ∧
      a'.bitcount = a.bitcount ∧ a'.block_count = a.block_count ∧
      a'.blocks.length = a.blocks.length := by
  by_cases hguard : bit < 0 ∨ a.bitcount ≤ bit
  · refine ⟨rc.ERRINPUT, st, a, ?_, hinv, rfl, rfl, rfl⟩
    unfold bitset_toggle_bit
    rw [if_pos hguard]
  · cases hslot : a.blocks.getD (bit.toNat / IDSPERBLOCK) none with
    | none =>
      by_cases hblt : bit.toNat / IDSPERBLOCK < a.blocks.length
      · refine ⟨rc.OK,
          store_modify (st ++ [some ⟨1, 0, List.replicate BLOCKSIZE 0⟩]) st.length
            (fun b => bitset_block_toggle_bit b (bit.toNat % IDSPERBLOCK)),
          { a with blocks := a.blocks.set (bit.toNat / IDSPERBLOCK) (some st.length) },
          ?_, ?_, rfl, rfl, by dsimp only; rw [List.length_set]⟩
        · unfold bitset_toggle_bit
          rw [if_neg hguard]
          dsimp only
          rw [hslot]
          dsimp only
          rw [bitset_block_alloc_true]
        · exact rcinv_modify (fun blk => rfl) (rcinv_fresh hk rfl hblt hslot hinv)
      · have hset : a.blocks.set (bit.toNat / IDSPERBLOCK) (some st.length) = a.blocks :=
          List.set_eq_of_length_le (Nat.le_of_not_lt hblt)
        refine ⟨rc.OK,
          store_modify (st ++ [some ⟨1, 0, List.replicate BLOCKSIZE 0⟩]) st.length
            (fun b => bitset_block_toggle_bit b (bit.toNat % IDSPERBLOCK)),
          { a with blocks := a.blocks.set (bit.toNat / IDSPERBLOCK) (some st.length) },
          ?_, ?_, rfl, rfl, by dsimp only; rw [List.length_set]⟩
        · unfold bitset_toggle_bit
          rw [if_neg hguard]
          dsimp only
          rw [hslot]
          dsimp only
          rw [bitset_block_alloc_true]
        · have ha' :
              ({ a with blocks := a.blocks.set (bit.toNat / IDSPERBLOCK) (some st.length) }
                : bitset) = a := by
            rw [hset]
          rw [ha']
          exact rcinv_modify (fun blk => rfl) (rcinv_leak _ hinv)
    | some id =>
      by_cases hshared : 1 < (store_getblk st id).ref_count
      · have hinv1 := rcinv_drop hk hslot hinv
        have hinv2 := @rcinv_fresh L k hk
          { a with blocks := a.blocks.set (bit.toNat / IDSPERBLOCK) none }
          (bitset_block_decref st id) (bit.toNat / IDSPERBLOCK)
          ⟨1, (store_getblk st id).set_count, (store_getblk st id).ints⟩ rfl
          (by dsimp only; rw [List.length_set]; exact getD_lt_length hslot)
          (by dsimp only; exact getD_set_self none none (getD_lt_length hslot)) hinv1
        rw [decref_length] at hinv2
        generalize hstR : bitset_block_decref st id ++
          [some ⟨1, (store_getblk st id).set_count, (store_getblk st id).ints⟩] = stR
          at hinv2
        refine ⟨rc.OK,
          store_modify stR st.length
            (fun b => bitset_block_toggle_bit b (bit.toNat % IDSPERBLOCK)),
          { a with blocks := (a.blocks.set (bit.toNat / IDSPERBLOCK) none).set (bit.toNat / IDSPERBLOCK) (some st.length) },
          ?_, ?_, rfl, rfl, by dsimp only; rw [List.length_set, List.length_set]⟩
        · unfold bitset_toggle_bit
          rw [if_neg hguard]
          dsimp only
          rw [hslot]
          dsimp only
          rw [if_pos hshared, bitset_block_realloc_true st hslot]
          dsimp only
          rw [hstR]
        · exact rcinv_modify (fun blk => rfl) hinv2
      · refine ⟨rc.OK,
          store_modify st id
            (fun b => bitset_block_toggle_bit b (bit.toNat % IDSPERBLOCK)), a,
          ?_, rcinv_modify (fun blk => rfl) hinv, rfl, rfl, rfl⟩
        unfold bitset_toggle_bit
        rw [if_neg hguard]
        dsimp only
        rw [hslot]
        dsimp only
        rw [if_neg hshared]

theorem eraseIdx_ge {α : Type} : ∀ (l : List α) (k : Nat), l.length ≤ k →
    l.eraseIdx k = l := by
  intro l
  induction l with
  | nil => intro k _; cases k <;> rfl
  | cons y t ih =>
    intro k hk
    cases k with
    | zero => simp at hk
    | succ m =>
      show y :: t.eraseIdx m = y :: t
      rw [ih m (by simpa using hk)]

theorem bitset_or_default (st : Store) (b : bitset) :
    ∃ e, bitset_or true st defaultBitset b = (e, st, defaultBitset) := by
  unfold bitset_or
  by_cases hbc : defaultBitset.bitcount ≠ b.bitcount
  · rw [if_pos hbc]
    exact ⟨rc.ERRINPUT, rfl⟩
  · rw [if_neg hbc]
    exact ⟨rc.OK, rfl⟩

theorem bitset_and_default (st : Store) (b : bitset) :
    ∃ e, bitset_and true st defaultBitset b = (e, st, defaultBitset) := by
  unfold bitset_and
  by_cases hbc : defaultBitset.bitcount ≠ b.bitcount
  · rw [if_pos hbc]
    exact ⟨rc.ERRINPUT, rfl⟩
  · rw [if_neg hbc]
    exact ⟨rc.OK, rfl⟩

theorem bitset_subtract_default (st : Store) (b : bitset) :
    ∃ e, bitset_subtract true st defaultBitset b = (e, st, defaultBitset) := by
  unfold bitset_subtract
  by_cases hbc : defaultBitset.bitcount ≠ b.bitcount
  · rw [if_pos hbc]
    exact ⟨rc.ERRINPUT, rfl⟩
  · rw [if_neg hbc]
    exact ⟨rc.OK, rfl⟩

/-- Duplicating `L[k]` (shallow copy plus incref pass) keeps the invariant
with the copy appended to the live list. -/
theorem dup_step_rcinv (st : Store) (L : List bitset) (k : Nat)
    (hinv : rcinvP st L) :
    rcinvP (dup_incref_loop st (L.getD k defaultBitset).blocks)
      (L ++ [(⟨(L.getD k defaultBitset).bitcount, (L.getD k defaultBitset).block_count,
        (L.getD k defaultBitset).blocks⟩ : bitset)]) := by
  have base : rcinvP st (L ++ [(⟨(L.getD k defaultBitset).bitcount,
      (L.getD k defaultBitset).block_count, ([] : List (Option Nat))⟩ : bitset)]) :=
    rcinv_append_norefs (by intro id h; simp at h) hinv
  have href : ∀ id : Nat, some id ∈ (L.getD k defaultBitset).blocks →
      referenced (L ++ [(⟨(L.getD k defaultBitset).bitcount,
        (L.getD k defaultBitset).block_count, ([] : List (Option Nat))⟩ : bitset)]) id := by
    intro id hm
    by_cases hk : k < L.length
    · exact referenced_append_iff.mpr
        (Or.inl ⟨L.getD k defaultBitset, getD_mem_lt _ hk, hm⟩)
    · rw [getD_default_ge defaultBitset (Nat.le_of_not_lt hk)] at hm
      simp [defaultBitset] at hm
  exact rcinv_dup_fold L (L.getD k defaultBitset).bitcount
    (L.getD k defaultBitset).block_count (L.getD k defaultBitset).blocks [] st base href

/-- One public operation preserves the global shape and reference-count
invariant. -/
theorem rcinv_bexec (st : Store) (L : List bitset) (o : bop)
    (hsh : shapeb L = true) (hinv : rcinvP st L) :
    shapeb (bexec st L o).2 = true ∧ rcinvP (bexec st L o).1 (bexec st L o).2 := by
  cases o with
  | opSet k bit =>
    by_cases hk : k < L.length
    · have hinvS : rcinvP st (L.set k (L.getD k defaultBitset)) := by
        rw [set_getD_self L k defaultBitset hk]
        exact hinv
      obtain ⟨e, st', a', heq, hinv', h1, h2, h3⟩ :=
        set_rcinv L k hk st bit (L.getD k defaultBitset) hinvS
      have hbe : bexec st L (bop.opSet k bit) = (st', L.set k a') := by
        show ((bitset_set true st (L.getD k defaultBitset) bit).2.1,
          L.set k (bitset_set true st (L.getD k defaultBitset) bit).2.2)
          = (st', L.set k a')
        rw [heq]
      rw [hbe]
      exact ⟨shapeb_set hsh (by rw [h3, h2]; exact shapeb_getD hsh k), hinv'⟩
    · have hdef : L.getD k defaultBitset = defaultBitset :=
        getD_default_ge defaultBitset (Nat.le_of_not_lt hk)
      have hbe : bexec st L (bop.opSet k bit) = (st, L.set k defaultBitset) := by
        show ((bitset_set true st (L.getD k defaultBitset) bit).2.1,
          L.set k (bitset_set true st (L.getD k defaultBitset) bit).2.2)
          = (st, L.set k defaultBitset)
        rw [hdef, bitset_set_default]
      rw [hbe, List.set_eq_of_length_le (Nat.le_of_not_lt hk)]
      exact ⟨hsh, hinv⟩
  | opClr k bit =>
    by_cases hk : k < L.length
    · have hinvS : rcinvP st (L.set k (L.getD k defaultBitset)) := by
        rw [set_getD_self L k defaultBitset hk]
        exact hinv
      obtain ⟨e, st', a', heq, hinv', h1, h2, h3⟩ :=
        clr_rcinv L k hk st bit (L.getD k defaultBitset) hinvS
      have hbe : bexec st L (bop.opClr k bit) = (st', L.set k a') := by
        show ((bitset_clr true st (L.getD k defaultBitset) bit).2.1,
          L.set k (bitset_clr true st (L.getD k defaultBitset) bit).2.2)
          = (st', L.set k a')
        rw [heq]
      rw [hbe]
      exact ⟨shapeb_set hsh (by rw [h3, h2]; exact shapeb_getD hsh k), hinv'⟩
    · have hdef : L.getD k defaultBitset = defaultBitset :=
        getD_default_ge defaultBitset (Nat.le_of_not_lt hk)
      have hbe : bexec st L (bop.opClr k bit) = (st, L.set k defaultBitset) := by
        show ((bitset_clr true st (L.getD k defaultBitset) bit).2.1,
          L.set k (bitset_clr true st (L.getD k defaultBitset) bit).2.2)
          = (st, L.set k defaultBitset)
        rw [hdef, bitset_clr_default]
      rw [hbe, List.set_eq_of_length_le (Nat.le_of_not_lt hk)]
      exact ⟨hsh, hinv⟩
  | opToggle k bit =>
    by_cases hk : k < L.length
    · have hinvS : rcinvP st (L.set k (L.getD k defaultBitset)) := by
        rw [set_getD_self L k defaultBitset hk]
        exact hinv
      obtain ⟨e, st', a', heq, hinv', h1, h2, h3⟩ :=
        toggle_rcinv L k hk st bit (L.getD k defaultBitset) hinvS
      have hbe : bexec st L (bop.opToggle k bit) = (st', L.set k a') := by
        show ((bitset_toggle_bit true st (L.getD k defaultBitset) bit).2.1,
          L.set k (bitset_toggle_bit true st (L.getD k defaultBitset) bit).2.2)
          = (st', L.set k a')
        rw [heq]
      rw [hbe]
      exact ⟨shapeb_set hsh (by rw [h3, h2]; exact shapeb_getD hsh k), hinv'⟩
    · have hdef : L.getD k defaultBitset = defaultBitset :=
        getD_default_ge defaultBitset (Nat.le_of_not_lt hk)
      have hbe : bexec st L (bop.opToggle k bit) = (st, L.set k defaultBitset) := by
        show ((bitset_toggle_bit true st (L.getD k defaultBitset) bit).2.1,
          L.set k (bitset_toggle_bit true st (L.getD k defaultBitset) bit).2.2)
          = (st, L.set k defaultBitset)
        rw [hdef, bitset_toggle_default]
      rw [hbe, List.set_eq_of_length_le (Nat.le_of_not_lt hk)]
      exact ⟨hsh, hinv⟩
  | opInvert k =>
    by_cases hk : k < L.length
    · have hinvS : rcinvP st (L.set k (L.getD k defaultBitset)) := by
        rw [set_getD_self L k defaultBitset hk]
        exact hinv
      obtain ⟨st', a', heq, hinv', h1, h2, h3⟩ :=
        invert_loop_rcinv L k hk
          (List.range (L.getD k defaultBitset).block_count.toNat) st
          (L.getD k defaultBitset)
          (by
            intro i hi
            rw [List.mem_range] at hi
            rw [shapeb_getD hsh k]
            exact hi)
          hinvS
      have hbe : bexec st L (bop.opInvert k) = (st', L.set k a') := by
        show ((bitset_invert true st (L.getD k defaultBitset)).2.1,
          L.set k (bitset_invert true st (L.getD k defaultBitset)).2.2)
          = (st', L.set k a')
        unfold bitset_invert
        rw [heq]
      rw [hbe]
      exact ⟨shapeb_set hsh (by rw [h3, h2]; exact shapeb_getD hsh k), hinv'⟩
    · have hdef : L.getD k defaultBitset = defaultBitset :=
        getD_default_ge defaultBitset (Nat.le_of_not_lt hk)
      have hbe : bexec st L (bop.opInvert k) = (st, L.set k defaultBitset) := by
        show ((bitset_invert true st (L.getD k defaultBitset)).2.1,
          L.set k (bitset_invert true st (L.getD k defaultBitset)).2.2)
          = (st, L.set k defaultBitset)
        rw [hdef, bitset_invert_default]
      rw [hbe, List.set_eq_of_length_le (Nat.le_of_not_lt hk)]
      exact ⟨hsh, hinv⟩
  | opOr k j =>
    by_cases hk : k < L.length
    · have hinvS : rcinvP st (L.set k (L.getD k defaultBitset)) := by
        rw [set_getD_self L k defaultBitset hk]
        exact hinv
      by_cases hbc :
          (L.getD k defaultBitset).bitcount ≠ (L.getD j defaultBitset).bitcount
      · have hbe : bexec st L (bop.opOr k j)
            = (st, L.set k (L.getD k defaultBitset)) := by
          show ((bitset_or true st (L.getD k defaultBitset)
              (L.getD j defaultBitset)).2.1,
            L.set k (bitset_or true st (L.getD k defaultBitset)
              (L.getD j defaultBitset)).2.2)
            = (st, L.set k (L.getD k defaultBitset))
          unfold bitset_or
          rw [if_pos hbc]
        rw [hbe, set_getD_self L k defaultBitset hk]
        exact ⟨hsh, hinv⟩
      · have HB : (∃ j', j' ≠ k ∧ j' < L.length ∧
            L.getD j' defaultBitset = L.getD j defaultBitset) ∨
            (∀ i : Nat, (L.getD k defaultBitset).blocks.getD i none = none →
              (L.getD j defaultBitset).blocks.getD i none = none) := by
          by_cases hjk : j = k
          · subst hjk
            exact Or.inr (fun i h => h)
          · by_cases hjlt : j < L.length
            · exact Or.inl ⟨j, hjk, hjlt, rfl⟩
            · refine Or.inr (fun i _ => ?_)
              rw [getD_default_ge defaultBitset (Nat.le_of_not_lt hjlt)]
              rfl
        obtain ⟨st', a', heq, hinv', h1, h2, h3⟩ :=
          or_loop_rcinv L k hk (L.getD j defaultBitset)
            (List.range (L.getD k defaultBitset).block_count.toNat) st
            (L.getD k defaultBitset)
            (by
              intro i hi
              rw [List.mem_range] at hi
              rw [shapeb_getD hsh k]
              exact hi)
            HB hinvS
        have hbe : bexec st L (bop.opOr k j) = (st', L.set k a') := by
          show ((bitset_or true st (L.getD k defaultBitset)
              (L.getD j defaultBitset)).2.1,
            L.set k (bitset_or true st (L.getD k defaultBitset)
              (L.getD j defaultBitset)).2.2)
            = (st', L.set k a')
          unfold bitset_or
          rw [if_neg hbc, heq]
        rw [hbe]
        exact ⟨shapeb_set hsh (by rw [h3, h2]; exact shapeb_getD hsh k), hinv'⟩
    · obtain ⟨e, hor⟩ := bitset_or_default st (L.getD j defaultBitset)
      have hdef : L.getD k defaultBitset = defaultBitset :=
        getD_default_ge defaultBitset (Nat.le_of_not_lt hk)
      have hbe : bexec st L (bop.opOr k j) = (st, L.set k defaultBitset) := by
        show ((bitset_or true st (L.getD k defaultBitset)
            (L.getD j defaultBitset)).2.1,
          L.set k (bitset_or true st (L.getD k defaultBitset)
            (L.getD j defaultBitset)).2.2)
          = (st, L.set k defaultBitset)
        rw [hdef, hor]
      rw [hbe, List.set_eq_of_length_le (Nat.le_of_not_lt hk)]
      exact ⟨hsh, hinv⟩
  | opAnd k j =>
    by_cases hk : k < L.length
    · have hinvS : rcinvP st (L.set k (L.getD k defaultBitset)) := by
        rw [set_getD_self L k defaultBitset hk]
        exact hinv
      by_cases hbc :
          (L.getD k defaultBitset).bitcount ≠ (L.getD j defaultBitset).bitcount
      · have hbe : bexec st L (bop.opAnd k j)
            = (st, L.set k (L.getD k defaultBitset)) := by
          show ((bitset_and true st (L.getD k defaultBitset)
              (L.getD j defaultBitset)).2.1,
            L.set k (bitset_and true st (L.getD k defaultBitset)
              (L.getD j defaultBitset)).2.2)
            = (st, L.set k (L.getD k defaultBitset))
          unfold bitset_and
          rw [if_pos hbc]
        rw [hbe, set_getD_self L k defaultBitset hk]
        exact ⟨hsh, hinv⟩
      · obtain ⟨st', a', heq, hinv', h1, h2, h3⟩ :=
          and_loop_rcinv L k hk (L.getD j defaultBitset)
            (List.range (L.getD k defaultBitset).block_count.toNat) st
            (L.getD k defaultBitset)
            (by
              intro i hi
              rw [List.mem_range] at hi
              rw [shapeb_getD hsh k]
              exact hi)
            hinvS
        have hbe : bexec st L (bop.opAnd k j) = (st', L.set k a') := by
          show ((bitset_and true st (L.getD k defaultBitset)
              (L.getD j defaultBitset)).2.1,
            L.set k (bitset_and true st (L.getD k defaultBitset)
              (L.getD j defaultBitset)).2.2)
            = (st', L.set k a')
          unfold bitset_and
          rw [if_neg hbc, heq]
        rw [hbe]
        exact ⟨shapeb_set hsh (by rw [h3, h2]; exact shapeb_getD hsh k), hinv'⟩
    · obtain ⟨e, hor⟩ := bitset_and_default st (L.getD j defaultBitset)
      have hdef : L.getD k defaultBitset = defaultBitset :=
        getD_default_ge defaultBitset (Nat.le_of_not_lt hk)
      have hbe : bexec st L (bop.opAnd k j) = (st, L.set k defaultBitset) := by
        show ((bitset_and true st (L.getD k defaultBitset)
            (L.getD j defaultBitset)).2.1,
          L.set k (bitset_and true st (L.getD k defaultBitset)
            (L.getD j defaultBitset)).2.2)
          = (st, L.set k defaultBitset)
        rw [hdef, hor]
      rw [hbe, List.set_eq_of_length_le (Nat.le_of_not_lt hk)]
      exact ⟨hsh, hinv⟩
  | opSubtract k j =>
    by_cases hk : k < L.length
    · have hinvS : rcinvP st (L.set k (L.getD k defaultBitset)) := by
        rw [set_getD_self L k defaultBitset hk]
        exact hinv
      by_cases hbc :
          (L.getD k defaultBitset).bitcount ≠ (L.getD j defaultBitset).bitcount
      · have hbe : bexec st L (bop.opSubtract k j)
            = (st, L.set k (L.getD k defaultBitset)) := by
          show ((bitset_subtract true st (L.getD k defaultBitset)
              (L.getD j defaultBitset)).2.1,
            L.set k (bitset_subtract true st (L.getD k defaultBitset)
              (L.getD j defaultBitset)).2.2)
            = (st, L.set k (L.getD k defaultBitset))
          unfold bitset_subtract
          rw [if_pos hbc]
        rw [hbe, set_getD_self L k defaultBitset hk]
        exact ⟨hsh, hinv⟩
      · obtain ⟨st', a', heq, hinv', h1, h2, h3⟩ :=
          subtract_loop_rcinv L k hk (L.getD j defaultBitset)
            (List.range (L.getD k defaultBitset).block_count.toNat) st
            (L.getD k defaultBitset)
            (by
              intro i hi
              rw [List.mem_range] at hi
              rw [shapeb_getD hsh k]
              exact hi)
            hinvS
        have hbe : bexec st L (bop.opSubtract k j) = (st', L.set k a') := by
          show ((bitset_subtract true st (L.getD k defaultBitset)
              (L.getD j defaultBitset)).2.1,
            L.set k (bitset_subtract true st (L.getD k defaultBitset)
              (L.getD j defaultBitset)).2.2)
            = (st', L.set k a')
          unfold bitset_subtract
          rw [if_neg hbc, heq]
        rw [hbe]
        exact ⟨shapeb_set hsh (by rw [h3, h2]; exact shapeb_getD hsh k), hinv'⟩
    · obtain ⟨e, hor⟩ := bitset_subtract_default st (L.getD j defaultBitset)
      have hdef : L.getD k defaultBitset = defaultBitset :=
        getD_default_ge defaultBitset (Nat.le_of_not_lt hk)
      have hbe : bexec st L (bop.opSubtract k j) = (st, L.set k defaultBitset) := by
        show ((bitset_subtract true st (L.getD k defaultBitset)
            (L.getD j defaultBitset)).2.1,
          L.set k (bitset_subtract true st (L.getD k defaultBitset)
            (L.getD j defaultBitset)).2.2)
          = (st, L.set k defaultBitset)
        rw [hdef, hor]
      rw [hbe, List.set_eq_of_length_le (Nat.le_of_not_lt hk)]
      exact ⟨hsh, hinv⟩
  | opDup k =>
    have hdup2 := dup_step_rcinv st L k hinv
    have hbe : bexec st L (bop.opDup k)
        = (dup_incref_loop st (L.getD k defaultBitset).blocks,
           L ++ [⟨(L.getD k defaultBitset).bitcount,
             (L.getD k defaultBitset).block_count,
             (L.getD k defaultBitset).blocks⟩]) := rfl
    rw [hbe]
    refine ⟨shapeb_append hsh ?_, hdup2⟩
    exact shapeb_getD hsh k
  | opInverse k =>
    have hdup2 := dup_step_rcinv st L k hinv
    have hk' : L.length < (L ++ [(⟨(L.getD k defaultBitset).bitcount,
        (L.getD k defaultBitset).block_count,
        (L.getD k defaultBitset).blocks⟩ : bitset)]).length := by simp
    have hinvS : rcinvP (dup_incref_loop st (L.getD k defaultBitset).blocks)
        ((L ++ [(⟨(L.getD k defaultBitset).bitcount,
          (L.getD k defaultBitset).block_count,
          (L.getD k defaultBitset).blocks⟩ : bitset)]).set L.length
          ⟨(L.getD k defaultBitset).bitcount, (L.getD k defaultBitset).block_count,
            (L.getD k defaultBitset).blocks⟩) := by
      rw [set_last_append]
      exact hdup2
    obtain ⟨st2, r', heq, hinv2, h1, h2, h3⟩ :=
      invert_loop_rcinv
        (L ++ [(⟨(L.getD k defaultBitset).bitcount,
          (L.getD k defaultBitset).block_count,
          (L.getD k defaultBitset).blocks⟩ : bitset)]) L.length hk'
        (List.range (L.getD k defaultBitset).block_count.toNat)
        (dup_incref_loop st (L.getD k defaultBitset).blocks)
        ⟨(L.getD k defaultBitset).bitcount, (L.getD k defaultBitset).block_count,
          (L.getD k defaultBitset).blocks⟩
        (by
          intro i hi
          rw [List.mem_range] at hi
          show i < (L.getD k defaultBitset).blocks.length
          rw [shapeb_getD hsh k]
          exact hi)
        hinvS
    rw [set_last_append] at hinv2
    have hbe : bexec st L (bop.opInverse k) = (st2, L ++ [r']) := by
      show ((bitset_inverse true false st (L.getD k defaultBitset)).2.1,
        appendResult L (bitset_inverse true false st (L.getD k defaultBitset)).2.2)
        = (st2, L ++ [r'])
      unfold bitset_inverse
      rw [if_neg (by simp : ¬false = true)]
      have hdup : bitset_dup true false st (L.getD k defaultBitset)
          = (rc.OK, dup_incref_loop st (L.getD k defaultBitset).blocks,
             some ⟨(L.getD k defaultBitset).bitcount,
               (L.getD k defaultBitset).block_count,
               (L.getD k defaultBitset).blocks⟩) := rfl
      rw [hdup]
      dsimp only
      have hinvert : bitset_invert true
          (dup_incref_loop st (L.getD k defaultBitset).blocks)
          (⟨(L.getD k defaultBitset).bitcount, (L.getD k defaultBitset).block_count,
            (L.getD k defaultBitset).blocks⟩ : bitset) = (rc.OK, st2, r') := by
        unfold bitset_invert
        dsimp only
        exact heq
      rw [hinvert]
      rfl
    rw [hbe]
    refine ⟨shapeb_append hsh ?_, hinv2⟩
    rw [h3, h2]
    exact shapeb_getD hsh k
  | opUnion k j =>
    have hdup2 := dup_step_rcinv st L k hinv
    have hdup : bitset_dup true false st (L.getD k defaultBitset)
        = (rc.OK, dup_incref_loop st (L.getD k defaultBitset).blocks,
           some ⟨(L.getD k defaultBitset).bitcount,
             (L.getD k defaultBitset).block_count,
             (L.getD k defaultBitset).blocks⟩) := rfl
    by_cases hbc :
        (L.getD k defaultBitset).bitcount ≠ (L.getD j defaultBitset).bitcount
    · have hor : bitset_or true (dup_incref_loop st (L.getD k defaultBitset).blocks)
          (⟨(L.getD k defaultBitset).bitcount, (L.getD k defaultBitset).block_count,
            (L.getD k defaultBitset).blocks⟩ : bitset) (L.getD j defaultBitset)
          = (rc.ERRINPUT, dup_incref_loop st (L.getD k defaultBitset).blocks,
             ⟨(L.getD k defaultBitset).bitcount, (L.getD k defaultBitset).block_count,
               (L.getD k defaultBitset).blocks⟩) := by
        unfold bitset_or
        rw [if_pos hbc]
      have hbe : bexec st L (bop.opUnion k j)
          = (bitset_free (dup_incref_loop st (L.getD k defaultBitset).blocks)
              (L.getD k defaultBitset).blocks, L) := by
        show (match bitset_dup true false st (L.getD k defaultBitset) with
          | (rc.OK, st1, some r) =>
            let p := bitset_or true st1 r (L.getD j defaultBitset)
            match p.1 with
            | rc.OK => (p.2.1, L ++ [p.2.2])
            | _ => (bitset_free p.2.1 p.2.2.blocks, L)
          | (_, st1, _) => (st1, L))
          = (bitset_free (dup_incref_loop st (L.getD k defaultBitset).blocks)
              (L.getD k defaultBitset).blocks, L)
        rw [hdup]
        dsimp only
        rw [hor]
      rw [hbe]
      exact ⟨hsh, rcinv_free_fold L (L.getD k defaultBitset).bitcount
        (L.getD k defaultBitset).block_count (L.getD k defaultBitset).blocks
        (dup_incref_loop st (L.getD k defaultBitset).blocks) hdup2⟩
    · have hk' : L.length < (L ++ [(⟨(L.getD k defaultBitset).bitcount,
          (L.getD k defaultBitset).block_count,
          (L.getD k defaultBitset).blocks⟩ : bitset)]).length := by simp
      have hinvS : rcinvP (dup_incref_loop st (L.getD k defaultBitset).blocks)
          ((L ++ [(⟨(L.getD k defaultBitset).bitcount,
            (L.getD k defaultBitset).block_count,
            (L.getD k defaultBitset).blocks⟩ : bitset)]).set L.length
            ⟨(L.getD k defaultBitset).bitcount, (L.getD k defaultBitset).block_count,
              (L.getD k defaultBitset).blocks⟩) := by
        rw [set_last_append]
        exact hdup2
      have HB : (∃ j', j' ≠ L.length ∧
          j' < (L ++ [(⟨(L.getD k defaultBitset).bitcount,
            (L.getD k defaultBitset).block_count,
            (L.getD k defaultBitset).blocks⟩ : bitset)]).length ∧
          (L ++ [(⟨(L.getD k defaultBitset).bitcount,
            (L.getD k defaultBitset).block_count,
            (L.getD k defaultBitset).blocks⟩ : bitset)]).getD j' defaultBitset
            = L.getD j defaultBitset) ∨
          (∀ i : Nat, (⟨(L.getD k defaultBitset).bitcount,
            (L.getD k defaultBitset).block_count,
            (L.getD k defaultBitset).blocks⟩ : bitset).blocks.getD i none = none →
            (L.getD j defaultBitset).blocks.getD i none = none) := by
        by_cases hjlt : j < L.length
        · refine Or.inl ⟨j, by omega, by rw [List.length_append]; simp; omega, ?_⟩
          exact getD_append_lt _ defaultBitset hjlt
        · refine Or.inr (fun i _ => ?_)
          rw [getD_default_ge defaultBitset (Nat.le_of_not_lt hjlt)]
          rfl
      obtain ⟨st2, r', heq, hinv2, h1, h2, h3⟩ :=
        or_loop_rcinv
          (L ++ [(⟨(L.getD k defaultBitset).bitcount,
            (L.getD k defaultBitset).block_count,
            (L.getD k defaultBitset).blocks⟩ : bitset)]) L.length hk'
          (L.getD j defaultBitset)
          (List.range (L.getD k defaultBitset).block_count.toNat)
          (dup_incref_loop st (L.getD k defaultBitset).blocks)
          ⟨(L.getD k defaultBitset).bitcount, (L.getD k defaultBitset).block_count,
            (L.getD k defaultBitset).blocks⟩
          (by
            intro i hi
            rw [List.mem_range] at hi
            show i < (L.getD k defaultBitset).blocks.length
            rw [shapeb_getD hsh k]
            exact hi)
          HB hinvS
      rw [set_last_append] at hinv2
      have hor : bitset_or true (dup_incref_loop st (L.getD k defaultBitset).blocks)
          (⟨(L.getD k defaultBitset).bitcount, (L.getD k defaultBitset).block_count,
            (L.getD k defaultBitset).blocks⟩ : bitset) (L.getD j defaultBitset)
          = (rc.OK, st2, r') := by
        unfold bitset_or
        rw [if_neg hbc, heq]
      have hbe : bexec st L (bop.opUnion k j) = (st2, L ++ [r']) := by
        show (match bitset_dup true false st (L.getD k defaultBitset) with
          | (rc.OK, st1, some r) =>
            let p := bitset_or true st1 r (L.getD j defaultBitset)
            match p.1 with
            | rc.OK => (p.2.1, L ++ [p.2.2])
            | _ => (bitset_free p.2.1 p.2.2.blocks, L)
          | (_, st1, _) => (st1, L))
          = (st2, L ++ [r'])
        rw [hdup]
        dsimp only
        rw [hor]
      rw [hbe]
      refine ⟨shapeb_append hsh ?_, hinv2⟩
      rw [h3, h2]
      exact shapeb_getD hsh k
  | opIntersect k j =>
    have hdup2 := dup_step_rcinv st L k hinv
    have hdup : bitset_dup true false st (L.getD k defaultBitset)
        = (rc.OK, dup_incref_loop st (L.getD k defaultBitset).blocks,
           some ⟨(L.getD k defaultBitset).bitcount,
             (L.getD k defaultBitset).block_count,
             (L.getD k defaultBitset).blocks⟩) := rfl
    by_cases hbc :
        (L.getD k defaultBitset).bitcount ≠ (L.getD j defaultBitset).bitcount
    · have hor : bitset_and true (dup_incref_loop st (L.getD k defaultBitset).blocks)
          (⟨(L.getD k defaultBitset).bitcount, (L.getD k defaultBitset).block_count,
            (L.getD k defaultBitset).blocks⟩ : bitset) (L.getD j defaultBitset)
          = (rc.ERRINPUT, dup_incref_loop st (L.getD k defaultBitset).blocks,
             ⟨(L.getD k defaultBitset).bitcount, (L.getD k defaultBitset).block_count,
               (L.getD k defaultBitset).blocks⟩) := by
        unfold bitset_and
        rw [if_pos hbc]
      have hbe : bexec st L (bop.opIntersect k j)
          = (bitset_free (dup_incref_loop st (L.getD k defaultBitset).blocks)
              (L.getD k defaultBitset).blocks, L) := by
        show (match bitset_dup true false st (L.getD k defaultBitset) with
          | (rc.OK, st1, some r) =>
            let p := bitset_and true st1 r (L.getD j defaultBitset)
            match p.1 with
            | rc.OK => (p.2.1, L ++ [p.2.2])
            | _ => (bitset_free p.2.1 p.2.2.blocks, L)
          | (_, st1, _) => (st1, L))
          = (bitset_free (dup_incref_loop st (L.getD k defaultBitset).blocks)
              (L.getD k defaultBitset).blocks, L)
        rw [hdup]
        dsimp only
        rw [hor]
      rw [hbe]
      exact ⟨hsh, rcinv_free_fold L (L.getD k defaultBitset).bitcount
        (L.getD k defaultBitset).block_count (L.getD k defaultBitset).blocks
        (dup_incref_loop st (L.getD k defaultBitset).blocks) hdup2⟩
    · have hk' : L.length < (L ++ [(⟨(L.getD k defaultBitset).bitcount,
          (L.getD k defaultBitset).block_count,
          (L.getD k defaultBitset).blocks⟩ : bitset)]).length := by simp
      have hinvS : rcinvP (dup_incref_loop st (L.getD k defaultBitset).blocks)
          ((L ++ [(⟨(L.getD k defaultBitset).bitcount,
            (L.getD k defaultBitset).block_count,
            (L.getD k defaultBitset).blocks⟩ : bitset)]).set L.length
            ⟨(L.getD k defaultBitset).bitcount, (L.getD k defaultBitset).block_count,
              (L.getD k defaultBitset).blocks⟩) := by
        rw [set_last_append]
        exact hdup2
      obtain ⟨st2, r', heq, hinv2, h1, h2, h3⟩ :=
        and_loop_rcinv
          (L ++ [(⟨(L.getD k defaultBitset).bitcount,
            (L.getD k defaultBitset).block_count,
            (L.getD k defaultBitset).blocks⟩ : bitset)]) L.length hk'
          (L.getD j defaultBitset)
          (List.range (L.getD k defaultBitset).block_count.toNat)
          (dup_incref_loop st (L.getD k defaultBitset).blocks)
          ⟨(L.getD k defaultBitset).bitcount, (L.getD k defaultBitset).block_count,
            (L.getD k defaultBitset).blocks⟩
          (by
            intro i hi
            rw [List.mem_range] at hi
            show i < (L.getD k defaultBitset).blocks.length
            rw [shapeb_getD hsh k]
            exact hi)
          hinvS
      rw [set_last_append] at hinv2
      have hor : bitset_and true (dup_incref_loop st (L.getD k defaultBitset).blocks)
          (⟨(L.getD k defaultBitset).bitcount, (L.getD k defaultBitset).block_count,
            (L.getD k defaultBitset).blocks⟩ : bitset) (L.getD j defaultBitset)
          = (rc.OK, st2, r') := by
        unfold bitset_and
        rw [if_neg hbc, heq]
      have hbe : bexec st L (bop.opIntersect k j) = (st2, L ++ [r']) := by
        show (match bitset_dup true false st (L.getD k defaultBitset) with
          | (rc.OK, st1, some r) =>
            let p := bitset_and true st1 r (L.getD j defaultBitset)
            match p.1 with
            | rc.OK => (p.2.1, L ++ [p.2.2])
            | _ => (bitset_free p.2.1 p.2.2.blocks, L)
          | (_, st1, _) => (st1, L))
          = (st2, L ++ [r'])
        rw [hdup]
        dsimp only
        rw [hor]
      rw [hbe]
      refine ⟨shapeb_append hsh ?_, hinv2⟩
      rw [h3, h2]
      exact shapeb_getD hsh k
  | opDifference k j =>
    have hdup2 := dup_step_rcinv st L k hinv
    have hdup : bitset_dup true false st (L.getD k defaultBitset)
        = (rc.OK, dup_incref_loop st (L.getD k defaultBitset).blocks,
           some ⟨(L.getD k defaultBitset).bitcount,
             (L.getD k defaultBitset).block_count,
             (L.getD k defaultBitset).blocks⟩) := rfl
    by_cases hbc :
        (L.getD k defaultBitset).bitcount ≠ (L.getD j defaultBitset).bitcount
    · have hor : bitset_subtract true
          (dup_incref_loop st (L.getD k defaultBitset).blocks)
          (⟨(L.getD k defaultBitset).bitcount, (L.getD k defaultBitset).block_count,
            (L.getD k defaultBitset).blocks⟩ : bitset) (L.getD j defaultBitset)
          = (rc.ERRINPUT, dup_incref_loop st (L.getD k defaultBitset).blocks,
             ⟨(L.getD k defaultBitset).bitcount, (L.getD k defaultBitset).block_count,
               (L.getD k defaultBitset).blocks⟩) := by
        unfold bitset_subtract
        rw [if_pos hbc]
      have hbe : bexec st L (bop.opDifference k j)
          = (bitset_free (dup_incref_loop st (L.getD k defaultBitset).blocks)
              (L.getD k defaultBitset).blocks, L) := by
        show (match bitset_dup true false st (L.getD k defaultBitset) with
          | (rc.OK, st1, some r) =>
            let p := bitset_subtract true st1 r (L.getD j defaultBitset)
            match p.1 with
            | rc.OK => (p.2.1, L ++ [p.2.2])
            | _ => (bitset_free p.2.1 p.2.2.blocks, L)
          | (_, st1, _) => (st1, L))
          = (bitset_free (dup_incref_loop st (L.getD k defaultBitset).blocks)
              (L.getD k defaultBitset).blocks, L)
        rw [hdup]
        dsimp only
        rw [hor]
      rw [hbe]
      exact ⟨hsh, rcinv_free_fold L (L.getD k defaultBitset).bitcount
        (L.getD k defaultBitset).block_count (L.getD k defaultBitset).blocks
        (dup_incref_loop st (L.getD k defaultBitset).blocks) hdup2⟩
    · have hk' : L.length < (L ++ [(⟨(L.getD k defaultBitset).bitcount,
          (L.getD k defaultBitset).block_count,
          (L.getD k defaultBitset).blocks⟩ : bitset)]).length := by simp
      have hinvS : rcinvP (dup_incref_loop st (L.getD k defaultBitset).blocks)
          ((L ++ [(⟨(L.getD k defaultBitset).bitcount,
            (L.getD k defaultBitset).block_count,
            (L.getD k defaultBitset).blocks⟩ : bitset)]).set L.length
            ⟨(L.getD k defaultBitset).bitcount, (L.getD k defaultBitset).block_count,
              (L.getD k defaultBitset).blocks⟩) := by
        rw [set_last_append]
        exact hdup2
      obtain ⟨st2, r', heq, hinv2, h1, h2, h3⟩ :=
        subtract_loop_rcinv
          (L ++ [(⟨(L.getD k defaultBitset).bitcount,
            (L.getD k defaultBitset).block_count,
            (L.getD k defaultBitset).blocks⟩ : bitset)]) L.length hk'
          (L.getD j defaultBitset)
          (List.range (L.getD k defaultBitset).block_count.toNat)
          (dup_incref_loop st (L.getD k defaultBitset).blocks)
          ⟨(L.getD k defaultBitset).bitcount, (L.getD k defaultBitset).block_count,
            (L.getD k defaultBitset).blocks⟩
          (by
            intro i hi
            rw [List.mem_range] at hi
            show i < (L.getD k defaultBitset).blocks.length
            rw [shapeb_getD hsh k]
            exact hi)
          hinvS
      rw [set_last_append] at hinv2
      have hor : bitset_subtract true
          (dup_incref_loop st (L.getD k defaultBitset).blocks)
          (⟨(L.getD k defaultBitset).bitcount, (L.getD k defaultBitset).block_count,
            (L.getD k defaultBitset).blocks⟩ : bitset) (L.getD j defaultBitset)
          = (rc.OK, st2, r') := by
        unfold bitset_subtract
        rw [if_neg hbc, heq]
      have hbe : bexec st L (bop.opDifference k j) = (st2, L ++ [r']) := by
        show (match bitset_dup true false st (L.getD k defaultBitset) with
          | (rc.OK, st1, some r) =>
            let p := bitset_subtract true st1 r (L.getD j defaultBitset)
            match p.1 with
            | rc.OK => (p.2.1, L ++ [p.2.2])
            | _ => (bitset_free p.2.1 p.2.2.blocks, L)
          | (_, st1, _) => (st1, L))
          = (st2, L ++ [r'])
        rw [hdup]
        dsimp only
        rw [hor]
      rw [hbe]
      refine ⟨shapeb_append hsh ?_, hinv2⟩
      rw [h3, h2]
      exact shapeb_getD hsh k
  | opAlloc n =>
    have hbe : bexec st L (bop.opAlloc n) = (st, L ++ [bitset_init n]) := rfl
    rw [hbe]
    refine ⟨shapeb_append hsh ?_, ?_⟩
    · dsimp only [bitset_init]
      rw [List.length_replicate]
    · refine rcinv_append_norefs ?_ hinv
      intro id h
      dsimp only [bitset_init] at h
      have := List.eq_of_mem_replicate h
      cases this
  | opFree k =>
    by_cases hk : k < L.length
    · have hperm := perm_eraseIdx_append L k hk
      have hinvP := rcinv_perm hperm hinv
      have hbe : bexec st L (bop.opFree k)
          = (bitset_free st (L.getD k defaultBitset).blocks, L.eraseIdx k) := rfl
      rw [hbe]
      exact ⟨shapeb_eraseIdx hsh k,
        rcinv_free_fold (L.eraseIdx k) (L.getD k defaultBitset).bitcount
          (L.getD k defaultBitset).block_count (L.getD k defaultBitset).blocks st hinvP⟩
    · have hdef : L.getD k defaultBitset = defaultBitset :=
        getD_default_ge defaultBitset (Nat.le_of_not_lt hk)
      have hbe : bexec st L (bop.opFree k)
          = (bitset_free st (L.getD k defaultBitset).blocks, L.eraseIdx k) := rfl
      rw [hbe, hdef, eraseIdx_ge L k (Nat.le_of_not_lt hk)]
      exact ⟨hsh, hinv⟩

/-- C7: at every quiescent point (between public operations) every present
slot's block is live and its `ref_count` equals exactly the number of bitset
slots, across all live bitsets, holding an owning reference to it: the
invariant `shapeb && rcinvb` is preserved by every public operation `bexec`
runs (set/clr/toggle, invert, or/and/subtract, dup, inverse,
union/intersect/difference, alloc, free). -/
theorem C7_refcount_invariant (st : Store) (L : List bitset) (o : bop)
    (h : (shapeb L && rcinvb st L) = true) :
    (shapeb (bexec st L o).2 && rcinvb (bexec st L o).1 (bexec st L o).2) = true := by
  rw [Bool.and_eq_true] at h
  obtain ⟨g1, g2⟩ := rcinv_bexec st L o h.1 ((rcinv_iff st L).mp h.2)
  rw [Bool.and_eq_true]
  exact ⟨g1, (rcinv_iff _ _).mpr g2⟩

theorem C7_refcount_invariant_witness :
    (shapeb [(⟨128, 1, [some 0]⟩ : bitset), ⟨128, 1, [some 0]⟩]
      && rcinvb [some ⟨2, 1, [1, 0]⟩]
        [(⟨128, 1, [some 0]⟩ : bitset), ⟨128, 1, [some 0]⟩]) = true ∧
    (shapeb (bexec [some ⟨2, 1, [1, 0]⟩]
        [(⟨128, 1, [some 0]⟩ : bitset), ⟨128, 1, [some 0]⟩] (bop.opSet 0 5)).2
      && rcinvb (bexec [some ⟨2, 1, [1, 0]⟩]
        [(⟨128, 1, [some 0]⟩ : bitset), ⟨128, 1, [some 0]⟩] (bop.opSet 0 5)).1
        (bexec [some ⟨2, 1, [1, 0]⟩]
          [(⟨128, 1, [some 0]⟩ : bitset), ⟨128, 1, [some 0]⟩]
          (bop.opSet 0 5)).2) = true :=
  ⟨by decide, C7_refcount_invariant [some ⟨2, 1, [1, 0]⟩]
    [(⟨128, 1, [some 0]⟩ : bitset), ⟨128, 1, [some 0]⟩] (bop.opSet 0 5) (by decide)⟩
